import Mathlib

/-!
# A first-fit free-list allocator over a 256-byte arena

Shallow embedding of `alloc.c` (LP64: `size_t` and pointers are 64-bit words,
`sizeof (struct ctrl) = 16`).

* The arena `heap` is a list of bytes.  A `size_t` or pointer field is read and
  written as eight little-endian bytes.
* Pointers are machine addresses (`Nat`, below `2^64`).  The address of
  `heap[0]` is the parameter `base`; it is the only thing the linker decides.
* An access outside the arena is undefined behaviour in C; here it makes the
  operation return `none`.  A loop that does not finish within its fuel also
  returns `none`.
* `struct ctrl **` values are modelled by `Loc`: either `&free_list_start`
  or `&(b->next)` for a header address `b`.
-/

namespace Alloc

/-! ## Constants -/

/-- Number of values of a 64-bit word. -/
def W : Nat := 2 ^ 64

/-- Source: `const size_t memsize = 256;`. -/
def memsize : Nat := 256

/-- Source: `const size_t blocksize = sizeof (struct ctrl);` (two 8-byte fields). -/
def blocksize : Nat := 16

/-- Source: `NULL`. -/
def NULL : Nat := 0

/-- Source: `struct ctrl* ALLOCATED = (struct ctrl*) 0xADDE;`. -/
def ALLOCATED : Nat := 0xADDE

/-- Bound on loop iterations; a loop that needs more returns `none`. -/
def loopFuel : Nat := memsize

/-! ## Byte memory -/

/-- Little-endian value of the `k` bytes of `m` starting at index `o`. -/
def rdLE (m : List Nat) : Nat → Nat → Nat
  | _, 0 => 0
  | o, k + 1 => m.getD o 0 + 256 * rdLE m (o + 1) k

/-- Store the low `k` bytes of `v`, little-endian, at index `o` of `m`. -/
def wrLE (m : List Nat) : Nat → Nat → Nat → List Nat
  | _, _, 0 => m
  | o, v, k + 1 => wrLE (m.set o (v % 256)) (o + 1) (v / 256) k

/-- The eight bytes at address `a` lie inside the arena. -/
def InHeap (base a : Nat) : Prop := base ≤ a ∧ a + 8 ≤ base + memsize

instance (base a : Nat) : Decidable (InHeap base a) := by
  unfold InHeap; infer_instance

/-- Read a 64-bit word at address `a`. -/
def load (base : Nat) (hp : List Nat) (a : Nat) : Option Nat :=
  if InHeap base a then some (rdLE hp (a - base) 8) else none

/-- Write a 64-bit word at address `a`. -/
def store (base : Nat) (hp : List Nat) (a v : Nat) : Option (List Nat) :=
  if InHeap base a then some (wrLE hp (a - base) v 8) else none

/-! ## Program state -/

/-- The globals of `alloc.c`. -/
structure State where
  initialized : Nat
  heap : List Nat
  free_list_start : Nat
  deriving DecidableEq, Repr

/-- State at program start: statics are zero-initialised. -/
def State.start : State :=
  { initialized := 0, heap := List.replicate memsize 0, free_list_start := NULL }

/-- A value of type `struct ctrl **` as used by the two loops. -/
inductive Loc where
  | head : Loc
  | nextOf (b : Nat) : Loc
  deriving DecidableEq, Repr

/-- Read `b->size`. -/
def getSize (base : Nat) (s : State) (b : Nat) : Option Nat :=
  load base s.heap b

/-- Read `b->next`. -/
def getNext (base : Nat) (s : State) (b : Nat) : Option Nat :=
  load base s.heap ((b + 8) % W)

/-- Write `b->size = v`. -/
def setSize (base : Nat) (s : State) (b v : Nat) : Option State :=
  (store base s.heap b v).map fun h => { s with heap := h }

/-- Write `b->next = v`. -/
def setNext (base : Nat) (s : State) (b v : Nat) : Option State :=
  (store base s.heap ((b + 8) % W) v).map fun h => { s with heap := h }

/-- Read `*l`. -/
def deref (base : Nat) (s : State) : Loc → Option Nat
  | .head => some s.free_list_start
  | .nextOf b => getNext base s b

/-- Write `*l = v`. -/
def assign (base : Nat) (s : State) : Loc → Nat → Option State
  | .head, v => some { s with free_list_start := v }
  | .nextOf b, v => setNext base s b v

/-! ## The functions of `alloc.c` -/

/-- Source: `init`. -/
def init (base : Nat) (s : State) : Option State := do
  let initial := base
  let s ← setSize base s initial ((memsize + W - blocksize) % W)
  let s ← setNext base s initial NULL
  some { s with free_list_start := initial, initialized := 1 }

/-- Source: `byteafter`. -/
def byteafter (base : Nat) (s : State) (blk : Nat) : Option Nat := do
  let sz ← getSize base s blk
  some ((blk + blocksize + sz) % W)

/-- Source: the rounding `(7 + nbytes) & (~7)` on `size_t`. -/
def roundUp (nbytes : Nat) : Nat := ((7 + nbytes) % W) &&& (W - 8)

/-- Source: the search loop of `alloc` (lines 61-64); returns the final `blk`. -/
def findBlock (base : Nat) (s : State) (nbytes : Nat) : Nat → Loc → Option Loc
  | 0, _ => none
  | fuel + 1, blk => do
    let b ← deref base s blk
    if b = NULL then some blk
    else
      let sz ← getSize base s b
      if sz < nbytes then findBlock base s nbytes fuel (.nextOf b)
      else some blk

/-- Source: `alloc`, lines 70-86: the body of the split branch, entered with
`b = *blk`; the result is the new state and the returned pointer. -/
def allocSplit (base : Nat) (s : State) (nbytes : Nat) (blk : Loc) (b : Nat) :
    Option (State × Nat) := do
  let ptr := (b + blocksize) % W
  let split := (ptr + nbytes) % W
  -- split->size = (*blk)->size - nbytes - blocksize;
  let b1 ← deref base s blk
  let sz1 ← getSize base s b1
  let s ← setSize base s split ((sz1 + 2 * W - nbytes - blocksize) % W)
  -- split->next = (*blk)->next;
  let b2 ← deref base s blk
  let nx ← getNext base s b2
  let s ← setNext base s split nx
  -- (*blk)->size = nbytes;
  let b3 ← deref base s blk
  let s ← setSize base s b3 nbytes
  -- (*blk)->next = ALLOCATED;
  let b4 ← deref base s blk
  let s ← setNext base s b4 ALLOCATED
  -- *blk = split;
  let s ← assign base s blk split
  some (s, ptr)

/-- Source: `alloc`; the result is the new state and the returned pointer. -/
def alloc (base : Nat) (s : State) (nbytes : Nat) : Option (State × Nat) := do
  let s ← if s.initialized = 0 then init base s else some s
  let nbytes := roundUp nbytes
  if nbytes = 0 then some (s, NULL)
  else
    let blk ← findBlock base s nbytes loopFuel .head
    let b ← deref base s blk
    if b = NULL then some (s, NULL)
    else
      let sz ← getSize base s b
      if sz > (nbytes + blocksize) % W then
        allocSplit base s nbytes blk b
      else
        let ptr := (b + blocksize) % W
        let b1 ← deref base s blk
        let next ← getNext base s b1
        let b2 ← deref base s blk
        let s ← setNext base s b2 ALLOCATED
        let s ← assign base s blk next
        some (s, ptr)

/-- Source: the scan loop of `free` (lines 112-127); returns the state and the final `blk`. -/
def scan (base : Nat) : Nat → State → Nat → Loc → Option (State × Nat)
  | 0, _, _, _ => none
  | fuel + 1, s, blk, adj => do
    let a ← deref base s adj
    if a = NULL then some (s, blk)
    else
      let ea ← byteafter base s a
      if ea = blk then
        -- (*adj)->size += blocksize + blk->size;
        let bsz ← getSize base s blk
        let a1 ← deref base s adj
        let asz ← getSize base s a1
        let s ← setSize base s a1 ((asz + (blocksize + bsz) % W) % W)
        -- blk = *adj;
        let blk ← deref base s adj
        -- *adj = (*adj)->next;
        let a2 ← deref base s adj
        let nx ← getNext base s a2
        let s ← assign base s adj nx
        scan base fuel s blk adj
      else
        let eb ← byteafter base s blk
        let a1 ← deref base s adj
        if eb = a1 then
          -- blk->size += blocksize + (*adj)->size;
          let a2 ← deref base s adj
          let asz ← getSize base s a2
          let bsz ← getSize base s blk
          let s ← setSize base s blk ((bsz + (blocksize + asz) % W) % W)
          -- *adj = (*adj)->next;
          let a3 ← deref base s adj
          let nx ← getNext base s a3
          let s ← assign base s adj nx
          scan base fuel s blk adj
        else
          let a2 ← deref base s adj
          scan base fuel s blk (.nextOf a2)

/-- Source: `free`. -/
def free (base : Nat) (s : State) (ptr : Nat) : Option State := do
  let blk := (ptr + W - blocksize) % W
  if ptr = NULL then some s
  else
    let nx ← getNext base s blk
    if nx ≠ ALLOCATED then some s
    else
      let s ← setNext base s blk NULL
      let (s, blk) ← scan base loopFuel s blk .head
      let s ← setNext base s blk s.free_list_start
      some { s with free_list_start := blk }

/-! ## Observing a state -/

/-- Assumption on where the linker put `heap`: no header address is `NULL` or
`ALLOCATED`, and one past the end of the arena is still an address. -/
def BaseOK (base : Nat) : Prop := ALLOCATED < base ∧ base + memsize < W

instance (base : Nat) : Decidable (BaseOK base) := by
  unfold BaseOK; infer_instance

/-- Walk the arena header to header from address `a`: the block whose header is
at `a` with recorded size `sz` is followed by the header at `a + 16 + sz`.
The walk succeeds only if it ends exactly at the end of the arena. -/
def walk (base : Nat) (hp : List Nat) : Nat → Nat → Option (List (Nat × Nat))
  | 0, _ => none
  | fuel + 1, a =>
    if a = base + memsize then some []
    else if base + memsize < a + blocksize then none
    else do
      let sz ← load base hp a
      let rest ← walk base hp fuel (a + blocksize + sz)
      some ((a, sz) :: rest)

/-- The blocks `(header address, recorded size)` of the arena, in address order. -/
def blocks (base : Nat) (s : State) : Option (List (Nat × Nat)) :=
  walk base s.heap loopFuel base

/-- Follow `next` from `a` until `NULL`. -/
def chainFrom (base : Nat) (hp : List Nat) : Nat → Nat → Option (List Nat)
  | 0, _ => none
  | fuel + 1, a =>
    if a = NULL then some []
    else do
      let nx ← load base hp (a + 8)
      let rest ← chainFrom base hp fuel nx
      some (a :: rest)

/-- The header addresses of the free list, in list order. -/
def freeList (base : Nat) (s : State) : Option (List Nat) :=
  chainFrom base s.heap loopFuel s.free_list_start

/-! ## Client histories -/

/-- A call made by the client. -/
inductive Op where
  | alloc (n : Nat) : Op
  | free (p : Nat) : Op
  deriving DecidableEq, Repr

/-- A state together with what the client has been given: `issued` are the
non-null pointers returned by `alloc` so far, `live` those not released since. -/
structure Hist where
  st : State
  issued : List Nat
  live : List Nat
  deriving DecidableEq, Repr

/-- Before any call. -/
def Hist.start : Hist := { st := State.start, issued := [], live := [] }

/-- One client call.  `alloc` takes any `size_t`; `free` takes `NULL` or a
pointer returned by an earlier `alloc`. Between two calls the arena is left as
the allocator wrote it: the stores of the client are not part of `step`, they
are added by `stepC` below. -/
def step (base : Nat) (h : Hist) : Op → Option Hist
  | .alloc n =>
    if n < W then
      (alloc base h.st n).map fun r =>
        if r.2 = NULL then { h with st := r.1 }
        else { st := r.1, issued := r.2 :: h.issued, live := r.2 :: h.live }
    else none
  | .free p =>
    if p = NULL ∨ p ∈ h.issued then
      (free base h.st p).map fun s => { h with st := s, live := h.live.erase p }
    else none

/-- The call `op` is one the client may make in history `h`. -/
def Op.valid (h : Hist) : Op → Prop
  | .alloc n => n < W
  | .free p => p = NULL ∨ p ∈ h.issued

/-- The first step of `alloc`: run `init` unless already initialised. -/
def lazyInit (base : Nat) (s : State) : Option State :=
  if s.initialized = 0 then init base s else some s

/-- A sequence of client calls. -/
def run (base : Nat) : Hist → List Op → Option Hist
  | h, [] => some h
  | h, op :: ops => (step base h op).bind fun h1 => run base h1 ops

/-- States obtained from program start by a finite sequence of calls alone,
without client stores in between (for histories with stores see `ReachC` and
`ReachG`). -/
def Reachable (base : Nat) (h : Hist) : Prop :=
  ∃ ops, run base Hist.start ops = some h

/-- The history after the calls `ops` from program start (program start itself
if a call is not allowed or fails). -/
def histAfter (base : Nat) (ops : List Op) : Hist :=
  (run base Hist.start ops).getD Hist.start

/-- The state after `alloc n` in state `s` (`s` itself if the call fails). -/
def allocState (base : Nat) (s : State) (n : Nat) : State :=
  ((alloc base s n).getD (s, NULL)).1

/-- The blocks `bs` tile the address range from `a` to `e`; every recorded
size is a positive multiple of 8. -/
def Tile : Nat → Nat → List (Nat × Nat) → Prop
  | a, e, [] => a = e
  | a, e, b :: r => b.1 = a ∧ 0 < b.2 ∧ b.2 % 8 = 0 ∧ Tile (a + 16 + b.2) e r

/-- Following `next` from pointer `a` visits exactly the headers `fl` and then
arrives at pointer `e`. -/
def Seg (base : Nat) (hp : List Nat) : Nat → List Nat → Nat → Prop
  | a, [], e => a = e
  | a, x :: r, e => a = x ∧ ∃ nx, load base hp (x + 8) = some nx ∧ Seg base hp nx r e

/-- Following `next` from pointer `a` visits exactly the headers `fl`, then `NULL`. -/
def Chain (base : Nat) (hp : List Nat) (a : Nat) (fl : List Nat) : Prop :=
  Seg base hp a fl 0

/-- The location reached after walking over the free-list prefix `pre`. -/
def locAfter : List Nat → Loc
  | [] => .head
  | [y] => .nextOf y
  | _ :: z :: r => locAfter (z :: r)

/-- The heap `hp1` has the bytes of `hp` at every index outside `P`. -/
def Frame (hp hp1 : List Nat) (P : Nat → Prop) : Prop :=
  hp1.length = hp.length ∧ ∀ i, ¬ P i → hp1.getD i 0 = hp.getD i 0

/-- Byte indices of the word at address `a`. -/
def wordAt (base a : Nat) (i : Nat) : Prop := a - base ≤ i ∧ i < a - base + 8

/-- Address of the word behind `locAfter pre` when it lies in the arena, else `0`. -/
def locWord : List Nat → Nat
  | [] => 0
  | [y] => y + 8
  | _ :: z :: r => locWord (z :: r)

/-- The heap `hp` with list head `fls` represents the partition `bs` and the
free list `fl`; the blocks in `X` are in transit (neither marked nor listed).
The proposition `K` says that all bytes outside block headers are as the
allocator left them (the client has stored nothing): only then is every
`ALLOCATED` word at a header position the marker of a block (`stale`). -/
structure WF (K : Prop) (base : Nat) (hp : List Nat) (fls : Nat) (bs : List (Nat × Nat))
    (fl : List Nat) (X : List Nat) : Prop where
  len : hp.length = 256
  tile : Tile base (base + 256) bs
  sizes : ∀ b ∈ bs, load base hp b.1 = some b.2
  chain : Chain base hp fls fl
  sub : ∀ x ∈ fl, x ∈ bs.map Prod.fst
  nodup : fl.Nodup
  marked : ∀ b ∈ bs, b.1 ∉ fl → b.1 ∉ X → load base hp (b.1 + 8) = some ALLOCATED
  stale : K → ∀ a, base ≤ a → a + 16 ≤ base + 256 → (a - base) % 8 = 0 →
    load base hp (a + 8) = some ALLOCATED → a ∈ bs.map Prod.fst ∧ a ∉ X
  noadj : ∀ b ∈ bs, b.1 ∈ fl → b.1 + 16 + b.2 ∉ fl

/-- Invariant of the scan loop of `free`: `kept` are the list entries already
passed, `todo` the entries still to visit, and the block being released is
`(cb, csz)`; no entry of `kept` is a neighbour of it. -/
structure ScanInv (K : Prop) (base : Nat) (hp : List Nat) (fls : Nat)
    (bs : List (Nat × Nat)) (kept todo : List Nat) (cb csz : Nat) : Prop where
  wf : WF K base hp fls bs (kept ++ todo) [cb]
  blk : (cb, csz) ∈ bs
  notin : cb ∉ kept ++ todo
  keptL : ∀ b ∈ bs, b.1 ∈ kept → b.1 + 16 + b.2 ≠ cb
  keptR : cb + 16 + csz ∉ kept

/-- The list entry `y` is not one of the neighbours `Lo`, `Ro` absorbed by a merge. -/
def notMerged (Lo Ro : Option (Nat × Nat)) (y : Nat) : Bool :=
  decide (Lo.map Prod.fst ≠ some y) && decide (Ro.map Prod.fst ≠ some y)

/-- Bytes of the headers at the addresses in `l`. -/
def inHeaders (base : Nat) (l : List Nat) (j : Nat) : Prop :=
  ∃ a ∈ l, a - base ≤ j ∧ j < a - base + 16

/-- The history `h` is initialised, its state represents the partition `bs`
with free list `fl`, the live pointers are exactly the payload addresses of the
blocks outside the free list, and every issued pointer is an aligned payload
position of the arena. -/
structure Good (K : Prop) (base : Nat) (h : Hist) (bs : List (Nat × Nat)) (fl : List Nat) :
    Prop where
  init : h.st.initialized = 1
  wf : WF K base h.st.heap h.st.free_list_start bs fl []
  nodup : h.live.Nodup
  live : ∀ p, p ∈ h.live ↔ ∃ b ∈ bs, b.1 ∉ fl ∧ p = b.1 + 16
  issued : ∀ p ∈ h.issued, base + 16 ≤ p ∧ p ≤ base + 256 ∧ (p - base) % 8 = 0
  liveIssued : ∀ p ∈ h.live, p ∈ h.issued

/-- Invariant of histories of calls without client stores. -/
def HInv (base : Nat) (h : Hist) : Prop :=
  h = Hist.start ∨ ∃ bs fl, Good True base h bs fl

/-! ## Further observations -/

/-- The blocks of the arena. `init` is the only code that creates the first
control block, so as long as it has not run (`initialized = 0`) the arena holds
no block; afterwards the blocks are the ones found by the walk `blocks`. -/
def arenaBlocks (base : Nat) (s : State) : Option (List (Nat × Nat)) :=
  if s.initialized = 0 then some [] else blocks base s

/-- Source: `alloc`, lines 53-68, in a state that needs no lazy initialisation:
the block at which the search loop stops. There is none when the rounded
request is 0 (the function returns before the search) or when the search runs
off the end of the list. -/
def firstFit (base : Nat) (s : State) (nbytes : Nat) : Option Nat :=
  let nbytes := roundUp nbytes
  if nbytes = 0 then none
  else do
    let blk ← findBlock base s nbytes loopFuel .head
    let b ← deref base s blk
    if b = NULL then none else some b

/-- Source: `free`, lines 114-126: one iteration of the scan loop, entered with
`*adj = a` not null. The result is the state, `blk` and `adj` with which the
loop test is evaluated next. -/
def scanBody (base : Nat) (s : State) (blk : Nat) (adj : Loc) (a : Nat) :
    Option (State × Nat × Loc) := do
  let ea ← byteafter base s a
  if ea = blk then
    -- (*adj)->size += blocksize + blk->size;
    let bsz ← getSize base s blk
    let a1 ← deref base s adj
    let asz ← getSize base s a1
    let s ← setSize base s a1 ((asz + (blocksize + bsz) % W) % W)
    -- blk = *adj;
    let blk ← deref base s adj
    -- *adj = (*adj)->next;
    let a2 ← deref base s adj
    let nx ← getNext base s a2
    let s ← assign base s adj nx
    some (s, blk, adj)
  else
    let eb ← byteafter base s blk
    let a1 ← deref base s adj
    if eb = a1 then
      -- blk->size += blocksize + (*adj)->size;
      let a2 ← deref base s adj
      let asz ← getSize base s a2
      let bsz ← getSize base s blk
      let s ← setSize base s blk ((bsz + (blocksize + asz) % W) % W)
      -- *adj = (*adj)->next;
      let a3 ← deref base s adj
      let nx ← getNext base s a3
      let s ← assign base s adj nx
      some (s, blk, adj)
    else
      let a2 ← deref base s adj
      some (s, blk, .nextOf a2)

/-- The scan loop of `free` with a record of the entries it examines: the
value of `*adj` at every evaluation of the loop test that finds it not null, in
order. The loop is the one of `scan`, iterating `scanBody`. -/
def scanLog (base : Nat) : Nat → State → Nat → Loc → Option (List Nat)
  | 0, _, _, _ => none
  | fuel + 1, s, blk, adj => do
    let a ← deref base s adj
    if a = NULL then some []
    else
      let r ← scanBody base s blk adj a
      let rest ← scanLog base fuel r.1 r.2.1 r.2.2
      some (a :: rest)

/-- An action of the client: a call of `alloc`, a call of `free`, or the store
of the byte `v` at address `a`. -/
inductive Act where
  | alloc (n : Nat)
  | free (p : Nat)
  | store (a v : Nat)
  deriving DecidableEq, Repr

/-- Address `a` lies in the header of one of the blocks `bs`. -/
def inHeader (bs : List (Nat × Nat)) (a : Nat) : Bool :=
  bs.any fun b => decide (b.1 ≤ a) && decide (a < b.1 + blocksize)

/-- The client may store at address `a` in state `s`: the address lies in the
arena and not in the header of a block (the client never writes into
headers). -/
def storeOK (base : Nat) (s : State) (a : Nat) : Bool :=
  decide (base ≤ a) && decide (a < base + memsize) &&
    match arenaBlocks base s with
    | some bs => !inHeader bs a
    | none => false

/-- One action of the client. The calls are those of `step` (`alloc` with a
`size_t` value, `free` with null or a pointer `alloc` has returned before); a
store writes one byte outside the block headers. -/
def stepC (base : Nat) (h : Hist) : Act → Option Hist
  | .alloc n => step base h (.alloc n)
  | .free p => step base h (.free p)
  | .store a v =>
    if storeOK base h.st a = true ∧ v < 256 then
      some { h with st := { h.st with heap := h.st.heap.set (a - base) v } }
    else none

/-- A sequence of client actions. -/
def runC (base : Nat) : Hist → List Act → Option Hist
  | h, [] => some h
  | h, a :: as => (stepC base h a).bind fun h1 => runC base h1 as

/-- States obtained from program start by a finite sequence of calls and
stores. -/
def ReachC (base : Nat) (h : Hist) : Prop :=
  ∃ acts, runC base Hist.start acts = some h

/-- The action releases nothing that `free` could mistake for an allocated
block: a pointer passed to `free` is null, or live, or the `next` field of
the header before it does not hold the `ALLOCATED` marker, so that the call
takes the early return of `free`. -/
def Act.safe (base : Nat) (h : Hist) : Act → Bool
  | .free p => decide (p = NULL) || decide (p ∈ h.live) ||
      decide (getNext base h.st (p - blocksize) ≠ some ALLOCATED)
  | _ => true

/-- One action of a client that releases no stale pointer whose header position
holds the marker. -/
def stepG (base : Nat) (h : Hist) (a : Act) : Option Hist :=
  if a.safe base h = true then stepC base h a else none

/-- A sequence of such actions. -/
def runG (base : Nat) : Hist → List Act → Option Hist
  | h, [] => some h
  | h, a :: as => (stepG base h a).bind fun h1 => runG base h1 as

/-- States obtained from program start by calls and stores in which no stale
pointer with a marker at its header position is released. -/
def ReachG (base : Nat) (h : Hist) : Prop :=
  ∃ acts, runG base Hist.start acts = some h

/-- The history after the actions `acts` from program start (program start
itself if an action is not allowed or fails). -/
def histAfterC (base : Nat) (acts : List Act) : Hist :=
  (runC base Hist.start acts).getD Hist.start

/-- Invariant of histories with stores: either `init` has not run, no pointer
has been issued and the list head is null, or the history is good (without
the exclusion of stale markers, which stores can create). -/
def HInvC (base : Nat) (h : Hist) : Prop :=
  (h.st.initialized = 0 ∧ h.st.free_list_start = 0 ∧ h.st.heap.length = 256 ∧
      h.issued = [] ∧ h.live = []) ∨
    ∃ bs fl, Good False base h bs fl

/-- A call of `alloc` or `free` as a client action. -/
def Op.act : Op → Act
  | .alloc n => .alloc n
  | .free p => .free p

/-! ## Example traces (arena at address 65536) -/

/-- Two blocks of 8 bytes are allocated and released again, a block of 104
bytes is allocated over both, and the client stores the bytes `DE AD` of the
marker into its payload, at offset 32, where the `next` field of the second,
now stale header used to be. The pointer 65576 of that stale header was
returned by the second call of `alloc`. -/
def markerTrace : List Act :=
  [.alloc 8, .alloc 8, .free 65576, .free 65552, .alloc 100,
    .store 65568 0xDE, .store 65569 0xAD]

/-- A trace with stores in which every release is of a live pointer or takes
the early return: three blocks are allocated, the client fills the second
payload with the bytes of the marker, the first block is released twice and
the third once. The pointer 65576 stays live. -/
def storeTrace : List Act :=
  [.alloc 8, .alloc 8, .alloc 8, .store 65576 0xDE, .store 65577 0xAD,
    .free 65552, .free 65552, .free 65600]

/-- The trace `storeTrace` followed by the release of its last live pointer. -/
def drainTrace : List Act := storeTrace ++ [.free 65576]

/-! # Proofs -/

theorem length_wrLE (m : List Nat) (o v k : Nat) : (wrLE m o v k).length = m.length := by
  induction k generalizing m o v with
  | zero => rfl
  | succ k ih => simp [wrLE, ih]

theorem rdLE_set_disj (m : List Nat) (i x o k : Nat) (h : i < o ∨ o + k ≤ i) :
    rdLE (m.set i x) o k = rdLE m o k := by
  induction k generalizing o with
  | zero => rfl
  | succ k ih =>
    have hne : i ≠ o := by omega
    simp only [rdLE]
    rw [ih (o + 1) (by omega)]
    simp [List.getD_eq_getElem?_getD, List.getElem?_set_ne hne]

theorem rdLE_wrLE_disj (m : List Nat) (o v k o2 k2 : Nat) (h : o + k ≤ o2 ∨ o2 + k2 ≤ o) :
    rdLE (wrLE m o v k) o2 k2 = rdLE m o2 k2 := by
  induction k generalizing m o v with
  | zero => rfl
  | succ k ih =>
    simp only [wrLE]
    rw [ih _ _ _ (by omega), rdLE_set_disj _ _ _ _ _ (by omega)]

theorem getD_wrLE_lt (m : List Nat) (o v k i : Nat) (h : i < o) :
    (wrLE m o v k).getD i 0 = m.getD i 0 := by
  induction k generalizing m o v with
  | zero => rfl
  | succ k ih =>
    simp only [wrLE]
    rw [ih _ _ _ (by omega)]
    have hne : o ≠ i := by omega
    simp [List.getD_eq_getElem?_getD, List.getElem?_set_ne hne]

theorem rdLE_wrLE_same (m : List Nat) (o v k : Nat) (h : o + k ≤ m.length) :
    rdLE (wrLE m o v k) o k = v % 256 ^ k := by
  induction k generalizing m o v with
  | zero => simp [rdLE, Nat.mod_one]
  | succ k ih =>
    simp only [wrLE, rdLE]
    rw [ih _ _ _ (by simp; omega), getD_wrLE_lt _ _ _ _ _ (by omega)]
    have ho : o < m.length := by omega
    simp only [List.getD_eq_getElem?_getD, List.getElem?_set_self ho, Option.getD_some]
    rw [pow_succ', Nat.mod_mul]

theorem land_mask (x : Nat) (hx : x < W) : x &&& (W - 8) = x / 8 * 8 := by
  have hm : W - 8 = (2 ^ 61 - 1) <<< 3 := by decide
  have hd : x / 8 * 8 = (x >>> 3) <<< 3 := by
    rw [Nat.shiftLeft_eq, Nat.shiftRight_eq_div_pow]
  rw [hm, hd]
  apply Nat.eq_of_testBit_eq
  intro i
  simp only [Nat.testBit_and, Nat.testBit_shiftLeft, Nat.testBit_shiftRight,
    Nat.testBit_two_pow_sub_one]
  by_cases h3 : 3 ≤ i
  · have e : 3 + (i - 3) = i := by omega
    simp only [h3, ge_iff_le, decide_True, Bool.true_and, e]
    by_cases h64 : i < 64
    · have : i - 3 < 61 := by omega
      simp [this]
    · have : ¬ (i - 3 < 61) := by omega
      simp only [this, decide_False, Bool.and_false]
      symm
      apply Nat.testBit_eq_false_of_lt
      have : 2 ^ 64 ≤ 2 ^ i := Nat.pow_le_pow_right (by decide) (by omega)
      unfold W at hx; omega
  · simp [h3]

theorem roundUp_eq (n : Nat) : roundUp n = (7 + n) % W / 8 * 8 := by
  unfold roundUp
  exact land_mask _ (Nat.mod_lt _ (by decide))

theorem roundUp_mod8 (n : Nat) : roundUp n % 8 = 0 := by
  rw [roundUp_eq]; omega

theorem roundUp_lt (n : Nat) : roundUp n < 18446744073709551616 := by
  rw [roundUp_eq]; simp only [W]; omega

theorem inHeap_iff (base a : Nat) : InHeap base a ↔ base ≤ a ∧ a + 8 ≤ base + 256 := Iff.rfl

theorem load_some_iff {base : Nat} {hp : List Nat} {a v : Nat} :
    load base hp a = some v ↔ (base ≤ a ∧ a + 8 ≤ base + 256) ∧ v = rdLE hp (a - base) 8 := by
  unfold load
  by_cases h : InHeap base a
  · simp only [h, if_true, Option.some.injEq]
    constructor
    · intro e; exact ⟨h, e.symm⟩
    · intro e; exact e.2.symm
  · simp only [h, if_false]
    constructor
    · intro e; cases e
    · intro e; exact absurd e.1 h

theorem load_inHeap {base : Nat} {hp : List Nat} {a v : Nat} (h : load base hp a = some v) :
    base ≤ a ∧ a + 8 ≤ base + 256 := (load_some_iff.1 h).1

theorem load_isSome (base : Nat) (hp : List Nat) {a : Nat} (h1 : base ≤ a)
    (h2 : a + 8 ≤ base + 256) : ∃ v, load base hp a = some v :=
  ⟨_, load_some_iff.2 ⟨⟨h1, h2⟩, rfl⟩⟩

theorem store_some_iff {base : Nat} {hp hp1 : List Nat} {a v : Nat} :
    store base hp a v = some hp1 ↔
      (base ≤ a ∧ a + 8 ≤ base + 256) ∧ hp1 = wrLE hp (a - base) v 8 := by
  unfold store
  by_cases h : InHeap base a
  · simp only [h, if_true, Option.some.injEq]
    constructor
    · intro e; exact ⟨h, e.symm⟩
    · intro e; exact e.2.symm
  · simp only [h, if_false]
    constructor
    · intro e; cases e
    · intro e; exact absurd e.1 h

theorem store_isSome (base : Nat) (hp : List Nat) {a : Nat} (v : Nat) (h1 : base ≤ a)
    (h2 : a + 8 ≤ base + 256) : ∃ hp1, store base hp a v = some hp1 :=
  ⟨_, store_some_iff.2 ⟨⟨h1, h2⟩, rfl⟩⟩

theorem store_length {base : Nat} {hp hp1 : List Nat} {a v : Nat}
    (h : store base hp a v = some hp1) : hp1.length = hp.length := by
  rw [(store_some_iff.1 h).2, length_wrLE]

theorem load_store_same {base : Nat} {hp hp1 : List Nat} {a v : Nat}
    (h : store base hp a v = some hp1) (hl : hp.length = 256)
    (hv : v < 18446744073709551616) : load base hp1 a = some v := by
  obtain ⟨hin, e⟩ := store_some_iff.1 h
  rw [load_some_iff, e, rdLE_wrLE_same _ _ _ _ (by omega)]
  refine ⟨hin, ?_⟩
  rw [Nat.mod_eq_of_lt]
  exact hv

theorem load_store_disj {base : Nat} {hp hp1 : List Nat} {a v : Nat}
    (h : store base hp a v = some hp1) {b : Nat} (hd : b + 8 ≤ a ∨ a + 8 ≤ b) :
    load base hp1 b = load base hp b := by
  obtain ⟨hin, e⟩ := store_some_iff.1 h
  unfold load
  by_cases hb : InHeap base b
  · simp only [hb, if_true, e]
    rw [inHeap_iff] at hb
    rw [rdLE_wrLE_disj _ _ _ _ _ _ (by omega)]
  · simp only [hb, if_false]

/-- Reading an aligned word after writing an aligned word. -/
theorem load_store_al {base : Nat} {hp hp1 : List Nat} {a v : Nat}
    (h : store base hp a v = some hp1) (hl : hp.length = 256)
    (hv : v < 18446744073709551616) (ha : (a - base) % 8 = 0) {w : Nat} (hw1 : base ≤ w)
    (hw : (w - base) % 8 = 0) :
    load base hp1 w = if w = a then some v else load base hp w := by
  have hin := (store_some_iff.1 h).1
  by_cases e : w = a
  · subst e
    rw [if_pos rfl]
    exact load_store_same h hl hv
  · rw [if_neg e]
    exact load_store_disj h (by omega)

theorem baseOK_iff (base : Nat) :
    BaseOK base ↔ 44510 < base ∧ base + 256 < 18446744073709551616 := Iff.rfl

/-! ### Tilings -/

theorem Tile_append {a e : Nat} {l1 l2 : List (Nat × Nat)} :
    Tile a e (l1 ++ l2) ↔ ∃ m, Tile a m l1 ∧ Tile m e l2 := by
  induction l1 generalizing a with
  | nil => simp [Tile]
  | cons b r ih =>
    constructor
    · rintro ⟨h1, h2, h3, h4⟩
      obtain ⟨m, h5, h6⟩ := ih.1 h4
      exact ⟨m, ⟨h1, h2, h3, h5⟩, h6⟩
    · rintro ⟨m, ⟨h1, h2, h3, h4⟩, h5⟩
      exact ⟨h1, h2, h3, ih.2 ⟨m, h4, h5⟩⟩

theorem Tile_le {a e : Nat} {bs : List (Nat × Nat)} (h : Tile a e bs) : a ≤ e := by
  induction bs generalizing a with
  | nil => simp only [Tile] at h; omega
  | cons b r ih =>
    obtain ⟨_, _, _, h4⟩ := h
    have := ih h4
    omega

theorem Tile_length {a e : Nat} {bs : List (Nat × Nat)} (h : Tile a e bs) :
    a + 24 * bs.length ≤ e := by
  induction bs generalizing a with
  | nil => simp only [Tile] at h; simp; omega
  | cons b r ih =>
    obtain ⟨_, _, _, h4⟩ := h
    have := ih h4
    simp only [List.length_cons]
    omega

theorem Tile_mem {a e : Nat} {bs : List (Nat × Nat)} (h : Tile a e bs) {b : Nat × Nat}
    (hb : b ∈ bs) :
    a ≤ b.1 ∧ b.1 + 16 + b.2 ≤ e ∧ 0 < b.2 ∧ b.2 % 8 = 0 ∧ (b.1 - a) % 8 = 0 := by
  induction bs generalizing a with
  | nil => cases hb
  | cons c r ih =>
    obtain ⟨h1, h2, h3, h4⟩ := h
    rcases List.mem_cons.1 hb with hb1 | hb1
    · have := Tile_le h4
      subst hb1
      refine ⟨by omega, by omega, h2, h3, by omega⟩
    · have := ih h4 hb1
      refine ⟨by omega, by omega, this.2.2.1, this.2.2.2.1, by omega⟩

theorem Tile_disj {a e : Nat} {bs : List (Nat × Nat)} (h : Tile a e bs) {b c : Nat × Nat}
    (hb : b ∈ bs) (hc : c ∈ bs) :
    b = c ∨ b.1 + 16 + b.2 ≤ c.1 ∨ c.1 + 16 + c.2 ≤ b.1 := by
  induction bs generalizing a with
  | nil => cases hb
  | cons d r ih =>
    obtain ⟨h1, h2, h3, h4⟩ := h
    rcases List.mem_cons.1 hb with hb1 | hb1 <;> rcases List.mem_cons.1 hc with hc1 | hc1
    · exact Or.inl (hb1.trans hc1.symm)
    · have := Tile_mem h4 hc1
      subst hb1
      right; left; omega
    · have := Tile_mem h4 hb1
      subst hc1
      right; right; omega
    · exact ih h4 hb1 hc1

theorem Tile_fst_inj {a e : Nat} {bs : List (Nat × Nat)} (h : Tile a e bs) {b c : Nat × Nat}
    (hb : b ∈ bs) (hc : c ∈ bs) (heq : b.1 = c.1) : b = c := by
  rcases Tile_disj h hb hc with h1 | h1 | h1
  · exact h1
  · omega
  · omega

theorem Tile_adjacent {a e : Nat} {bs : List (Nat × Nat)} (h : Tile a e bs) {b c : Nat × Nat}
    (hb : b ∈ bs) (hc : c ∈ bs) (hadj : b.1 + 16 + b.2 = c.1) :
    ∃ L R, bs = L ++ b :: c :: R := by
  induction bs generalizing a with
  | nil => cases hb
  | cons d r ih =>
    obtain ⟨h1, h2, h3, h4⟩ := h
    rcases List.mem_cons.1 hb with hb1 | hb1
    · subst hb1
      rcases List.mem_cons.1 hc with hc1 | hc1
      · subst hc1; omega
      · cases r with
        | nil => cases hc1
        | cons f r2 =>
          obtain ⟨g1, g2, g3, g4⟩ := h4
          rcases List.mem_cons.1 hc1 with hc2 | hc2
          · subst hc2; exact ⟨[], r2, rfl⟩
          · have := Tile_mem g4 hc2
            omega
    · rcases List.mem_cons.1 hc with hc1 | hc1
      · have := Tile_mem h4 hb1
        subst hc1
        omega
      · obtain ⟨L, R, e1⟩ := ih h4 hb1 hc1
        exact ⟨d :: L, R, by rw [e1]; rfl⟩

theorem Tile_first {a e : Nat} {bs : List (Nat × Nat)} (h : Tile a e bs) {b : Nat × Nat}
    (hb : b ∈ bs) (hne : b.1 ≠ a) : ∃ c ∈ bs, c.1 + 16 + c.2 = b.1 := by
  induction bs generalizing a with
  | nil => cases hb
  | cons d r ih =>
    obtain ⟨h1, h2, h3, h4⟩ := h
    rcases List.mem_cons.1 hb with hb1 | hb1
    · subst hb1; exact absurd h1 hne
    · by_cases hq : b.1 = a + 16 + d.2
      · exact ⟨d, List.mem_cons_self _ _, by omega⟩
      · obtain ⟨c, hc, e1⟩ := ih h4 hb1 hq
        exact ⟨c, List.mem_cons_of_mem _ hc, e1⟩

/-! ### List segments -/

theorem Seg_append {base : Nat} {hp : List Nat} {a e : Nat} {p q : List Nat} :
    Seg base hp a (p ++ q) e ↔ ∃ m, Seg base hp a p m ∧ Seg base hp m q e := by
  induction p generalizing a with
  | nil => simp [Seg]
  | cons x r ih =>
    constructor
    · rintro ⟨h1, nx, h2, h3⟩
      obtain ⟨m, h4, h5⟩ := ih.1 h3
      exact ⟨m, ⟨h1, nx, h2, h4⟩, h5⟩
    · rintro ⟨m, ⟨h1, nx, h2, h3⟩, h4⟩
      exact ⟨h1, nx, h2, ih.2 ⟨m, h3, h4⟩⟩

theorem Seg_frame {base : Nat} {hp hp1 : List Nat} {a e : Nat} {fl : List Nat}
    (hf : ∀ x ∈ fl, load base hp1 (x + 8) = load base hp (x + 8))
    (h : Seg base hp a fl e) : Seg base hp1 a fl e := by
  induction fl generalizing a with
  | nil => exact h
  | cons x r ih =>
    obtain ⟨h1, nx, h2, h3⟩ := h
    refine ⟨h1, nx, ?_, ih (fun y hy => hf y (List.mem_cons_of_mem _ hy)) h3⟩
    rw [hf x (List.mem_cons_self _ _)]; exact h2

theorem Seg_head {base : Nat} {hp : List Nat} {a e : Nat} {fl : List Nat}
    (h : Seg base hp a fl e) : a = fl.headD e := by
  cases fl with
  | nil => exact h
  | cons x r => exact h.1

theorem Seg_functional {base : Nat} {hp : List Nat} {a e1 e2 : Nat} {fl : List Nat}
    (h1 : Seg base hp a fl e1) (h2 : Seg base hp a fl e2) : e1 = e2 := by
  induction fl generalizing a with
  | nil => simp only [Seg] at h1 h2; omega
  | cons x r ih =>
    obtain ⟨_, n1, g1, g2⟩ := h1
    obtain ⟨_, n2, k1, k2⟩ := h2
    rw [g1] at k1
    cases k1
    exact ih g2 k2

theorem locAfter_snoc (pre : List Nat) (y : Nat) : locAfter (pre ++ [y]) = .nextOf y := by
  induction pre with
  | nil => rfl
  | cons x r ih =>
    cases r with
    | nil => rfl
    | cons z r2 => simpa [locAfter] using ih

/-! ### Frames -/

theorem Frame.refl (hp : List Nat) (P : Nat → Prop) : Frame hp hp P := ⟨rfl, fun _ _ => rfl⟩

theorem Frame.trans {hp hp1 hp2 : List Nat} {P Q : Nat → Prop} (h1 : Frame hp hp1 P)
    (h2 : Frame hp1 hp2 Q) : Frame hp hp2 (fun i => P i ∨ Q i) :=
  ⟨h2.1.trans h1.1, fun i hi => by
    rw [h2.2 i (fun h => hi (Or.inr h)), h1.2 i (fun h => hi (Or.inl h))]⟩

theorem Frame.mono {hp hp1 : List Nat} {P Q : Nat → Prop} (h : Frame hp hp1 P)
    (hpq : ∀ i, P i → Q i) : Frame hp hp1 Q :=
  ⟨h.1, fun i hi => h.2 i (fun hp => hi (hpq i hp))⟩

theorem rdLE_congr (m m1 : List Nat) (o k : Nat)
    (h : ∀ i, o ≤ i → i < o + k → m1.getD i 0 = m.getD i 0) : rdLE m1 o k = rdLE m o k := by
  induction k generalizing o with
  | zero => rfl
  | succ k ih =>
    simp only [rdLE]
    rw [h o (Nat.le_refl _) (by omega), ih (o + 1) (fun i h1 h2 => h i (by omega) (by omega))]

theorem getD_wrLE_out (m : List Nat) (o v k i : Nat) (h : i < o ∨ o + k ≤ i) :
    (wrLE m o v k).getD i 0 = m.getD i 0 := by
  induction k generalizing m o v with
  | zero => rfl
  | succ k ih =>
    simp only [wrLE]
    rw [ih _ _ _ (by omega)]
    have hne : o ≠ i := by omega
    simp [List.getD_eq_getElem?_getD, List.getElem?_set_ne hne]

theorem Frame.load {base : Nat} {hp hp1 : List Nat} {P : Nat → Prop} (h : Frame hp hp1 P)
    {a : Nat} (ha : ∀ i, a - base ≤ i → i < a - base + 8 → ¬ P i) :
    load base hp1 a = load base hp a := by
  unfold Alloc.load
  by_cases hb : InHeap base a
  · simp only [hb, if_true]
    rw [rdLE_congr hp hp1 _ _ (fun i h1 h2 => h.2 i (ha i h1 h2))]
  · simp only [hb, if_false]

theorem store_frame {base : Nat} {hp hp1 : List Nat} {a v : Nat}
    (h : store base hp a v = some hp1) : Frame hp hp1 (wordAt base a) := by
  obtain ⟨_, e⟩ := store_some_iff.1 h
  refine ⟨store_length h, fun i hi => ?_⟩
  rw [e, getD_wrLE_out]
  unfold wordAt at hi
  omega

/-! ### Locations -/

theorem getNext_eq (base : Nat) (s : State) {b : Nat} (h : b + 8 < 18446744073709551616) :
    getNext base s b = load base s.heap (b + 8) := by
  unfold getNext
  rw [Nat.mod_eq_of_lt]
  exact h

theorem setNext_eq (base : Nat) (s : State) {b : Nat} (v : Nat)
    (h : b + 8 < 18446744073709551616) :
    setNext base s b v = (store base s.heap (b + 8) v).map fun h => { s with heap := h } := by
  unfold setNext
  rw [Nat.mod_eq_of_lt]
  exact h

theorem getNext_some {base i : Nat} {hp : List Nat} {f b v : Nat}
    (h : b + 8 < 18446744073709551616) (e : load base hp (b + 8) = some v) :
    getNext base ⟨i, hp, f⟩ b = some v := by
  rw [getNext_eq _ _ h]; exact e

theorem setNext_some {base i : Nat} {hp hp1 : List Nat} {f b v : Nat}
    (h : b + 8 < 18446744073709551616) (e : store base hp (b + 8) v = some hp1) :
    setNext base ⟨i, hp, f⟩ b v = some ⟨i, hp1, f⟩ := by
  rw [setNext_eq _ _ _ h]; simp [e]

theorem getSize_some {base i : Nat} {hp : List Nat} {f b v : Nat}
    (e : load base hp b = some v) : getSize base ⟨i, hp, f⟩ b = some v := e

theorem setSize_some {base i : Nat} {hp hp1 : List Nat} {f b v : Nat}
    (e : store base hp b v = some hp1) :
    setSize base ⟨i, hp, f⟩ b v = some ⟨i, hp1, f⟩ := by
  simp [setSize, e]

theorem Seg_mem_inHeap {base : Nat} {hp : List Nat} {a e : Nat} {fl : List Nat}
    (h : Seg base hp a fl e) {x : Nat} (hx : x ∈ fl) : base ≤ x + 8 ∧ x + 16 ≤ base + 256 := by
  induction fl generalizing a with
  | nil => cases hx
  | cons y r ih =>
    obtain ⟨_, nx, h2, h3⟩ := h
    rcases List.mem_cons.1 hx with hx1 | hx1
    · subst hx1
      have := load_inHeap h2
      omega
    · exact ih h3 hx1

theorem deref_locAfter {base i : Nat} {hp : List Nat} {fls : Nat} {pre : List Nat} {m : Nat}
    (hb : base + 256 < 18446744073709551616) (hseg : Seg base hp fls pre m) :
    deref base ⟨i, hp, fls⟩ (locAfter pre) = some m := by
  rcases List.eq_nil_or_concat pre with e | ⟨p, y, e⟩
  · subst e
    simp only [Seg] at hseg
    simp [locAfter, deref, hseg]
  · rw [List.concat_eq_append] at e
    subst e
    obtain ⟨m1, h1, h2, nx, h3, h4⟩ := Seg_append.1 hseg
    simp only [Seg] at h4
    have := load_inHeap h3
    rw [locAfter_snoc]
    simp only [deref]
    rw [getNext_eq _ _ (by omega)]
    simp [h3, h4]

theorem locWord_snoc (pre : List Nat) (y : Nat) : locWord (pre ++ [y]) = y + 8 := by
  induction pre with
  | nil => rfl
  | cons x r ih =>
    cases r with
    | nil => rfl
    | cons z r2 => simpa [locWord] using ih

theorem locWord_cases (pre : List Nat) : (pre = [] ∧ locWord pre = 0) ∨
    ∃ p y, pre = p ++ [y] ∧ locWord pre = y + 8 := by
  rcases List.eq_nil_or_concat pre with e | ⟨p, y, e⟩
  · left; subst e; exact ⟨rfl, rfl⟩
  · right
    rw [List.concat_eq_append] at e
    subst e
    exact ⟨p, y, rfl, locWord_snoc p y⟩

theorem assign_locAfter {base i : Nat} {hp : List Nat} {fls : Nat} {pre : List Nat} {m : Nat}
    (v : Nat) (hb : base + 256 < 18446744073709551616) (hl : hp.length = 256)
    (hv : v < 18446744073709551616) (hseg : Seg base hp fls pre m) (hnd : pre.Nodup)
    (hsep : ∀ x ∈ pre, ∀ y ∈ pre, x = y ∨ x + 16 ≤ y ∨ y + 16 ≤ x)
    (hal : ∀ x ∈ pre, base ≤ x ∧ (x - base) % 8 = 0) (hb0 : 0 < base) :
    ∃ hp1 fls1, assign base ⟨i, hp, fls⟩ (locAfter pre) v = some ⟨i, hp1, fls1⟩ ∧
      Seg base hp1 fls1 pre v ∧ hp1.length = 256 ∧
      Frame hp hp1 (fun j => 0 < locWord pre ∧ wordAt base (locWord pre) j) ∧
      (∀ w, base ≤ w → (w - base) % 8 = 0 →
        load base hp1 w = if w = locWord pre then some v else load base hp w) ∧
      (pre = [] → hp1 = hp ∧ fls1 = v) ∧ (pre ≠ [] → fls1 = fls) := by
  rcases locWord_cases pre with ⟨e, e0⟩ | ⟨p, y, e, e0⟩
  · subst e
    refine ⟨hp, v, rfl, rfl, hl, Frame.refl _ _, ?_, fun _ => ⟨rfl, rfl⟩, fun h => absurd rfl h⟩
    intro w h1 h2
    rw [e0, if_neg (by omega)]
  · subst e
    rw [e0]
    obtain ⟨m1, h1, h2, nx, h3, h4⟩ := Seg_append.1 hseg
    subst h2
    have hin := load_inHeap h3
    obtain ⟨hp1, e1⟩ := store_isSome base hp v hin.1 hin.2
    have hm1 := hal m1 (by simp)
    refine ⟨hp1, fls, ?_, ?_, ?_, ?_, ?_, ?_, fun _ => rfl⟩
    · rw [locAfter_snoc]
      exact setNext_some (by omega) e1
    · refine Seg_append.2 ⟨m1, Seg_frame (fun x hx => ?_) h1,
        rfl, v, load_store_same e1 hl hv, rfl⟩
      have hne : x ≠ m1 := by
        rintro rfl
        exact (List.nodup_append.1 hnd).2.2 hx (List.mem_singleton_self _)
      have := hsep x (List.mem_append_left _ hx) m1
        (List.mem_append_right _ (List.mem_singleton_self _))
      exact load_store_disj e1 (by omega)
    · rw [store_length e1, hl]
    · exact (store_frame e1).mono (fun j hj => ⟨by omega, hj⟩)
    · intro w hw1 hw2
      exact load_store_al e1 hl hv (by omega) hw1 hw2
    · intro h; simp at h

/-! ### Consequences of the representation invariant -/

theorem mem_starts {bs : List (Nat × Nat)} {x : Nat} (h : x ∈ bs.map Prod.fst) :
    ∃ sz, (x, sz) ∈ bs := by
  obtain ⟨b, hb, rfl⟩ := List.mem_map.1 h
  exact ⟨b.2, hb⟩

theorem starts_mem {bs : List (Nat × Nat)} {b : Nat × Nat} (h : b ∈ bs) :
    b.1 ∈ bs.map Prod.fst := List.mem_map.2 ⟨b, h, rfl⟩

theorem WF.fl_block {K : Prop} {base : Nat} {hp : List Nat} {fls : Nat} {bs : List (Nat × Nat)}
    {fl X : List Nat} (h : WF K base hp fls bs fl X) {x : Nat} (hx : x ∈ fl) :
    ∃ sz, (x, sz) ∈ bs := mem_starts (h.sub x hx)

theorem WF.block_bounds {K : Prop} {base : Nat} {hp : List Nat} {fls : Nat} {bs : List (Nat × Nat)}
    {fl X : List Nat} (h : WF K base hp fls bs fl X) {b : Nat × Nat} (hb : b ∈ bs) :
    base ≤ b.1 ∧ b.1 + 16 + b.2 ≤ base + 256 ∧ 0 < b.2 ∧ b.2 % 8 = 0 ∧ (b.1 - base) % 8 = 0 :=
  Tile_mem h.tile hb

theorem WF.fl_bounds {K : Prop} {base : Nat} {hp : List Nat} {fls : Nat} {bs : List (Nat × Nat)}
    {fl X : List Nat} (h : WF K base hp fls bs fl X) {x : Nat} (hx : x ∈ fl) :
    base ≤ x ∧ x + 24 ≤ base + 256 ∧ (x - base) % 8 = 0 := by
  obtain ⟨sz, hm⟩ := h.fl_block hx
  have := h.block_bounds hm
  simp only at this
  omega

theorem WF.starts_sep {K : Prop} {base : Nat} {hp : List Nat} {fls : Nat} {bs : List (Nat × Nat)}
    {fl X : List Nat} (h : WF K base hp fls bs fl X) {b c : Nat × Nat} (hb : b ∈ bs)
    (hc : c ∈ bs) : b = c ∨ b.1 + 24 ≤ c.1 ∨ c.1 + 24 ≤ b.1 := by
  have h2 := h.block_bounds hb
  have h3 := h.block_bounds hc
  rcases Tile_disj h.tile hb hc with h1 | h1 | h1
  · exact Or.inl h1
  · right; left; omega
  · right; right; omega

theorem WF.fl_sep {K : Prop} {base : Nat} {hp : List Nat} {fls : Nat} {bs : List (Nat × Nat)}
    {fl X : List Nat} (h : WF K base hp fls bs fl X) {x y : Nat} (hx : x ∈ fl) (hy : y ∈ fl) :
    x = y ∨ x + 24 ≤ y ∨ y + 24 ≤ x := by
  obtain ⟨sx, hmx⟩ := h.fl_block hx
  obtain ⟨sy, hmy⟩ := h.fl_block hy
  rcases h.starts_sep hmx hmy with h1 | h1 | h1
  · left; exact congrArg Prod.fst h1
  · right; left; exact h1
  · right; right; exact h1

theorem WF.fl_length {K : Prop} {base : Nat} {hp : List Nat} {fls : Nat} {bs : List (Nat × Nat)}
    {fl X : List Nat} (h : WF K base hp fls bs fl X) : fl.length ≤ 10 := by
  have h1 : fl.length ≤ (bs.map Prod.fst).length :=
    (List.subperm_of_subset h.nodup (fun x hx => h.sub x hx)).length_le
  have h2 := Tile_length h.tile
  simp only [List.length_map] at h1
  omega

/-- The `next` field of a free-list entry holds `NULL` or the next entry. -/
theorem WF.next_of_split {K : Prop} {base : Nat} {hp : List Nat} {fls : Nat} {bs : List (Nat × Nat)}
    {fl X : List Nat} (h : WF K base hp fls bs fl X) {pre post : List Nat} {x : Nat}
    (e : fl = pre ++ x :: post) :
    Seg base hp fls pre x ∧ load base hp (x + 8) = some (post.headD 0) ∧
      Seg base hp (post.headD 0) post 0 := by
  have hc := h.chain
  unfold Chain at hc
  rw [e] at hc
  obtain ⟨m, h1, h2, nx, h3, h4⟩ := Seg_append.1 hc
  subst h2
  have := Seg_head h4
  subst this
  exact ⟨h1, h3, h4⟩

theorem WF.next_lt {K : Prop} {base : Nat} {hp : List Nat} {fls : Nat} {bs : List (Nat × Nat)}
    {fl X : List Nat} (h : WF K base hp fls bs fl X) (l : List Nat) (hl : ∀ x ∈ l, x ∈ fl) :
    l.headD 0 = 0 ∨ (base ≤ l.headD 0 ∧ l.headD 0 + 24 ≤ base + 256 ∧ l.headD 0 ∈ fl) := by
  cases l with
  | nil => left; rfl
  | cons y r =>
    right
    have hy := hl y (List.mem_cons_self _ _)
    have := h.fl_bounds hy
    exact ⟨this.1, this.2.1, hy⟩

theorem WF.fl_not_marked {K : Prop} {base : Nat} {hp : List Nat} {fls : Nat} {bs : List (Nat × Nat)}
    {fl X : List Nat} (h : WF K base hp fls bs fl X) (hb : BaseOK base) {x : Nat} (hx : x ∈ fl) :
    load base hp (x + 8) ≠ some ALLOCATED := by
  obtain ⟨pre, post, e⟩ := List.append_of_mem hx
  obtain ⟨_, h2, _⟩ := h.next_of_split e
  rw [h2]
  have hb1 := (baseOK_iff base).1 hb
  rcases h.next_lt post (fun y hy => by rw [e]; simp [hy]) with h3 | h3
  · rw [h3]; simp [ALLOCATED]
  · intro h4
    simp only [Option.some.injEq, ALLOCATED] at h4
    omega

theorem WF.head_lt {K : Prop} {base : Nat} {hp : List Nat} {fls : Nat} {bs : List (Nat × Nat)}
    {fl X : List Nat} (h : WF K base hp fls bs fl X) :
    fls = fl.headD 0 := Seg_head h.chain

/-! ### Initialisation -/

theorem rdLE_replicate (n o k : Nat) : rdLE (List.replicate n 0) o k = 0 := by
  induction k generalizing o with
  | zero => rfl
  | succ k ih =>
    simp only [rdLE, ih]
    simp [List.getD_eq_getElem?_getD, List.getElem?_replicate]
    split <;> rfl

theorem init_start {K : Prop} (base : Nat) (hb : BaseOK base) :
    ∃ hp, init base State.start = some ⟨1, hp, base⟩ ∧
      WF K base hp base [(base, 240)] [base] [] := by
  have hb1 := (baseOK_iff base).1 hb
  obtain ⟨hp1, e1⟩ := store_isSome base (List.replicate 256 0) 240 (Nat.le_refl base) (by omega)
  obtain ⟨hp2, e2⟩ := store_isSome base hp1 0 (a := base + 8) (by omega) (by omega)
  have l0 : (List.replicate 256 0).length = 256 := List.length_replicate _ _
  have l1 : hp1.length = 256 := by rw [store_length e1, l0]
  have l2 : hp2.length = 256 := by rw [store_length e2, l1]
  have hsz : load base hp2 base = some 240 := by
    rw [load_store_disj e2 (by omega)]
    exact load_store_same e1 l0 (by omega)
  have hnx : load base hp2 (base + 8) = some 0 := load_store_same e2 l1 (by omega)
  refine ⟨hp2, ?_, ?_⟩
  · have e0 : (memsize + W - blocksize) % W = 240 := by decide
    simp only [init, State.start, e0, NULL]
    simp only [memsize, setSize_some e1, Option.bind_eq_bind, Option.some_bind,
      setNext_some (show base + 8 < 18446744073709551616 by omega) e2]
  · refine ⟨l2, ?_, ?_, ?_, ?_, ?_, ?_, ?_, ?_⟩
    · simp [Tile]
    · intro b hb; simp only [List.mem_singleton] at hb; subst hb; exact hsz
    · exact ⟨rfl, 0, hnx, rfl⟩
    · simp
    · simp
    · intro b hb hn; simp only [List.mem_singleton] at hb; subst hb; simp at hn
    · intro _ a h1 h2 h3 h4
      exfalso
      by_cases ha : a = base
      · subst ha; rw [hnx] at h4; simp [ALLOCATED] at h4
      · rw [load_store_disj e2 (by omega), load_store_disj e1 (by omega)] at h4
        rw [load_some_iff, rdLE_replicate] at h4
        simp [ALLOCATED] at h4
    · intro b hb _ hn
      simp only [List.mem_singleton] at hb hn
      subst hb
      omega

/-- The lazy initialisation of a state whose arena may hold any bytes. -/
theorem init_any (base : Nat) (hb : BaseOK base) (i0 f0 : Nat) (hp0 : List Nat)
    (l0 : hp0.length = 256) :
    ∃ hp, init base ⟨i0, hp0, f0⟩ = some ⟨1, hp, base⟩ ∧
      WF False base hp base [(base, 240)] [base] [] := by
  have hb1 := (baseOK_iff base).1 hb
  obtain ⟨hp1, e1⟩ := store_isSome base hp0 240 (Nat.le_refl base) (by omega)
  obtain ⟨hp2, e2⟩ := store_isSome base hp1 0 (a := base + 8) (by omega) (by omega)
  have l1 : hp1.length = 256 := by rw [store_length e1, l0]
  have l2 : hp2.length = 256 := by rw [store_length e2, l1]
  have hsz : load base hp2 base = some 240 := by
    rw [load_store_disj e2 (by omega)]
    exact load_store_same e1 l0 (by omega)
  have hnx : load base hp2 (base + 8) = some 0 := load_store_same e2 l1 (by omega)
  refine ⟨hp2, ?_, ?_⟩
  · have e0 : (memsize + W - blocksize) % W = 240 := by decide
    simp only [init, e0, NULL]
    simp only [memsize, setSize_some e1, Option.bind_eq_bind, Option.some_bind,
      setNext_some (show base + 8 < 18446744073709551616 by omega) e2]
  · refine ⟨l2, ?_, ?_, ?_, ?_, ?_, ?_, ?_, ?_⟩
    · simp [Tile]
    · intro b hb; simp only [List.mem_singleton] at hb; subst hb; exact hsz
    · exact ⟨rfl, 0, hnx, rfl⟩
    · simp
    · simp
    · intro b hb hn; simp only [List.mem_singleton] at hb; subst hb; simp at hn
    · intro hK; exact hK.elim
    · intro b hb _ hn
      simp only [List.mem_singleton] at hb hn
      subst hb
      omega

/-! ### The search loop of `alloc` -/

theorem findBlock_spec {K : Prop} {base i : Nat} {hp : List Nat} {fls : Nat} {bs : List (Nat × Nat)}
    {fl X : List Nat} (hb : BaseOK base) (h : WF K base hp fls bs fl X) (r : Nat) :
    ∀ (rest pre : List Nat) (fuel : Nat), fl = pre ++ rest → rest.length < fuel →
      ∃ p2 q2, rest = p2 ++ q2 ∧
        findBlock base ⟨i, hp, fls⟩ r fuel (locAfter pre) = some (locAfter (pre ++ p2)) ∧
        (∀ b ∈ bs, b.1 ∈ p2 → b.2 < r) ∧ (∀ b ∈ bs, q2.head? = some b.1 → r ≤ b.2) := by
  have hb1 := (baseOK_iff base).1 hb
  intro rest
  induction rest with
  | nil =>
    intro pre fuel e hf
    obtain ⟨f, rfl⟩ : ∃ f, fuel = f + 1 := ⟨fuel - 1, by omega⟩
    refine ⟨[], [], rfl, ?_, by simp, by simp⟩
    have hseg : Seg base hp fls pre 0 := by
      have := h.chain
      rw [e, List.append_nil] at this
      exact this
    simp only [findBlock, deref_locAfter hb1.2 hseg, Option.bind_eq_bind, Option.some_bind,
      NULL, if_true, List.append_nil]
  | cons x rest ih =>
    intro pre fuel e hf
    obtain ⟨f, rfl⟩ : ∃ f, fuel = f + 1 := ⟨fuel - 1, by omega⟩
    simp only [List.length_cons] at hf
    obtain ⟨hseg, _, _⟩ := h.next_of_split e
    have hx : x ∈ fl := by rw [e]; simp
    obtain ⟨sz, hm⟩ := h.fl_block hx
    have hxb := h.fl_bounds hx
    have hsz : getSize base ⟨i, hp, fls⟩ x = some sz := h.sizes _ hm
    have hx0 : x ≠ 0 := by omega
    by_cases hlt : sz < r
    · obtain ⟨p2, q2, e2, e3, e4, e5⟩ := ih (pre ++ [x]) f (by rw [e]; simp) (by omega)
      refine ⟨x :: p2, q2, by rw [e2]; rfl, ?_, ?_, e5⟩
      · simp only [findBlock, deref_locAfter hb1.2 hseg, Option.bind_eq_bind, Option.some_bind,
          NULL, hx0, if_false, hsz, hlt, if_true]
        rw [locAfter_snoc] at e3
        rw [e3]
        simp
      · intro b hbm hb2
        rcases List.mem_cons.1 hb2 with hb3 | hb3
        · have := Tile_fst_inj h.tile hbm hm hb3
          subst this
          exact hlt
        · exact e4 b hbm hb3
    · refine ⟨[], x :: rest, rfl, ?_, by simp, ?_⟩
      · simp only [findBlock, deref_locAfter hb1.2 hseg, Option.bind_eq_bind, Option.some_bind,
          NULL, hx0, if_false, hsz, hlt, List.append_nil]
      · intro b hbm hb2
        simp only [List.head?_cons, Option.some.injEq] at hb2
        have := Tile_fst_inj h.tile hbm hm hb2.symm
        subst this
        simp only at hlt
        omega

/-! ### `alloc`: the split path -/

theorem alloc_split_exec {K : Prop} {base : Nat} {hp : List Nat} {fls : Nat} {bs : List (Nat × Nat)}
    {fl : List Nat} (hb : BaseOK base) (h : WF K base hp fls bs fl [])
    {pre post : List Nat} {x sz n : Nat} (e : fl = pre ++ x :: post) (hm : (x, sz) ∈ bs)
    (hr0 : roundUp n ≠ 0) (hlt : roundUp n + 16 < sz)
    (hfind : findBlock base ⟨1, hp, fls⟩ (roundUp n) loopFuel .head = some (locAfter pre)) :
    ∃ hp5 fls5, alloc base ⟨1, hp, fls⟩ n = some (⟨1, hp5, fls5⟩, x + 16) ∧
      hp5.length = 256 ∧
      Seg base hp5 fls5 pre (x + 16 + roundUp n) ∧
      Frame hp hp5 (fun j => (x - base ≤ j ∧ j < x - base + 16 + (roundUp n + 16)) ∨
        (0 < locWord pre ∧ wordAt base (locWord pre) j)) ∧
      (∀ w, base ≤ w → (w - base) % 8 = 0 →
        load base hp5 w =
          if w = locWord pre then some (x + 16 + roundUp n)
          else if w = x + 8 then some ALLOCATED
          else if w = x then some (roundUp n)
          else if w = x + 16 + roundUp n + 8 then some (post.headD 0)
          else if w = x + 16 + roundUp n then some (sz - roundUp n - 16)
          else load base hp w) := by
  have hb1 := (baseOK_iff base).1 hb
  have hr8 := roundUp_mod8 n
  obtain ⟨r, hr⟩ : ∃ r, r = roundUp n := ⟨_, rfl⟩
  rw [← hr] at hr0 hlt hfind hr8 ⊢
  obtain ⟨hseg, hnx, hpost⟩ := h.next_of_split e
  have hx : x ∈ fl := by rw [e]; simp
  have hxb := h.block_bounds hm
  simp only at hxb
  have hpre : ∀ y ∈ pre, y ∈ fl := fun y hy => by rw [e]; simp [hy]
  have hnd := h.nodup
  rw [e] at hnd
  have hxpre : x ∉ pre := fun hx1 => (List.nodup_append.1 hnd).2.2 hx1 (List.mem_cons_self _ _)
  have hsep : ∀ y ∈ pre, y + 24 ≤ x ∨ x + 16 + sz ≤ y := by
    intro y hy
    obtain ⟨sy, hmy⟩ := h.fl_block (hpre y hy)
    have hyb := h.block_bounds hmy
    rcases Tile_disj h.tile hmy hm with h1 | h1 | h1
    · cases h1; exact absurd hy hxpre
    · left; simp only at h1 hyb; omega
    · right; exact h1
  have hnxlt : post.headD 0 < 18446744073709551616 := by
    rcases h.next_lt post (fun y hy => by rw [e]; simp [hy]) with h1 | h1 <;> omega
  -- the five writes
  obtain ⟨hp1, e1⟩ := store_isSome base hp (a := x + 16 + r) (sz - r - 16) (by omega) (by omega)
  obtain ⟨hp2, e2⟩ := store_isSome base hp1 (a := x + 16 + r + 8) (post.headD 0)
    (by omega) (by omega)
  obtain ⟨hp3, e3⟩ := store_isSome base hp2 (a := x) r (by omega) (by omega)
  obtain ⟨hp4, e4⟩ := store_isSome base hp3 (a := x + 8) ALLOCATED (by omega) (by omega)
  have l1 : hp1.length = 256 := by rw [store_length e1, h.len]
  have l2 : hp2.length = 256 := by rw [store_length e2, l1]
  have l3 : hp3.length = 256 := by rw [store_length e3, l2]
  have l4 : hp4.length = 256 := by rw [store_length e4, l3]
  -- the list prefix is untouched by the first four writes
  have s1 : Seg base hp1 fls pre x := Seg_frame (fun y hy => by
    have := hsep y hy
    exact load_store_disj e1 (by omega)) hseg
  have s2 : Seg base hp2 fls pre x := Seg_frame (fun y hy => by
    have := hsep y hy
    exact load_store_disj e2 (by omega)) s1
  have s3 : Seg base hp3 fls pre x := Seg_frame (fun y hy => by
    have := hsep y hy
    exact load_store_disj e3 (by omega)) s2
  have s4 : Seg base hp4 fls pre x := Seg_frame (fun y hy => by
    have := hsep y hy
    exact load_store_disj e4 (by omega)) s3
  have hpnd : pre.Nodup := (List.nodup_append.1 hnd).1
  obtain ⟨hp5, fls5, e5, s5, l5, f5, ld5, _, _⟩ :=
    assign_locAfter (i := 1) (x + 16 + r) hb1.2 l4 (by omega) s4 hpnd
      (fun y hy z hz => by
        have := h.fl_sep (hpre y hy) (hpre z hz); omega)
      (fun y hy => by have := h.fl_bounds (hpre y hy); omega) (by omega)
  refine ⟨hp5, fls5, ?_, l5, s5, ?_, ?_⟩
  · have hx0 : x ≠ 0 := by omega
    have ev : (sz + 2 * W - r - 16) % W = sz - r - 16 := by
      simp only [W]; omega
    have ev2 : (r + 16) % W = r + 16 := by
      simp only [W]; omega
    have ev3 : (x + 16) % W = x + 16 := by
      simp only [W]; omega
    have ev4 : (x + 16 + r) % W = x + 16 + r := by
      simp only [W]; omega
    have hgt : sz > r + 16 := hlt
    have hnx1 : load base hp1 (x + 8) = some (post.headD 0) := by
      rw [load_store_disj e1 (by omega)]; exact hnx
    simp only [alloc, allocSplit, ← hr, blocksize, hfind, Option.bind_eq_bind, Option.some_bind, hr0, if_false,
      deref_locAfter hb1.2 hseg, deref_locAfter hb1.2 s1, deref_locAfter hb1.2 s2,
      deref_locAfter hb1.2 s3, deref_locAfter hb1.2 s4,
      NULL, hx0, getSize_some (h.sizes _ hm), ev, ev2, ev3, ev4, hgt, if_true,
      setSize_some e1, getNext_some (show x + 8 < 18446744073709551616 by omega) hnx1,
      setNext_some (show x + 16 + r + 8 < 18446744073709551616 by omega) e2,
      setSize_some e3, setNext_some (show x + 8 < 18446744073709551616 by omega) e4, e5]
    simp
  · have f1 := store_frame e1
    have f2 := store_frame e2
    have f3 := store_frame e3
    have f4 := store_frame e4
    refine ((((f1.trans f2).trans f3).trans f4).trans f5).mono ?_
    intro j hj
    simp only [wordAt] at hj ⊢
    omega
  · intro w hw1 hw2
    rw [ld5 w hw1 hw2,
      load_store_al e4 l3 (by simp only [ALLOCATED]; omega) (by omega) hw1 hw2,
      load_store_al e3 l2 (by omega) (by omega) hw1 hw2,
      load_store_al e2 l1 hnxlt (by omega) hw1 hw2,
      load_store_al e1 h.len (by omega) (by omega) hw1 hw2]

/-! ### `alloc`: the whole-block path and the failure paths -/

theorem alloc_whole_exec {K : Prop} {base : Nat} {hp : List Nat} {fls : Nat} {bs : List (Nat × Nat)}
    {fl : List Nat} (hb : BaseOK base) (h : WF K base hp fls bs fl [])
    {pre post : List Nat} {x sz n : Nat} (e : fl = pre ++ x :: post) (hm : (x, sz) ∈ bs)
    (hr0 : roundUp n ≠ 0) (hle : roundUp n ≤ sz) (hge : sz ≤ roundUp n + 16)
    (hfind : findBlock base ⟨1, hp, fls⟩ (roundUp n) loopFuel .head = some (locAfter pre)) :
    ∃ hp2 fls2, alloc base ⟨1, hp, fls⟩ n = some (⟨1, hp2, fls2⟩, x + 16) ∧
      hp2.length = 256 ∧
      Seg base hp2 fls2 pre (post.headD 0) ∧
      Frame hp hp2 (fun j => (x - base + 8 ≤ j ∧ j < x - base + 16) ∨
        (0 < locWord pre ∧ wordAt base (locWord pre) j)) ∧
      (∀ w, base ≤ w → (w - base) % 8 = 0 →
        load base hp2 w =
          if w = locWord pre then some (post.headD 0)
          else if w = x + 8 then some ALLOCATED
          else load base hp w) := by
  have hb1 := (baseOK_iff base).1 hb
  obtain ⟨r, hr⟩ : ∃ r, r = roundUp n := ⟨_, rfl⟩
  rw [← hr] at hr0 hle hge hfind
  obtain ⟨hseg, hnx, hpost⟩ := h.next_of_split e
  have hxb := h.block_bounds hm
  simp only at hxb
  have hpre : ∀ y ∈ pre, y ∈ fl := fun y hy => by rw [e]; simp [hy]
  have hnd := h.nodup
  rw [e] at hnd
  have hxpre : x ∉ pre := fun hx1 => (List.nodup_append.1 hnd).2.2 hx1 (List.mem_cons_self _ _)
  have hsep : ∀ y ∈ pre, y + 24 ≤ x ∨ x + 16 + sz ≤ y := by
    intro y hy
    obtain ⟨sy, hmy⟩ := h.fl_block (hpre y hy)
    have hyb := h.block_bounds hmy
    rcases Tile_disj h.tile hmy hm with h1 | h1 | h1
    · cases h1; exact absurd hy hxpre
    · left; simp only at h1 hyb; omega
    · right; exact h1
  have hnxlt : post.headD 0 < 18446744073709551616 := by
    rcases h.next_lt post (fun y hy => by rw [e]; simp [hy]) with h1 | h1 <;> omega
  obtain ⟨hp1, e1⟩ := store_isSome base hp (a := x + 8) ALLOCATED (by omega) (by omega)
  have l1 : hp1.length = 256 := by rw [store_length e1, h.len]
  have s1 : Seg base hp1 fls pre x := Seg_frame (fun y hy => by
    have := hsep y hy
    exact load_store_disj e1 (by omega)) hseg
  have hpnd : pre.Nodup := (List.nodup_append.1 hnd).1
  obtain ⟨hp2, fls2, e2, s2, l2, f2, ld2, _, _⟩ :=
    assign_locAfter (i := 1) (post.headD 0) hb1.2 l1 hnxlt s1 hpnd
      (fun y hy z hz => by
        have := h.fl_sep (hpre y hy) (hpre z hz); omega)
      (fun y hy => by have := h.fl_bounds (hpre y hy); omega) (by omega)
  refine ⟨hp2, fls2, ?_, l2, s2, ?_, ?_⟩
  · have hx0 : x ≠ 0 := by omega
    have ev2 : (r + 16) % W = r + 16 := by
      simp only [W]; omega
    have ev3 : (x + 16) % W = x + 16 := by
      simp only [W]; omega
    have hgt : ¬ (sz > r + 16) := by omega
    simp only [alloc, ← hr, blocksize, hfind, Option.bind_eq_bind, Option.some_bind, hr0,
      if_false, deref_locAfter hb1.2 hseg, deref_locAfter hb1.2 s1,
      NULL, hx0, getSize_some (h.sizes _ hm), ev2, ev3, hgt,
      getNext_some (show x + 8 < 18446744073709551616 by omega) hnx,
      setNext_some (show x + 8 < 18446744073709551616 by omega) e1, e2]
    simp
  · refine ((store_frame e1).trans f2).mono ?_
    intro j hj
    simp only [wordAt] at hj ⊢
    omega
  · intro w hw1 hw2
    rw [ld2 w hw1 hw2,
      load_store_al e1 h.len (by simp only [ALLOCATED]; omega) (by omega) hw1 hw2]

theorem alloc_zero_exec (base : Nat) (s : State) (n : Nat) (hi : s.initialized ≠ 0)
    (hr0 : roundUp n = 0) : alloc base s n = some (s, 0) := by
  simp [alloc, hi, hr0, NULL]

theorem alloc_none_exec {K : Prop} {base : Nat} {hp : List Nat} {fls : Nat} {bs : List (Nat × Nat)}
    {fl : List Nat} (hb : BaseOK base) (h : WF K base hp fls bs fl []) {n : Nat}
    (hr0 : roundUp n ≠ 0)
    (hfind : findBlock base ⟨1, hp, fls⟩ (roundUp n) loopFuel .head = some (locAfter fl)) :
    alloc base ⟨1, hp, fls⟩ n = some (⟨1, hp, fls⟩, 0) := by
  have hb1 := (baseOK_iff base).1 hb
  have hseg : Seg base hp fls fl 0 := h.chain
  simp [alloc, hr0, hfind, deref_locAfter hb1.2 hseg, NULL]

theorem locWord_mem (pre : List Nat) :
    locWord pre = 0 ∨ ∃ y, y ∈ pre ∧ locWord pre = y + 8 := by
  rcases locWord_cases pre with ⟨_, e0⟩ | ⟨p, y, e, e0⟩
  · exact Or.inl e0
  · right; exact ⟨y, by rw [e]; simp, e0⟩

theorem Tile_split_mem {a e : Nat} {bs : List (Nat × Nat)} (h : Tile a e bs) {b : Nat × Nat}
    (hb : b ∈ bs) : ∃ L R, bs = L ++ b :: R ∧ Tile a b.1 L ∧ Tile (b.1 + 16 + b.2) e R ∧
      (∀ c ∈ L, c ∈ bs ∧ c.1 + 16 + c.2 ≤ b.1) ∧ (∀ c ∈ R, c ∈ bs ∧ b.1 + 16 + b.2 ≤ c.1) := by
  obtain ⟨L, R, e1⟩ := List.append_of_mem hb
  subst e1
  obtain ⟨m, h1, h2, h3, h4, h5⟩ := Tile_append.1 h
  subst h2
  refine ⟨L, R, rfl, h1, h5, fun c hc => ?_, fun c hc => ?_⟩
  · have := Tile_mem h1 hc
    exact ⟨by simp [hc], by omega⟩
  · have := Tile_mem h5 hc
    exact ⟨by simp [hc], by omega⟩

/-- The split path of `alloc` re-establishes the representation invariant. -/
theorem alloc_split_wf {K : Prop} {base : Nat} {hp hp5 : List Nat} {fls fls5 : Nat}
    {bs : List (Nat × Nat)} {fl : List Nat} (hb : BaseOK base) (h : WF K base hp fls bs fl [])
    {pre post : List Nat} {x sz r : Nat} (e : fl = pre ++ x :: post) (hm : (x, sz) ∈ bs)
    (hr0 : r ≠ 0) (hr8 : r % 8 = 0) (hlt : r + 16 < sz)
    (l5 : hp5.length = 256) (s5 : Seg base hp5 fls5 pre (x + 16 + r))
    (ld5 : ∀ w, base ≤ w → (w - base) % 8 = 0 →
        load base hp5 w =
          if w = locWord pre then some (x + 16 + r)
          else if w = x + 8 then some ALLOCATED
          else if w = x then some r
          else if w = x + 16 + r + 8 then some (post.headD 0)
          else if w = x + 16 + r then some (sz - r - 16)
          else load base hp w) :
    ∃ L R, bs = L ++ (x, sz) :: R ∧
      WF K base hp5 fls5 (L ++ (x, r) :: (x + 16 + r, sz - r - 16) :: R)
        (pre ++ (x + 16 + r) :: post) [] := by
  have hb1 := (baseOK_iff base).1 hb
  obtain ⟨hseg, hnx, hpost⟩ := h.next_of_split e
  have hx : x ∈ fl := by rw [e]; simp
  have hxb := h.block_bounds hm
  simp only at hxb
  have hpre : ∀ y ∈ pre, y ∈ fl := fun y hy => by rw [e]; simp [hy]
  have hpostm : ∀ y ∈ post, y ∈ fl := fun y hy => by rw [e]; simp [hy]
  have hnd := h.nodup
  rw [e] at hnd
  have hxpre : x ∉ pre := fun hx1 => (List.nodup_append.1 hnd).2.2 hx1 (List.mem_cons_self _ _)
  have hxpost : x ∉ post := (List.nodup_cons.1 (List.nodup_append.1 hnd).2.1).1
  -- other blocks are away from the block at `x`
  have hoth : ∀ b ∈ bs, b.1 ≠ x → base ≤ b.1 ∧ (b.1 - base) % 8 = 0 ∧
      (b.1 + 16 + b.2 ≤ x ∨ x + 16 + sz ≤ b.1) ∧ 8 ≤ b.2 := by
    intro b hbm hne
    have hbb := h.block_bounds hbm
    rcases Tile_disj h.tile hbm hm with h1 | h1 | h1
    · subst h1; exact absurd rfl hne
    · exact ⟨hbb.1, hbb.2.2.2.2, Or.inl h1, by omega⟩
    · exact ⟨hbb.1, hbb.2.2.2.2, Or.inr h1, by omega⟩
  have hflo : ∀ y ∈ fl, y ≠ x → base ≤ y ∧ (y - base) % 8 = 0 ∧
      (y + 24 ≤ x ∨ x + 16 + sz ≤ y) := by
    intro y hy hne
    obtain ⟨sy, hmy⟩ := h.fl_block hy
    have := hoth _ hmy hne
    simp only at this
    omega
  have hlwx : ∀ w, w = locWord pre → w = 0 ∨ ∃ y, y ∈ pre ∧ w = y + 8 := by
    intro w hw; rw [hw]; exact locWord_mem pre
  have hnxv : post.headD 0 ≠ ALLOCATED ∧ (post.headD 0 = 0 ∨ post.headD 0 ∈ post) := by
    cases post with
    | nil => simp [ALLOCATED]
    | cons z t =>
      have := h.fl_bounds (hpostm z (by simp))
      simp only [List.headD_cons, ALLOCATED]
      exact ⟨by omega, by simp⟩
  have L1 : load base hp5 x = some r := by
    rw [ld5 x (by omega) (by omega)]
    have hne : x ≠ locWord pre := by
      intro hc
      rcases hlwx x hc with h0 | ⟨y, hy, h0⟩
      · omega
      · have := hflo y (hpre y hy) (fun hc2 => hxpre (hc2 ▸ hy)); omega
    rw [if_neg hne, if_neg (by omega), if_pos rfl]
  have L2 : load base hp5 (x + 8) = some ALLOCATED := by
    rw [ld5 (x + 8) (by omega) (by omega)]
    have hne : x + 8 ≠ locWord pre := by
      intro hc
      rcases hlwx _ hc with h0 | ⟨y, hy, h0⟩
      · omega
      · exact hxpre ((show x = y by omega) ▸ hy)
    rw [if_neg hne, if_pos rfl]
  have L3 : load base hp5 (x + 16 + r) = some (sz - r - 16) := by
    rw [ld5 _ (by omega) (by omega)]
    have hne : x + 16 + r ≠ locWord pre := by
      intro hc
      rcases hlwx _ hc with h0 | ⟨y, hy, h0⟩
      · omega
      · have := hflo y (hpre y hy) (fun hc2 => hxpre (hc2 ▸ hy)); omega
    rw [if_neg hne, if_neg (by omega), if_neg (by omega), if_neg (by omega), if_pos rfl]
  have L4 : load base hp5 (x + 16 + r + 8) = some (post.headD 0) := by
    rw [ld5 _ (by omega) (by omega)]
    have hne : x + 16 + r + 8 ≠ locWord pre := by
      intro hc
      rcases hlwx _ hc with h0 | ⟨y, hy, h0⟩
      · omega
      · have := hflo y (hpre y hy) (fun hc2 => hxpre (hc2 ▸ hy)); omega
    rw [if_neg hne, if_neg (by omega), if_neg (by omega), if_pos rfl]
  have L5 : ∀ b ∈ bs, b.1 ≠ x → load base hp5 b.1 = load base hp b.1 := by
    intro b hbm hne
    have hbo := hoth b hbm hne
    rw [ld5 _ hbo.1 hbo.2.1]
    have hne2 : b.1 ≠ locWord pre := by
      intro hc
      rcases hlwx _ hc with h0 | ⟨y, hy, h0⟩
      · omega
      · obtain ⟨sy, hmy⟩ := h.fl_block (hpre y hy)
        have := h.starts_sep hbm hmy
        simp only at this
        rcases this with h1 | h1 | h1
        · rw [h1] at h0; simp only at h0; omega
        · omega
        · omega
    rw [if_neg hne2, if_neg (by omega), if_neg (by omega), if_neg (by omega), if_neg (by omega)]
  have L6 : ∀ b ∈ bs, b.1 ≠ x → b.1 ∉ pre →
      load base hp5 (b.1 + 8) = load base hp (b.1 + 8) := by
    intro b hbm hne hnp
    have hbo := hoth b hbm hne
    rw [ld5 _ (by omega) (by omega)]
    have hne2 : b.1 + 8 ≠ locWord pre := by
      intro hc
      rcases hlwx _ hc with h0 | ⟨y, hy, h0⟩
      · omega
      · exact hnp ((show y = b.1 by omega) ▸ hy)
    rw [if_neg hne2, if_neg (by omega), if_neg (by omega), if_neg (by omega), if_neg (by omega)]
  have L7 : ∀ a, base ≤ a → (a - base) % 8 = 0 → load base hp5 (a + 8) = some ALLOCATED →
      a = x ∨ load base hp (a + 8) = some ALLOCATED := by
    intro a ha1 ha2 hld
    rw [ld5 _ (by omega) (by omega)] at hld
    split_ifs at hld with c1 c2 c3 c4 c5
    · simp only [Option.some.injEq, ALLOCATED] at hld; omega
    · left; omega
    · simp only [Option.some.injEq, ALLOCATED] at hld; omega
    · simp only [Option.some.injEq] at hld; exact absurd hld hnxv.1
    · simp only [Option.some.injEq, ALLOCATED] at hld; omega
    · right; exact hld
  obtain ⟨L, R, ebs, tL, tR, hL, hR⟩ := Tile_split_mem h.tile hm
  simp only at tL tR hL hR
  refine ⟨L, R, ebs, ?_⟩
  have hmem : ∀ b, b ∈ L ++ (x, r) :: (x + 16 + r, sz - r - 16) :: R ↔
      (b ∈ bs ∧ b.1 ≠ x) ∨ b = (x, r) ∨ b = (x + 16 + r, sz - r - 16) := by
    intro b
    rw [ebs]
    simp only [List.mem_append, List.mem_cons]
    constructor
    · rintro (h1 | h1 | h1 | h1)
      · have := hL b h1; exact Or.inl ⟨Or.inl h1, by omega⟩
      · exact Or.inr (Or.inl h1)
      · exact Or.inr (Or.inr h1)
      · have := hR b h1; exact Or.inl ⟨Or.inr (Or.inr h1), by omega⟩
    · rintro (⟨h1 | h1 | h1, h2⟩ | h1 | h1)
      · exact Or.inl h1
      · subst h1; exact absurd rfl h2
      · exact Or.inr (Or.inr (Or.inr h1))
      · exact Or.inr (Or.inl h1)
      · exact Or.inr (Or.inr (Or.inl h1))
  have hsplit_notfl : x + 16 + r ∉ fl := by
    intro hc
    have := hflo _ hc (by omega)
    omega
  have hflmem : ∀ y, y ∈ pre ++ (x + 16 + r) :: post ↔ (y ∈ fl ∧ y ≠ x) ∨ y = x + 16 + r := by
    intro y
    rw [e]
    simp only [List.mem_append, List.mem_cons]
    constructor
    · rintro (h1 | h1 | h1)
      · exact Or.inl ⟨Or.inl h1, fun hc => hxpre (hc ▸ h1)⟩
      · exact Or.inr h1
      · exact Or.inl ⟨Or.inr (Or.inr h1), fun hc => hxpost (hc ▸ h1)⟩
    · rintro (⟨h1 | h1 | h1, h2⟩ | h1)
      · exact Or.inl h1
      · exact absurd h1 h2
      · exact Or.inr (Or.inr h1)
      · exact Or.inr (Or.inl h1)
  refine ⟨l5, ?_, ?_, ?_, ?_, ?_, ?_, ?_, ?_⟩
  · -- tile
    refine Tile_append.2 ⟨x, tL, rfl, by omega, hr8, rfl, by omega, by omega, ?_⟩
    have : x + 16 + r + 16 + (sz - r - 16) = x + 16 + sz := by omega
    simp only [this]
    exact tR
  · -- sizes
    intro b hbm
    rcases (hmem b).1 hbm with ⟨h1, h2⟩ | h1 | h1
    · rw [L5 b h1 h2]; exact h.sizes b h1
    · subst h1; exact L1
    · subst h1; exact L3
  · -- chain
    refine Seg_append.2 ⟨_, s5, rfl, _, L4, ?_⟩
    refine Seg_frame (fun y hy => ?_) hpost
    obtain ⟨sy, hmy⟩ := h.fl_block (hpostm y hy)
    exact L6 _ hmy (fun hc => hxpost (hc ▸ hy))
      (fun hc => (List.nodup_append.1 hnd).2.2 hc (List.mem_cons_of_mem _ hy))
  · -- sub
    intro y hy
    rcases (hflmem y).1 hy with ⟨h1, h2⟩ | h1
    · obtain ⟨sy, hmy⟩ := h.fl_block h1
      exact starts_mem ((hmem (y, sy)).2 (Or.inl ⟨hmy, h2⟩))
    · subst h1
      exact starts_mem ((hmem (_, sz - r - 16)).2 (Or.inr (Or.inr rfl)))
  · -- nodup
    have h1 := List.nodup_append.1 hnd
    refine List.nodup_append.2 ⟨h1.1, ?_, ?_⟩
    · refine List.nodup_cons.2 ⟨fun hc => hsplit_notfl (hpostm _ hc),
        (List.nodup_cons.1 h1.2.1).2⟩
    · intro a ha1 ha2
      rcases List.mem_cons.1 ha2 with h2 | h2
      · subst h2; exact hsplit_notfl (hpre _ ha1)
      · exact h1.2.2 ha1 (List.mem_cons_of_mem _ h2)
  · -- marked
    intro b hbm hnf _
    rcases (hmem b).1 hbm with ⟨h1, h2⟩ | h1 | h1
    · have hnfl : b.1 ∉ fl := fun hc => hnf ((hflmem _).2 (Or.inl ⟨hc, h2⟩))
      rw [L6 b h1 h2 (fun hc => hnfl (hpre _ hc))]
      exact h.marked b h1 hnfl (by simp)
    · subst h1; exact L2
    · subst h1; exact absurd ((hflmem _).2 (Or.inr rfl)) hnf
  · -- stale
    intro hK a ha1 ha2 ha3 hld
    refine ⟨?_, by simp⟩
    rcases L7 a ha1 ha3 hld with h1 | h1
    · subst h1; exact starts_mem ((hmem (_, r)).2 (Or.inr (Or.inl rfl)))
    · obtain ⟨sa, hma⟩ := mem_starts (h.stale hK a ha1 ha2 ha3 h1).1
      by_cases hax : a = x
      · subst hax; exact starts_mem ((hmem (_, r)).2 (Or.inr (Or.inl rfl)))
      · exact starts_mem ((hmem (a, sa)).2 (Or.inl ⟨hma, hax⟩))
  · -- noadj
    intro b hbm hbf hc
    have hxend : x + 16 + sz ∉ fl := h.noadj _ hm hx
    rcases (hmem b).1 hbm with ⟨h1, h2⟩ | h1 | h1
    · have hbfl : b.1 ∈ fl := by
        rcases (hflmem _).1 hbf with ⟨h3, _⟩ | h3
        · exact h3
        · have := hoth b h1 h2; omega
      rcases (hflmem _).1 hc with ⟨h3, _⟩ | h3
      · exact h.noadj b h1 hbfl h3
      · have := hoth b h1 h2; omega
    · subst h1
      rcases (hflmem _).1 hbf with ⟨_, h3⟩ | h3
      · exact h3 rfl
      · simp only at h3; omega
    · subst h1
      simp only at hc
      rcases (hflmem _).1 hc with ⟨h3, _⟩ | h3
      · apply hxend
        have : x + 16 + r + 16 + (sz - r - 16) = x + 16 + sz := by omega
        rw [← this]; exact h3
      · omega

/-- The whole-block path of `alloc` re-establishes the representation invariant. -/
theorem alloc_whole_wf {K : Prop} {base : Nat} {hp hp2 : List Nat} {fls fls2 : Nat}
    {bs : List (Nat × Nat)} {fl : List Nat} (hb : BaseOK base) (h : WF K base hp fls bs fl [])
    {pre post : List Nat} {x sz : Nat} (e : fl = pre ++ x :: post) (hm : (x, sz) ∈ bs)
    (l2 : hp2.length = 256) (s2 : Seg base hp2 fls2 pre (post.headD 0))
    (ld2 : ∀ w, base ≤ w → (w - base) % 8 = 0 →
        load base hp2 w =
          if w = locWord pre then some (post.headD 0)
          else if w = x + 8 then some ALLOCATED
          else load base hp w) :
    WF K base hp2 fls2 bs (pre ++ post) [] := by
  have hb1 := (baseOK_iff base).1 hb
  obtain ⟨hseg, hnx, hpost⟩ := h.next_of_split e
  have hx : x ∈ fl := by rw [e]; simp
  have hxb := h.block_bounds hm
  simp only at hxb
  have hpre : ∀ y ∈ pre, y ∈ fl := fun y hy => by rw [e]; simp [hy]
  have hpostm : ∀ y ∈ post, y ∈ fl := fun y hy => by rw [e]; simp [hy]
  have hnd := h.nodup
  rw [e] at hnd
  have hxpre : x ∉ pre := fun hx1 => (List.nodup_append.1 hnd).2.2 hx1 (List.mem_cons_self _ _)
  have hxpost : x ∉ post := (List.nodup_cons.1 (List.nodup_append.1 hnd).2.1).1
  have hlwx : ∀ w, w = locWord pre → w = 0 ∨ ∃ y, y ∈ pre ∧ w = y + 8 := by
    intro w hw; rw [hw]; exact locWord_mem pre
  have hnxv : post.headD 0 ≠ ALLOCATED := by
    cases post with
    | nil => simp [ALLOCATED]
    | cons z t =>
      have := h.fl_bounds (hpostm z (by simp))
      simp only [List.headD_cons, ALLOCATED]
      omega
  have hflmem : ∀ y, y ∈ pre ++ post ↔ (y ∈ fl ∧ y ≠ x) := by
    intro y
    rw [e]
    simp only [List.mem_append, List.mem_cons]
    constructor
    · rintro (h1 | h1)
      · exact ⟨Or.inl h1, fun hc => hxpre (hc ▸ h1)⟩
      · exact ⟨Or.inr (Or.inr h1), fun hc => hxpost (hc ▸ h1)⟩
    · rintro ⟨h1 | h1 | h1, h2⟩
      · exact Or.inl h1
      · exact absurd h1 h2
      · exact Or.inr h1
  have M2 : load base hp2 (x + 8) = some ALLOCATED := by
    rw [ld2 (x + 8) (by omega) (by omega)]
    have hne : x + 8 ≠ locWord pre := by
      intro hc
      rcases hlwx _ hc with h0 | ⟨y, hy, h0⟩
      · omega
      · exact hxpre ((show x = y by omega) ▸ hy)
    rw [if_neg hne, if_pos rfl]
  have M5 : ∀ b ∈ bs, load base hp2 b.1 = load base hp b.1 := by
    intro b hbm
    have hbb := h.block_bounds hbm
    rw [ld2 _ hbb.1 hbb.2.2.2.2]
    have hne2 : b.1 ≠ locWord pre := by
      intro hc
      rcases hlwx _ hc with h0 | ⟨y, hy, h0⟩
      · omega
      · obtain ⟨sy, hmy⟩ := h.fl_block (hpre y hy)
        have := h.starts_sep hbm hmy
        simp only at this
        rcases this with h1 | h1 | h1
        · rw [h1] at h0; simp only at h0; omega
        · omega
        · omega
    have hne3 : b.1 ≠ x + 8 := by
      intro hc
      rcases h.starts_sep hbm hm with h1 | h1 | h1
      · rw [h1] at hc; simp only at hc; omega
      · simp only at h1; omega
      · simp only at h1; omega
    rw [if_neg hne2, if_neg hne3]
  have M6 : ∀ b ∈ bs, b.1 ≠ x → b.1 ∉ pre →
      load base hp2 (b.1 + 8) = load base hp (b.1 + 8) := by
    intro b hbm hne hnp
    have hbb := h.block_bounds hbm
    rw [ld2 _ (by omega) (by omega)]
    have hne2 : b.1 + 8 ≠ locWord pre := by
      intro hc
      rcases hlwx _ hc with h0 | ⟨y, hy, h0⟩
      · omega
      · exact hnp ((show y = b.1 by omega) ▸ hy)
    rw [if_neg hne2, if_neg (by omega)]
  have M7 : ∀ a, base ≤ a → (a - base) % 8 = 0 → load base hp2 (a + 8) = some ALLOCATED →
      load base hp (a + 8) = some ALLOCATED ∨ a = x := by
    intro a ha1 ha2 hld
    rw [ld2 _ (by omega) (by omega)] at hld
    split_ifs at hld with c1 c2
    · simp only [Option.some.injEq] at hld; exact absurd hld hnxv
    · right; omega
    · left; exact hld
  refine ⟨l2, h.tile, ?_, ?_, ?_, ?_, ?_, ?_, ?_⟩
  · intro b hbm
    rw [M5 b hbm]; exact h.sizes b hbm
  · refine Seg_append.2 ⟨_, s2, ?_⟩
    refine Seg_frame (fun y hy => ?_) hpost
    obtain ⟨sy, hmy⟩ := h.fl_block (hpostm y hy)
    exact M6 _ hmy (fun hc => hxpost (hc ▸ hy))
      (fun hc => (List.nodup_append.1 hnd).2.2 hc (List.mem_cons_of_mem _ hy))
  · intro y hy
    exact h.sub y ((hflmem y).1 hy).1
  · have h1 := List.nodup_append.1 hnd
    refine List.nodup_append.2 ⟨h1.1, (List.nodup_cons.1 h1.2.1).2, ?_⟩
    intro a ha1 ha2
    exact h1.2.2 ha1 (List.mem_cons_of_mem _ ha2)
  · intro b hbm hnf _
    by_cases hbx : b.1 = x
    · rw [hbx]; exact M2
    · have hnfl : b.1 ∉ fl := fun hc => hnf ((hflmem _).2 ⟨hc, hbx⟩)
      rw [M6 b hbm hbx (fun hc => hnfl (hpre _ hc))]
      exact h.marked b hbm hnfl (by simp)
  · intro hK a ha1 ha2 ha3 hld
    refine ⟨?_, by simp⟩
    rcases M7 a ha1 ha3 hld with h1 | h1
    · exact (h.stale hK a ha1 ha2 ha3 h1).1
    · subst h1; exact starts_mem hm
  · intro b hbm hbf hc
    exact h.noadj b hbm ((hflmem _).1 hbf).1 ((hflmem _).1 hc).1

/-- What `alloc` does in an initialised state that satisfies the invariant. -/
theorem alloc_spec {K : Prop} {base : Nat} {hp : List Nat} {fls : Nat} {bs : List (Nat × Nat)}
    {fl : List Nat} (hb : BaseOK base) (h : WF K base hp fls bs fl []) (n : Nat) :
    (alloc base ⟨1, hp, fls⟩ n = some (⟨1, hp, fls⟩, 0) ∧
      (roundUp n = 0 ∨ ∀ b ∈ bs, b.1 ∈ fl → b.2 < roundUp n)) ∨
    (∃ pre x sz post hp1 fls1, roundUp n ≠ 0 ∧ fl = pre ++ x :: post ∧ (x, sz) ∈ bs ∧
      (∀ b ∈ bs, b.1 ∈ pre → b.2 < roundUp n) ∧ roundUp n ≤ sz ∧
      alloc base ⟨1, hp, fls⟩ n = some (⟨1, hp1, fls1⟩, x + 16) ∧
      ((roundUp n + 16 < sz ∧
          Frame hp hp1 (fun j => (x - base ≤ j ∧ j < x - base + 16 + (roundUp n + 16)) ∨
            (0 < locWord pre ∧ wordAt base (locWord pre) j)) ∧
          ∃ L R, bs = L ++ (x, sz) :: R ∧
            WF K base hp1 fls1 (L ++ (x, roundUp n) :: (x + 16 + roundUp n, sz - roundUp n - 16) :: R)
              (pre ++ (x + 16 + roundUp n) :: post) []) ∨
       (sz ≤ roundUp n + 16 ∧
          Frame hp hp1 (fun j => (x - base + 8 ≤ j ∧ j < x - base + 16) ∨
            (0 < locWord pre ∧ wordAt base (locWord pre) j)) ∧
          WF K base hp1 fls1 bs (pre ++ post) []))) := by
  by_cases hr0 : roundUp n = 0
  · left
    exact ⟨alloc_zero_exec base _ n (by simp) hr0, Or.inl hr0⟩
  · have hlen := h.fl_length
    obtain ⟨p2, q2, e2, hfind, hsm, hge⟩ :=
      findBlock_spec (i := 1) hb h (roundUp n) fl [] loopFuel rfl
        (by simp only [loopFuel, memsize]; omega)
    simp only [List.nil_append] at hfind
    cases q2 with
    | nil =>
      left
      simp only [List.append_nil] at e2
      subst e2
      exact ⟨alloc_none_exec hb h hr0 hfind, Or.inr hsm⟩
    | cons x post =>
      right
      have hx : x ∈ fl := by rw [e2]; simp
      obtain ⟨sz, hm⟩ := h.fl_block hx
      have hle : roundUp n ≤ sz := hge _ hm (by simp)
      by_cases hlt : roundUp n + 16 < sz
      · obtain ⟨hp5, fls5, ex, l5, s5, f5, ld5⟩ := alloc_split_exec hb h e2 hm hr0 hlt hfind
        obtain ⟨L, R, ebs, hwf⟩ :=
          alloc_split_wf hb h e2 hm hr0 (roundUp_mod8 n) hlt l5 s5 ld5
        exact ⟨p2, x, sz, post, hp5, fls5, hr0, e2, hm, hsm, hle, ex,
          Or.inl ⟨hlt, f5, L, R, ebs, hwf⟩⟩
      · obtain ⟨hp2, fls2, ex, l2, s2, f2, ld2⟩ :=
          alloc_whole_exec hb h e2 hm hr0 hle (by omega) hfind
        exact ⟨p2, x, sz, post, hp2, fls2, hr0, e2, hm, hsm, hle, ex,
          Or.inr ⟨by omega, f2, alloc_whole_wf hb h e2 hm l2 s2 ld2⟩⟩

/-- The first call runs `init` and then behaves as in the initialised state. -/
theorem alloc_start {K : Prop} (base : Nat) (hb : BaseOK base) (n : Nat) :
    ∃ hp, init base State.start = some ⟨1, hp, base⟩ ∧
      WF K base hp base [(base, 240)] [base] [] ∧
      alloc base State.start n = alloc base ⟨1, hp, base⟩ n := by
  obtain ⟨hp, e1, hwf⟩ := init_start base hb
  refine ⟨hp, e1, hwf, ?_⟩
  unfold alloc
  have : State.start.initialized = 0 := rfl
  simp only [this, if_true, e1]
  simp

/-! ### The scan loop of `free` -/

/-- Merging the block being released with a neighbour found in the free list
keeps the loop invariant. -/
theorem scan_merge_inv {K : Prop} {base : Nat} {hp hp2 : List Nat} {fls fls2 : Nat}
    {bs : List (Nat × Nat)} {kept rest : List Nat} {x cb csz lo slo hi shi : Nat}
    (hb : BaseOK base) (h : ScanInv K base hp fls bs kept (x :: rest) cb csz)
    (hlo : (lo, slo) ∈ bs) (hhi : (hi, shi) ∈ bs) (hadj : lo + 16 + slo = hi)
    (hcase : (lo = x ∧ hi = cb) ∨ (lo = cb ∧ hi = x))
    (l2 : hp2.length = 256) (s2 : Seg base hp2 fls2 kept (rest.headD 0))
    (ld2 : ∀ w, base ≤ w → (w - base) % 8 = 0 →
      load base hp2 w =
        if w = locWord kept then some (rest.headD 0)
        else if w = lo then some (slo + 16 + shi)
        else load base hp w) :
    ∃ A C, bs = A ++ (lo, slo) :: (hi, shi) :: C ∧
      ScanInv K base hp2 fls2 (A ++ (lo, slo + 16 + shi) :: C) kept rest lo (slo + 16 + shi) := by
  have hb1 := (baseOK_iff base).1 hb
  have hw := h.wf
  obtain ⟨hseg, hnx, hrest⟩ := hw.next_of_split rfl
  have hx : x ∈ kept ++ x :: rest := by simp
  have hkept : ∀ y ∈ kept, y ∈ kept ++ x :: rest := fun y hy => by simp [hy]
  have hrestm : ∀ y ∈ rest, y ∈ kept ++ x :: rest := fun y hy => by simp [hy]
  have hnd := hw.nodup
  have hxk : x ∉ kept := fun hx1 => (List.nodup_append.1 hnd).2.2 hx1 (List.mem_cons_self _ _)
  have hxr : x ∉ rest := (List.nodup_cons.1 (List.nodup_append.1 hnd).2.1).1
  have hcbx : cb ≠ x := fun hc => h.notin (hc ▸ hx)
  have hlob := hw.block_bounds hlo
  have hhib := hw.block_bounds hhi
  simp only at hlob hhib
  obtain ⟨A, C, ebs⟩ := Tile_adjacent hw.tile hlo hhi hadj
  have htile := hw.tile
  rw [ebs] at htile
  obtain ⟨m, tA, hm1, _, _, hm2, _, _, tC⟩ := Tile_append.1 htile
  simp only at hm1 hm2 tC
  subst hm1
  have hA : ∀ c ∈ A, c ∈ bs ∧ c.1 + 16 + c.2 ≤ lo := by
    intro c hc
    have := Tile_mem tA hc
    exact ⟨by rw [ebs]; simp [hc], by omega⟩
  have hC : ∀ c ∈ C, c ∈ bs ∧ hi + 16 + shi ≤ c.1 := by
    intro c hc
    have := Tile_mem tC hc
    exact ⟨by rw [ebs]; simp [hc], by omega⟩
  have hmem : ∀ b, b ∈ A ++ (lo, slo + 16 + shi) :: C ↔
      (b ∈ bs ∧ b.1 ≠ lo ∧ b.1 ≠ hi) ∨ b = (lo, slo + 16 + shi) := by
    intro b
    rw [ebs]
    simp only [List.mem_append, List.mem_cons]
    constructor
    · rintro (h1 | h1 | h1)
      · have h2 := hA b h1
        have h3 := hw.block_bounds h2.1
        exact Or.inl ⟨Or.inl h1, by omega, by omega⟩
      · exact Or.inr h1
      · have h2 := hC b h1
        exact Or.inl ⟨Or.inr (Or.inr (Or.inr h1)), by omega, by omega⟩
    · rintro (⟨h1 | h1 | h1 | h1, h2, h3⟩ | h1)
      · exact Or.inl h1
      · subst h1; exact absurd rfl h2
      · subst h1; exact absurd rfl h3
      · exact Or.inr (Or.inr h1)
      · exact Or.inr (Or.inl h1)
  have hflmem : ∀ y, y ∈ kept ++ rest ↔ (y ∈ kept ++ x :: rest ∧ y ≠ x) := by
    intro y
    simp only [List.mem_append, List.mem_cons]
    constructor
    · rintro (h1 | h1)
      · exact ⟨Or.inl h1, fun hc => hxk (hc ▸ h1)⟩
      · exact ⟨Or.inr (Or.inr h1), fun hc => hxr (hc ▸ h1)⟩
    · rintro ⟨h1 | h1 | h1, h2⟩
      · exact Or.inl h1
      · exact absurd h1 h2
      · exact Or.inr h1
  -- a list entry other than `x` is a block different from `lo` and `hi`
  have hfl_ne : ∀ y, y ∈ kept ++ x :: rest → y ≠ x → y ≠ lo ∧ y ≠ hi := by
    intro y hy hne
    have hycb : y ≠ cb := fun hc => h.notin (hc ▸ hy)
    rcases hcase with ⟨c1, c2⟩ | ⟨c1, c2⟩ <;> subst c1 <;> subst c2 <;> exact ⟨by omega, by omega⟩
  have hlwx : ∀ w, w = locWord kept → w = 0 ∨ ∃ y, y ∈ kept ∧ w = y + 8 := by
    intro w hw; rw [hw]; exact locWord_mem kept
  have hnxv : rest.headD 0 ≠ ALLOCATED := by
    cases rest with
    | nil => simp [ALLOCATED]
    | cons z t =>
      have := hw.fl_bounds (hrestm z (by simp))
      simp only [List.headD_cons, ALLOCATED]
      omega
  have hstart_lw : ∀ b ∈ bs, b.1 ≠ locWord kept := by
    intro b hbm hc
    have hbb := hw.block_bounds hbm
    rcases hlwx _ hc with h0 | ⟨y, hy, h0⟩
    · omega
    · obtain ⟨sy, hmy⟩ := hw.fl_block (hkept y hy)
      rcases hw.starts_sep hbm hmy with h1 | h1 | h1
      · rw [h1] at h0; simp only at h0; omega
      · simp only at h1; omega
      · simp only at h1; omega
  have N1 : load base hp2 lo = some (slo + 16 + shi) := by
    rw [ld2 lo hlob.1 hlob.2.2.2.2, if_neg (hstart_lw _ hlo), if_pos rfl]
  have N5 : ∀ b ∈ bs, b.1 ≠ lo → load base hp2 b.1 = load base hp b.1 := by
    intro b hbm hne
    have hbb := hw.block_bounds hbm
    rw [ld2 _ hbb.1 hbb.2.2.2.2, if_neg (hstart_lw _ hbm), if_neg hne]
  have N6 : ∀ b ∈ bs, b.1 ∉ kept → load base hp2 (b.1 + 8) = load base hp (b.1 + 8) := by
    intro b hbm hnk
    have hbb := hw.block_bounds hbm
    rw [ld2 _ (by omega) (by omega)]
    have hne2 : b.1 + 8 ≠ locWord kept := by
      intro hc
      rcases hlwx _ hc with h0 | ⟨y, hy, h0⟩
      · omega
      · exact hnk ((show y = b.1 by omega) ▸ hy)
    have hne3 : b.1 + 8 ≠ lo := by
      intro hc
      rcases hw.starts_sep hbm hlo with h1 | h1 | h1
      · rw [h1] at hc; simp only at hc; omega
      · simp only at h1; omega
      · simp only at h1; omega
    rw [if_neg hne2, if_neg hne3]
  have N7 : ∀ a, base ≤ a → (a - base) % 8 = 0 → load base hp2 (a + 8) = some ALLOCATED →
      load base hp (a + 8) = some ALLOCATED := by
    intro a ha1 ha2 hld
    rw [ld2 _ (by omega) (by omega)] at hld
    split_ifs at hld with c1 c2
    · simp only [Option.some.injEq] at hld; exact absurd hld hnxv
    · simp only [Option.some.injEq, ALLOCATED] at hld; omega
    · exact hld
  refine ⟨A, C, ebs, ⟨⟨l2, ?_, ?_, ?_, ?_, ?_, ?_, ?_, ?_⟩, ?_, ?_, ?_, ?_⟩⟩
  · -- tile
    refine Tile_append.2 ⟨lo, tA, rfl, by omega, by omega, ?_⟩
    have : lo + 16 + (slo + 16 + shi) = lo + 16 + slo + 16 + shi := by omega
    simp only [this]
    exact tC
  · -- sizes
    intro b hbm
    rcases (hmem b).1 hbm with ⟨h1, h2, _⟩ | h1
    · rw [N5 b h1 h2]; exact hw.sizes b h1
    · subst h1; exact N1
  · -- chain
    refine Seg_append.2 ⟨_, s2, ?_⟩
    refine Seg_frame (fun y hy => ?_) hrest
    obtain ⟨sy, hmy⟩ := hw.fl_block (hrestm y hy)
    exact N6 _ hmy (fun hc => (List.nodup_append.1 hnd).2.2 hc (List.mem_cons_of_mem _ hy))
  · -- sub
    intro y hy
    obtain ⟨h1, h2⟩ := (hflmem y).1 hy
    obtain ⟨sy, hmy⟩ := hw.fl_block h1
    have := hfl_ne y h1 h2
    exact starts_mem ((hmem (y, sy)).2 (Or.inl ⟨hmy, this.1, this.2⟩))
  · -- nodup
    have h1 := List.nodup_append.1 hnd
    refine List.nodup_append.2 ⟨h1.1, (List.nodup_cons.1 h1.2.1).2, ?_⟩
    intro a ha1 ha2
    exact h1.2.2 ha1 (List.mem_cons_of_mem _ ha2)
  · -- marked
    intro b hbm hnf hnx
    simp only [List.mem_singleton] at hnx
    rcases (hmem b).1 hbm with ⟨h1, h2, h3⟩ | h1
    · have hbx : b.1 ≠ x ∧ b.1 ≠ cb := by
        rcases hcase with ⟨c1, c2⟩ | ⟨c1, c2⟩ <;> subst c1 <;> subst c2 <;> exact ⟨by omega, by omega⟩
      have hnfl : b.1 ∉ kept ++ x :: rest := fun hc => hnf ((hflmem _).2 ⟨hc, hbx.1⟩)
      rw [N6 b h1 (fun hc => hnfl (hkept _ hc))]
      exact hw.marked b h1 hnfl (by simp [hbx.2])
    · subst h1; exact absurd rfl hnx
  · -- stale
    intro hK a ha1 ha2 ha3 hld
    have h1 := N7 a ha1 ha3 hld
    obtain ⟨h2, h3⟩ := hw.stale hK a ha1 ha2 ha3 h1
    simp only [List.mem_singleton] at h3
    have hax : a ≠ x := fun hc => hw.fl_not_marked hb hx (hc ▸ h1)
    have hal : a ≠ lo ∧ a ≠ hi := by
      rcases hcase with ⟨c1, c2⟩ | ⟨c1, c2⟩ <;> subst c1 <;> subst c2 <;> exact ⟨by omega, by omega⟩
    obtain ⟨sa, hma⟩ := mem_starts h2
    exact ⟨starts_mem ((hmem (a, sa)).2 (Or.inl ⟨hma, hal.1, hal.2⟩)), by simp [hal.1]⟩
  · -- noadj
    intro b hbm hbf hc
    obtain ⟨h1, h2⟩ := (hflmem _).1 hbf
    rcases (hmem b).1 hbm with ⟨h3, _, _⟩ | h3
    · exact hw.noadj b h3 h1 ((hflmem _).1 hc).1
    · subst h3
      simp only at h1 h2
      rcases hcase with ⟨c1, c2⟩ | ⟨c1, c2⟩
      · exact h2 c1
      · exact h.notin (c1 ▸ h1)
  · -- blk
    exact (hmem _).2 (Or.inr rfl)
  · -- notin
    intro hc
    obtain ⟨h1, h2⟩ := (hflmem _).1 hc
    rcases hcase with ⟨c1, c2⟩ | ⟨c1, c2⟩
    · exact h2 c1
    · exact h.notin (c1 ▸ h1)
  · -- keptL
    intro b hbm hbk
    rcases (hmem b).1 hbm with ⟨h3, _, _⟩ | h3
    · rcases hcase with ⟨c1, c2⟩ | ⟨c1, c2⟩
      · intro hc
        exact hw.noadj b h3 (hkept _ hbk) (by rw [hc, c1]; exact hx)
      · rw [c1]; exact h.keptL b h3 hbk
    · subst h3
      simp only at hbk
      rcases hcase with ⟨c1, c2⟩ | ⟨c1, c2⟩
      · exact absurd (c1 ▸ hbk) hxk
      · exact absurd (hkept _ (c1 ▸ hbk)) h.notin
  · -- keptR
    intro hc
    have e1 : lo + 16 + (slo + 16 + shi) = hi + 16 + shi := by omega
    rw [e1] at hc
    rcases hcase with ⟨c1, c2⟩ | ⟨c1, c2⟩
    · subst c2
      have := Tile_fst_inj hw.tile hhi h.blk rfl
      cases this
      exact h.keptR hc
    · subst c2
      exact hw.noadj _ hhi hx (hkept _ hc)

theorem ScanInv.facts {K : Prop} {base : Nat} {hp : List Nat} {fls : Nat}
    {bs : List (Nat × Nat)} {kept rest : List Nat} {x cb csz : Nat}
    (hb : BaseOK base) (h : ScanInv K base hp fls bs kept (x :: rest) cb csz) :
    Seg base hp fls kept x ∧ load base hp (x + 8) = some (rest.headD 0) ∧
    (∀ y ∈ kept, y ∈ kept ++ x :: rest) ∧ kept.Nodup ∧ x ∉ kept ∧ x ∈ kept ++ x :: rest ∧
    (∀ y ∈ kept, ∀ z ∈ kept, y = z ∨ y + 16 ≤ z ∨ z + 16 ≤ y) ∧
    (∀ y ∈ kept, base ≤ y ∧ (y - base) % 8 = 0) ∧
    rest.headD 0 < 18446744073709551616 := by
  have hb1 := (baseOK_iff base).1 hb
  have hw := h.wf
  obtain ⟨hseg, hnx, _⟩ := hw.next_of_split rfl
  have hkept : ∀ y ∈ kept, y ∈ kept ++ x :: rest := fun y hy => by simp [hy]
  have hnd := hw.nodup
  refine ⟨hseg, hnx, hkept, (List.nodup_append.1 hnd).1,
    fun hx1 => (List.nodup_append.1 hnd).2.2 hx1 (List.mem_cons_self _ _), by simp, ?_, ?_, ?_⟩
  · intro y hy z hz
    have := hw.fl_sep (hkept y hy) (hkept z hz)
    omega
  · intro y hy
    have := hw.fl_bounds (hkept y hy)
    omega
  · rcases hw.next_lt rest (fun y hy => by simp [hy]) with h1 | h1 <;> omega

theorem scan_left_exec {K : Prop} {base i : Nat} {hp : List Nat} {fls : Nat}
    {bs : List (Nat × Nat)} {kept rest : List Nat} {x sx cb csz : Nat}
    (hb : BaseOK base) (h : ScanInv K base hp fls bs kept (x :: rest) cb csz)
    (hm : (x, sx) ∈ bs) (hadj : x + 16 + sx = cb) (fuel : Nat) :
    ∃ hp2 fls2, scan base (fuel + 1) ⟨i, hp, fls⟩ cb (locAfter kept) =
        scan base fuel ⟨i, hp2, fls2⟩ x (locAfter kept) ∧
      hp2.length = 256 ∧ Seg base hp2 fls2 kept (rest.headD 0) ∧
      Frame hp hp2 (fun j => wordAt base x j ∨ (0 < locWord kept ∧ wordAt base (locWord kept) j)) ∧
      (∀ w, base ≤ w → (w - base) % 8 = 0 →
        load base hp2 w =
          if w = locWord kept then some (rest.headD 0)
          else if w = x then some (sx + 16 + csz)
          else load base hp w) := by
  have hb1 := (baseOK_iff base).1 hb
  have hw := h.wf
  obtain ⟨hseg, hnx, hkept, hknd, hxk, hx, hksep, hkal, hnxlt⟩ := h.facts hb
  have hxb := hw.block_bounds hm
  have hcb := hw.block_bounds h.blk
  simp only at hxb hcb
  obtain ⟨hp1, e1⟩ := store_isSome base hp (a := x) (sx + 16 + csz) (by omega) (by omega)
  have l1 : hp1.length = 256 := by rw [store_length e1, hw.len]
  have s1 : Seg base hp1 fls kept x := Seg_frame (fun y hy => by
    have := hw.fl_sep (hkept y hy) hx
    have hne : y ≠ x := fun hc => hxk (hc ▸ hy)
    exact load_store_disj e1 (by omega)) hseg
  have hnx1 : load base hp1 (x + 8) = some (rest.headD 0) := by
    rw [load_store_disj e1 (by omega)]; exact hnx
  obtain ⟨hp2, fls2, e2, s2, l2, f2, ld2, _, _⟩ :=
    assign_locAfter (i := i) (rest.headD 0) hb1.2 l1 hnxlt s1 hknd hksep hkal (by omega)
  refine ⟨hp2, fls2, ?_, l2, s2, ?_, ?_⟩
  · have hx0 : x ≠ 0 := by omega
    have ev1 : (x + 16 + sx) % W = cb := by simp only [W]; omega
    have ev2 : (sx + (16 + csz) % W) % W = sx + 16 + csz := by simp only [W]; omega
    simp only [scan, blocksize, byteafter, Option.bind_eq_bind, Option.some_bind,
      deref_locAfter hb1.2 hseg, deref_locAfter hb1.2 s1, NULL, hx0, if_false,
      getSize_some (hw.sizes _ hm), getSize_some (hw.sizes _ h.blk), ev1, ev2, if_true,
      setSize_some e1, getNext_some (show x + 8 < 18446744073709551616 by omega) hnx1, e2]
  · refine ((store_frame e1).trans f2).mono ?_
    intro j hj
    exact hj
  · intro w hw1 hw2
    rw [ld2 w hw1 hw2, load_store_al e1 hw.len (by omega) (by omega) hw1 hw2]

theorem scan_right_exec {K : Prop} {base i : Nat} {hp : List Nat} {fls : Nat}
    {bs : List (Nat × Nat)} {kept rest : List Nat} {x sx cb csz : Nat}
    (hb : BaseOK base) (h : ScanInv K base hp fls bs kept (x :: rest) cb csz)
    (hm : (x, sx) ∈ bs) (hadj : cb + 16 + csz = x) (fuel : Nat) :
    ∃ hp2 fls2, scan base (fuel + 1) ⟨i, hp, fls⟩ cb (locAfter kept) =
        scan base fuel ⟨i, hp2, fls2⟩ cb (locAfter kept) ∧
      hp2.length = 256 ∧ Seg base hp2 fls2 kept (rest.headD 0) ∧
      Frame hp hp2 (fun j => wordAt base cb j ∨ (0 < locWord kept ∧ wordAt base (locWord kept) j)) ∧
      (∀ w, base ≤ w → (w - base) % 8 = 0 →
        load base hp2 w =
          if w = locWord kept then some (rest.headD 0)
          else if w = cb then some (csz + 16 + sx)
          else load base hp w) := by
  have hb1 := (baseOK_iff base).1 hb
  have hw := h.wf
  obtain ⟨hseg, hnx, hkept, hknd, hxk, hx, hksep, hkal, hnxlt⟩ := h.facts hb
  have hxb := hw.block_bounds hm
  have hcb := hw.block_bounds h.blk
  simp only at hxb hcb
  obtain ⟨hp1, e1⟩ := store_isSome base hp (a := cb) (csz + 16 + sx) (by omega) (by omega)
  have l1 : hp1.length = 256 := by rw [store_length e1, hw.len]
  have s1 : Seg base hp1 fls kept x := Seg_frame (fun y hy => by
    obtain ⟨sy, hmy⟩ := hw.fl_block (hkept y hy)
    rcases hw.starts_sep hmy h.blk with h1 | h1 | h1
    · cases h1; exact absurd (hkept _ hy) h.notin
    · simp only at h1; exact load_store_disj e1 (by omega)
    · simp only at h1; exact load_store_disj e1 (by omega)) hseg
  have hnx1 : load base hp1 (x + 8) = some (rest.headD 0) := by
    rw [load_store_disj e1 (by omega)]; exact hnx
  obtain ⟨hp2, fls2, e2, s2, l2, f2, ld2, _, _⟩ :=
    assign_locAfter (i := i) (rest.headD 0) hb1.2 l1 hnxlt s1 hknd hksep hkal (by omega)
  refine ⟨hp2, fls2, ?_, l2, s2, ?_, ?_⟩
  · have hx0 : x ≠ 0 := by omega
    have ev0 : ¬ ((x + 16 + sx) % W = cb) := by simp only [W]; omega
    have ev1 : (cb + 16 + csz) % W = x := by simp only [W]; omega
    have ev2 : (csz + (16 + sx) % W) % W = csz + 16 + sx := by simp only [W]; omega
    simp only [scan, blocksize, byteafter, Option.bind_eq_bind, Option.some_bind,
      deref_locAfter hb1.2 hseg, deref_locAfter hb1.2 s1, NULL, hx0, if_false,
      getSize_some (hw.sizes _ hm), getSize_some (hw.sizes _ h.blk), ev0, ev1, ev2, if_true,
      setSize_some e1, getNext_some (show x + 8 < 18446744073709551616 by omega) hnx1, e2]
  · refine ((store_frame e1).trans f2).mono ?_
    intro j hj
    exact hj
  · intro w hw1 hw2
    rw [ld2 w hw1 hw2, load_store_al e1 hw.len (by omega) (by omega) hw1 hw2]

theorem scan_skip_exec {K : Prop} {base i : Nat} {hp : List Nat} {fls : Nat}
    {bs : List (Nat × Nat)} {kept rest : List Nat} {x sx cb csz : Nat}
    (hb : BaseOK base) (h : ScanInv K base hp fls bs kept (x :: rest) cb csz)
    (hm : (x, sx) ∈ bs) (hnl : x + 16 + sx ≠ cb) (hnr : cb + 16 + csz ≠ x) (fuel : Nat) :
    scan base (fuel + 1) ⟨i, hp, fls⟩ cb (locAfter kept) =
        scan base fuel ⟨i, hp, fls⟩ cb (locAfter (kept ++ [x])) ∧
      ScanInv K base hp fls bs (kept ++ [x]) rest cb csz := by
  have hb1 := (baseOK_iff base).1 hb
  have hw := h.wf
  obtain ⟨hseg, hnx, hkept, hknd, hxk, hx, hksep, hkal, hnxlt⟩ := h.facts hb
  have hxb := hw.block_bounds hm
  have hcb := hw.block_bounds h.blk
  simp only at hxb hcb
  have el : kept ++ [x] ++ rest = kept ++ x :: rest := by simp
  constructor
  · have hx0 : x ≠ 0 := by omega
    have ev0 : ¬ ((x + 16 + sx) % W = cb) := by simp only [W]; omega
    have ev1 : ¬ ((cb + 16 + csz) % W = x) := by simp only [W]; omega
    simp only [scan, blocksize, byteafter, Option.bind_eq_bind, Option.some_bind,
      deref_locAfter hb1.2 hseg, NULL, hx0, if_false,
      getSize_some (hw.sizes _ hm), getSize_some (hw.sizes _ h.blk), ev0, ev1, locAfter_snoc]
  · refine ⟨by rw [el]; exact hw, h.blk, by rw [el]; exact h.notin, ?_, ?_⟩
    · intro b hbm hbk
      rcases List.mem_append.1 hbk with h1 | h1
      · exact h.keptL b hbm h1
      · simp only [List.mem_singleton] at h1
        have := Tile_fst_inj hw.tile hbm hm h1
        subst this
        exact hnl
    · intro hc
      rcases List.mem_append.1 hc with h1 | h1
      · exact h.keptR h1
      · simp only [List.mem_singleton] at h1
        exact hnr h1

theorem scan_done_exec {K : Prop} {base i : Nat} {hp : List Nat} {fls : Nat}
    {bs : List (Nat × Nat)} {kept : List Nat} {cb csz : Nat}
    (hb : BaseOK base) (h : ScanInv K base hp fls bs kept [] cb csz) (fuel : Nat) :
    scan base (fuel + 1) ⟨i, hp, fls⟩ cb (locAfter kept) = some (⟨i, hp, fls⟩, cb) := by
  have hb1 := (baseOK_iff base).1 hb
  have hseg : Seg base hp fls kept 0 := by
    have := h.wf.chain
    rw [List.append_nil] at this
    exact this
  simp only [scan, Option.bind_eq_bind, Option.some_bind, deref_locAfter hb1.2 hseg, NULL,
    if_true]

theorem merge_mem {a e : Nat} {A C : List (Nat × Nat)} {lo slo hi shi : Nat}
    (ht : Tile a e (A ++ (lo, slo) :: (hi, shi) :: C)) (n : Nat) (b : Nat × Nat) :
    b ∈ A ++ (lo, n) :: C ↔
      (b ∈ A ++ (lo, slo) :: (hi, shi) :: C ∧ b.1 ≠ lo ∧ b.1 ≠ hi) ∨ b = (lo, n) := by
  obtain ⟨m, tA, hm1, h1, _, hm2, h2, _, tC⟩ := Tile_append.1 ht
  simp only at hm1 hm2 tC h1 h2
  subst hm1
  simp only [List.mem_append, List.mem_cons]
  constructor
  · rintro (h3 | h3 | h3)
    · have h4 := Tile_mem tA h3
      exact Or.inl ⟨Or.inl h3, by omega, by omega⟩
    · exact Or.inr h3
    · have h4 := Tile_mem tC h3
      exact Or.inl ⟨Or.inr (Or.inr (Or.inr h3)), by omega, by omega⟩
  · rintro (⟨h3 | h3 | h3 | h3, h4, h5⟩ | h3)
    · exact Or.inl h3
    · subst h3; exact absurd rfl h4
    · subst h3; exact absurd rfl h5
    · exact Or.inr (Or.inr h3)
    · exact Or.inr (Or.inl h3)

theorem filter_notMerged_cons_L (x sx : Nat) (Ro : Option (Nat × Nat)) (rest : List Nat)
    (hx : x ∉ rest) :
    (x :: rest).filter (notMerged (some (x, sx)) Ro) = rest.filter (notMerged none Ro) := by
  have h1 : notMerged (some (x, sx)) Ro x = false := by simp [notMerged]
  rw [List.filter_cons_of_neg (by simp [h1])]
  apply List.filter_congr
  intro y hy
  have : x ≠ y := fun hc => hx (hc ▸ hy)
  simp [notMerged, this]

theorem filter_notMerged_cons_R (x sx : Nat) (Lo : Option (Nat × Nat)) (rest : List Nat)
    (hx : x ∉ rest) :
    (x :: rest).filter (notMerged Lo (some (x, sx))) = rest.filter (notMerged Lo none) := by
  have h1 : notMerged Lo (some (x, sx)) x = false := by simp [notMerged]
  rw [List.filter_cons_of_neg (by simp [h1])]
  apply List.filter_congr
  intro y hy
  have : x ≠ y := fun hc => hx (hc ▸ hy)
  simp [notMerged, this]

theorem filter_notMerged_cons_N (x : Nat) (Lo Ro : Option (Nat × Nat)) (rest : List Nat)
    (hL : ∀ l ∈ Lo, l.1 ≠ x) (hR : ∀ r ∈ Ro, r.1 ≠ x) :
    (x :: rest).filter (notMerged Lo Ro) = x :: rest.filter (notMerged Lo Ro) := by
  have h1 : notMerged Lo Ro x = true := by
    simp only [notMerged, Bool.and_eq_true, decide_eq_true_eq]
    constructor
    · cases Lo with
      | none => simp
      | some l => simpa using hL l rfl
    · cases Ro with
      | none => simp
      | some r => simpa using hR r rfl
  rw [List.filter_cons_of_pos h1]

theorem inHeaders_mono {base : Nat} {l1 l2 : List Nat} (h : ∀ a ∈ l1, a ∈ l2) (j : Nat)
    (hj : inHeaders base l1 j) : inHeaders base l2 j := by
  obtain ⟨a, ha, h1⟩ := hj
  exact ⟨a, h a ha, h1⟩

/-- The scan loop of `free` terminates, merges every free neighbour of the
block being released, and keeps the other list entries in order. -/
theorem scan_spec {K : Prop} {base i : Nat} (hb : BaseOK base) :
    ∀ (todo kept hp : List Nat) (fls : Nat) (bs : List (Nat × Nat)) (cb csz fuel : Nat),
      ScanInv K base hp fls bs kept todo cb csz → todo.length < fuel →
      ∃ hp1 fls1 bs1 cb1 csz1 Lo Ro,
        scan base fuel ⟨i, hp, fls⟩ cb (locAfter kept) = some (⟨i, hp1, fls1⟩, cb1) ∧
        ScanInv K base hp1 fls1 bs1 (kept ++ todo.filter (notMerged Lo Ro)) [] cb1 csz1 ∧
        (∀ l ∈ Lo, l ∈ bs ∧ l.1 ∈ todo ∧ l.1 + 16 + l.2 = cb) ∧
        (Lo = none → ∀ b ∈ bs, b.1 ∈ todo → b.1 + 16 + b.2 ≠ cb) ∧
        (∀ r ∈ Ro, r ∈ bs ∧ r.1 ∈ todo ∧ r.1 = cb + 16 + csz) ∧
        (Ro = none → cb + 16 + csz ∉ todo) ∧
        cb1 = (Lo.map Prod.fst).getD cb ∧
        csz1 = csz + (Lo.map (fun l => 16 + l.2)).getD 0 + (Ro.map (fun r => 16 + r.2)).getD 0 ∧
        (∀ b, b ∈ bs1 ↔ (b ∈ bs ∧ b.1 ≠ cb ∧ b ∉ Lo ∧ b ∉ Ro) ∨ b = (cb1, csz1)) ∧
        Frame hp hp1 (inHeaders base (cb :: kept ++ todo)) := by
  have hb1 := (baseOK_iff base).1 hb
  intro todo
  induction todo with
  | nil =>
    intro kept hp fls bs cb csz fuel h hf
    obtain ⟨f, rfl⟩ : ∃ f, fuel = f + 1 := ⟨fuel - 1, by simp at hf; omega⟩
    refine ⟨hp, fls, bs, cb, csz, none, none, scan_done_exec hb h f, ?_, by simp, by simp,
      by simp, by simp, rfl, rfl, ?_, Frame.refl _ _⟩
    · simpa using h
    · intro b
      constructor
      · intro hbm
        by_cases hc : b.1 = cb
        · right; exact Tile_fst_inj h.wf.tile hbm h.blk hc
        · left; exact ⟨hbm, hc, by simp, by simp⟩
      · rintro (⟨h1, _⟩ | h1)
        · exact h1
        · rw [h1]; exact h.blk
  | cons x rest ih =>
    intro kept hp fls bs cb csz fuel h hf
    obtain ⟨f, rfl⟩ : ∃ f, fuel = f + 1 := ⟨fuel - 1, by simp at hf; omega⟩
    simp only [List.length_cons] at hf
    have hw := h.wf
    obtain ⟨hseg, hnx, hkept, hknd, hxk, hx, hksep, hkal, hnxlt⟩ := h.facts hb
    have hxr : x ∉ rest := (List.nodup_cons.1 (List.nodup_append.1 hw.nodup).2.1).1
    obtain ⟨sx, hm⟩ := hw.fl_block hx
    have hxb := hw.block_bounds hm
    have hcb := hw.block_bounds h.blk
    simp only at hxb hcb
    have hrestfl : ∀ y ∈ rest, y ∈ kept ++ x :: rest := fun y hy => by simp [hy]
    by_cases hL : x + 16 + sx = cb
    · -- left neighbour
      obtain ⟨hp2, fls2, ex, l2, s2, f2, ld2⟩ := scan_left_exec (i := i) hb h hm hL f
      obtain ⟨A, C, ebs, inv1⟩ :=
        scan_merge_inv hb h hm h.blk hL (Or.inl ⟨rfl, rfl⟩) l2 s2 ld2
      have hmem := merge_mem (by rw [← ebs]; exact hw.tile) (sx + 16 + csz)
      rw [← ebs] at hmem
      obtain ⟨hp3, fls3, bs3, cb3, csz3, Lo1, Ro1, ex3, inv3, hLo, hLn, hRo, hRn, ecb, ecsz,
        hmem3, f3⟩ := ih kept hp2 fls2 _ x (sx + 16 + csz) f inv1 (by omega)
      have hLo1 : Lo1 = none := by
        cases hl : Lo1 with
        | none => rfl
        | some l =>
          exfalso
          obtain ⟨h1, h2, h3⟩ := hLo l hl
          rcases (hmem l).1 h1 with ⟨h4, _, _⟩ | h4
          · exact hw.noadj l h4 (hrestfl _ h2) (h3 ▸ hx)
          · rw [h4] at h2; exact hxr h2
      subst hLo1
      refine ⟨hp3, fls3, bs3, cb3, csz3, some (x, sx), Ro1, by rw [ex, ex3], ?_, ?_, by simp,
        ?_, ?_, ?_, ?_, ?_, ?_⟩
      · rw [filter_notMerged_cons_L _ _ _ _ hxr]; exact inv3
      · intro l hl
        simp only [Option.mem_def, Option.some.injEq] at hl
        subst hl
        exact ⟨hm, by simp, hL⟩
      · intro r hr
        obtain ⟨h1, h2, h3⟩ := hRo r hr
        rcases (hmem r).1 h1 with ⟨h4, _, _⟩ | h4
        · exact ⟨h4, by simp [h2], by omega⟩
        · rw [h4] at h2; exact absurd h2 hxr
      · intro hr hc
        rcases List.mem_cons.1 hc with h1 | h1
        · omega
        · apply hRn hr
          have : x + 16 + (sx + 16 + csz) = cb + 16 + csz := by omega
          rw [this]; exact h1
      · simpa using ecb
      · rw [ecsz]; simp only [Option.map_none', Option.getD_none, Option.map_some',
          Option.getD_some]; omega
      · intro b
        rw [hmem3 b, hmem b]
        constructor
        · rintro (⟨h1 | h1, h2, _, h4⟩ | h1)
          · left
            refine ⟨h1.1, h1.2.2, ?_, h4⟩
            intro hc
            simp only [Option.mem_def, Option.some.injEq] at hc
            rw [← hc] at h1
            exact h1.2.1 rfl
          · rw [h1] at h2; exact absurd rfl h2
          · exact Or.inr h1
        · rintro (⟨h1, h2, h3, h4⟩ | h1)
          · left
            have hbx : b.1 ≠ x := by
              intro hc
              apply h3
              simp only [Option.mem_def, Option.some.injEq]
              exact (Tile_fst_inj hw.tile h1 hm hc).symm
            exact ⟨Or.inl ⟨h1, hbx, h2⟩, hbx, by simp, h4⟩
          · exact Or.inr h1
      · refine (f2.trans f3).mono ?_
        rintro j (hj | hj)
        · rcases hj with hj | ⟨h0, hj⟩
          · exact ⟨x, by simp, by unfold wordAt at hj; omega⟩
          · rcases locWord_mem kept with h1 | ⟨y, hy, h1⟩
            · omega
            · have := hkal y hy
              refine ⟨y, by simp [hy], ?_⟩
              rw [h1] at hj
              unfold wordAt at hj
              omega
        · exact inHeaders_mono (fun a ha => by
            simp only [List.mem_cons, List.mem_append] at ha ⊢
            tauto) j hj
    · by_cases hR : cb + 16 + csz = x
      · -- right neighbour
        obtain ⟨hp2, fls2, ex, l2, s2, f2, ld2⟩ := scan_right_exec (i := i) hb h hm hR f
        obtain ⟨A, C, ebs, inv1⟩ :=
          scan_merge_inv hb h h.blk hm hR (Or.inr ⟨rfl, rfl⟩) l2 s2 ld2
        have hmem := merge_mem (by rw [← ebs]; exact hw.tile) (csz + 16 + sx)
        rw [← ebs] at hmem
        obtain ⟨hp3, fls3, bs3, cb3, csz3, Lo1, Ro1, ex3, inv3, hLo, hLn, hRo, hRn, ecb, ecsz,
          hmem3, f3⟩ := ih kept hp2 fls2 _ cb (csz + 16 + sx) f inv1 (by omega)
        have hRo1 : Ro1 = none := by
          cases hl : Ro1 with
          | none => rfl
          | some r =>
            exfalso
            obtain ⟨h1, h2, h3⟩ := hRo r hl
            rcases (hmem r).1 h1 with ⟨h4, _, _⟩ | h4
            · apply hw.noadj _ hm hx
              have : x + 16 + sx = r.1 := by omega
              simp only [this]
              exact hrestfl _ h2
            · rw [h4] at h2; exact h.notin (hrestfl _ h2)
        subst hRo1
        refine ⟨hp3, fls3, bs3, cb3, csz3, Lo1, some (x, sx), by rw [ex, ex3], ?_, ?_, ?_,
          ?_, by simp, ?_, ?_, ?_, ?_⟩
        · rw [filter_notMerged_cons_R _ _ _ _ hxr]; exact inv3
        · intro l hl
          obtain ⟨h1, h2, h3⟩ := hLo l hl
          rcases (hmem l).1 h1 with ⟨h4, _, _⟩ | h4
          · exact ⟨h4, by simp [h2], h3⟩
          · rw [h4] at h2; exact absurd (hrestfl _ h2) h.notin
        · intro hl b hbm hbt
          rcases List.mem_cons.1 hbt with h1 | h1
          · have := Tile_fst_inj hw.tile hbm hm h1
            subst this
            exact hL
          · have hbx : b.1 ≠ x := fun hc => hxr (hc ▸ h1)
            have hbc : b.1 ≠ cb := fun hc => h.notin (hc ▸ hrestfl _ h1)
            exact hLn hl b ((hmem b).2 (Or.inl ⟨hbm, hbc, hbx⟩)) h1
        · intro r hr
          simp only [Option.mem_def, Option.some.injEq] at hr
          subst hr
          exact ⟨hm, by simp, hR.symm⟩
        · exact ecb
        · rw [ecsz]; simp only [Option.map_none', Option.getD_none, Option.map_some',
            Option.getD_some]; omega
        · intro b
          rw [hmem3 b, hmem b]
          constructor
          · rintro (⟨h1 | h1, h2, h3, _⟩ | h1)
            · left
              refine ⟨h1.1, h1.2.1, h3, ?_⟩
              intro hc
              simp only [Option.mem_def, Option.some.injEq] at hc
              rw [← hc] at h1
              exact h1.2.2 rfl
            · rw [h1] at h2; exact absurd rfl h2
            · exact Or.inr h1
          · rintro (⟨h1, h2, h3, h4⟩ | h1)
            · left
              have hbx : b.1 ≠ x := by
                intro hc
                apply h4
                simp only [Option.mem_def, Option.some.injEq]
                exact (Tile_fst_inj hw.tile h1 hm hc).symm
              exact ⟨Or.inl ⟨h1, h2, hbx⟩, h2, h3, by simp⟩
            · exact Or.inr h1
        · refine (f2.trans f3).mono ?_
          rintro j (hj | hj)
          · rcases hj with hj | ⟨h0, hj⟩
            · exact ⟨cb, by simp, by unfold wordAt at hj; omega⟩
            · rcases locWord_mem kept with h1 | ⟨y, hy, h1⟩
              · omega
              · have := hkal y hy
                refine ⟨y, by simp [hy], ?_⟩
                rw [h1] at hj
                unfold wordAt at hj
                omega
          · exact inHeaders_mono (fun a ha => by
              simp only [List.mem_cons, List.mem_append] at ha ⊢
              tauto) j hj
      · -- not a neighbour
        obtain ⟨ex, inv1⟩ := scan_skip_exec (i := i) hb h hm hL hR f
        obtain ⟨hp3, fls3, bs3, cb3, csz3, Lo1, Ro1, ex3, inv3, hLo, hLn, hRo, hRn, ecb, ecsz,
          hmem3, f3⟩ := ih (kept ++ [x]) hp fls bs cb csz f inv1 (by omega)
        refine ⟨hp3, fls3, bs3, cb3, csz3, Lo1, Ro1, by rw [ex, ex3], ?_, ?_, ?_, ?_, ?_,
          ecb, ecsz, hmem3, ?_⟩
        · rw [filter_notMerged_cons_N x Lo1 Ro1 rest
            (fun l hl hc => hxr (hc ▸ (hLo l hl).2.1))
            (fun r hr hc => hxr (hc ▸ (hRo r hr).2.1))]
          simpa using inv3
        · intro l hl
          obtain ⟨h1, h2, h3⟩ := hLo l hl
          exact ⟨h1, by simp [h2], h3⟩
        · intro hl b hbm hbt
          rcases List.mem_cons.1 hbt with h1 | h1
          · have := Tile_fst_inj hw.tile hbm hm h1
            subst this
            exact hL
          · exact hLn hl b hbm h1
        · intro r hr
          obtain ⟨h1, h2, h3⟩ := hRo r hr
          exact ⟨h1, by simp [h2], h3⟩
        · intro hr hc
          rcases List.mem_cons.1 hc with h1 | h1
          · exact hR h1
          · exact hRn hr h1
        · refine f3.mono (inHeaders_mono (fun a ha => by
            simp only [List.mem_cons, List.mem_append, List.mem_singleton] at ha ⊢
            tauto))

/-! ### `free` -/

theorem free_null (base : Nat) (s : State) : free base s 0 = some s := by
  simp [free, NULL]

theorem free_unmarked (base : Nat) (s : State) (p v : Nat)
    (h1 : getNext base s ((p + W - blocksize) % W) = some v) (h2 : v ≠ ALLOCATED) :
    free base s p = some s := by
  unfold free
  by_cases hp : p = NULL
  · simp [hp]
  · simp [hp, h1, h2]

/-- Clearing the mark of an allocated block starts the scan with its invariant. -/
theorem free_clear_inv {K : Prop} {base : Nat} {hp hp1 : List Nat} {fls : Nat} {bs : List (Nat × Nat)}
    {fl : List Nat} {cb csz : Nat} (hb : BaseOK base) (h : WF K base hp fls bs fl [])
    (hm : (cb, csz) ∈ bs) (hnf : cb ∉ fl) (e1 : store base hp (cb + 8) 0 = some hp1) :
    ScanInv K base hp1 fls bs [] fl cb csz := by
  have hb1 := (baseOK_iff base).1 hb
  have hcb := h.block_bounds hm
  simp only at hcb
  have ld : ∀ w, base ≤ w → (w - base) % 8 = 0 →
      load base hp1 w = if w = cb + 8 then some 0 else load base hp w :=
    fun w hw1 hw2 => load_store_al e1 h.len (by omega) (by omega) hw1 hw2
  have hsz : ∀ b ∈ bs, load base hp1 b.1 = load base hp b.1 := by
    intro b hbm
    have hbb := h.block_bounds hbm
    rw [ld _ hbb.1 hbb.2.2.2.2, if_neg]
    intro hc
    rcases h.starts_sep hbm hm with h1 | h1 | h1
    · rw [h1] at hc; simp only at hc; omega
    · simp only at h1; omega
    · simp only at h1; omega
  have hnx : ∀ b ∈ bs, b.1 ≠ cb → load base hp1 (b.1 + 8) = load base hp (b.1 + 8) := by
    intro b hbm hne
    have hbb := h.block_bounds hbm
    rw [ld _ (by omega) (by omega), if_neg (by omega)]
  refine ⟨⟨by rw [store_length e1, h.len], h.tile, ?_, ?_, h.sub, h.nodup, ?_, ?_, h.noadj⟩,
    hm, by simpa using hnf, by simp, by simp⟩
  · intro b hbm; rw [hsz b hbm]; exact h.sizes b hbm
  · refine Seg_frame (fun y hy => ?_) h.chain
    obtain ⟨sy, hmy⟩ := h.fl_block hy
    exact hnx _ hmy (fun hc => hnf (hc ▸ hy))
  · intro b hbm h1 h2
    simp only [List.mem_singleton] at h2
    rw [hnx b hbm h2]
    exact h.marked b hbm h1 (by simp)
  · intro hK a ha1 ha2 ha3 hld
    rw [ld _ (by omega) (by omega)] at hld
    split_ifs at hld with c1
    · simp [ALLOCATED] at hld
    · refine ⟨(h.stale hK a ha1 ha2 ha3 hld).1, ?_⟩
      simp only [List.mem_singleton]
      omega

/-- Pushing the merged block on the list head ends `free` in a state that
satisfies the representation invariant. -/
theorem free_push_wf {K : Prop} {base : Nat} {hp hp1 : List Nat} {fls : Nat} {bs : List (Nat × Nat)}
    {kept : List Nat} {cb csz : Nat} (hb : BaseOK base)
    (h : ScanInv K base hp fls bs kept [] cb csz)
    (e1 : store base hp (cb + 8) fls = some hp1) :
    WF K base hp1 cb bs (cb :: kept) [] := by
  have hb1 := (baseOK_iff base).1 hb
  have hw := h.wf
  rw [List.append_nil] at hw
  have hnotin : cb ∉ kept := by simpa using h.notin
  have hcb := hw.block_bounds h.blk
  simp only at hcb
  have hfls : fls = 0 ∨ (base ≤ fls ∧ fls + 24 ≤ base + 256 ∧ fls ∈ kept) := by
    have := hw.next_lt kept (fun y hy => hy)
    rw [← hw.head_lt] at this
    exact this
  have hflslt : fls < 18446744073709551616 := by omega
  have ld : ∀ w, base ≤ w → (w - base) % 8 = 0 →
      load base hp1 w = if w = cb + 8 then some fls else load base hp w :=
    fun w hw1 hw2 => load_store_al e1 hw.len hflslt (by omega) hw1 hw2
  have hsz : ∀ b ∈ bs, load base hp1 b.1 = load base hp b.1 := by
    intro b hbm
    have hbb := hw.block_bounds hbm
    rw [ld _ hbb.1 hbb.2.2.2.2, if_neg]
    intro hc
    rcases hw.starts_sep hbm h.blk with h1 | h1 | h1
    · rw [h1] at hc; simp only at hc; omega
    · simp only at h1; omega
    · simp only at h1; omega
  have hnx : ∀ b ∈ bs, b.1 ≠ cb → load base hp1 (b.1 + 8) = load base hp (b.1 + 8) := by
    intro b hbm hne
    have hbb := hw.block_bounds hbm
    rw [ld _ (by omega) (by omega), if_neg (by omega)]
  have hcbn : load base hp1 (cb + 8) = some fls := by
    rw [ld _ (by omega) (by omega), if_pos rfl]
  refine ⟨by rw [store_length e1, hw.len], hw.tile, ?_, ?_, ?_, ?_, ?_, ?_, ?_⟩
  · intro b hbm; rw [hsz b hbm]; exact hw.sizes b hbm
  · refine ⟨rfl, fls, hcbn, Seg_frame (fun y hy => ?_) hw.chain⟩
    obtain ⟨sy, hmy⟩ := hw.fl_block hy
    exact hnx _ hmy (fun hc => hnotin (hc ▸ hy))
  · intro y hy
    rcases List.mem_cons.1 hy with h1 | h1
    · rw [h1]; exact starts_mem h.blk
    · exact hw.sub y h1
  · exact List.nodup_cons.2 ⟨hnotin, hw.nodup⟩
  · intro b hbm h1 _
    have h2 : b.1 ≠ cb := fun hc => h1 (by simp [hc])
    have h3 : b.1 ∉ kept := fun hc => h1 (by simp [hc])
    rw [hnx b hbm h2]
    exact hw.marked b hbm h3 (by simp [h2])
  · intro hK a ha1 ha2 ha3 hld
    rw [ld _ (by omega) (by omega)] at hld
    split_ifs at hld with c1
    · exfalso
      simp only [Option.some.injEq, ALLOCATED] at hld
      omega
    · exact ⟨(hw.stale hK a ha1 ha2 ha3 hld).1, by simp⟩
  · intro b hbm h1 hc
    rcases List.mem_cons.1 h1 with h2 | h2
    · have := Tile_fst_inj hw.tile hbm h.blk h2
      subst this
      rcases List.mem_cons.1 hc with h3 | h3
      · simp only at h3; omega
      · exact h.keptR h3
    · rcases List.mem_cons.1 hc with h3 | h3
      · exact h.keptL b hbm h2 h3
      · exact hw.noadj b hbm h2 h3

/-- What `free` does in an initialised state that satisfies the invariant, for
the pointer of a block `cb` of the partition that is not a free-list entry. -/
theorem free_block_spec {K : Prop} {base : Nat} {hp : List Nat} {fls : Nat}
    {bs : List (Nat × Nat)} {fl : List Nat} (hb : BaseOK base)
    (h : WF K base hp fls bs fl []) {cb csz : Nat} (hm : (cb, csz) ∈ bs) (hnf : cb ∉ fl) :
    ∃ hp3 bs3 cb3 csz3 Lo Ro,
      free base ⟨1, hp, fls⟩ (cb + 16) = some ⟨1, hp3, cb3⟩ ∧
      WF K base hp3 cb3 bs3 (cb3 :: fl.filter (notMerged Lo Ro)) [] ∧
      (∀ l ∈ Lo, l ∈ bs ∧ l.1 ∈ fl ∧ l.1 + 16 + l.2 = cb) ∧
      (Lo = none → ∀ b ∈ bs, b.1 ∈ fl → b.1 + 16 + b.2 ≠ cb) ∧
      (∀ r ∈ Ro, r ∈ bs ∧ r.1 ∈ fl ∧ r.1 = cb + 16 + csz) ∧
      (Ro = none → cb + 16 + csz ∉ fl) ∧
      cb3 = (Lo.map Prod.fst).getD cb ∧
      csz3 = csz + (Lo.map (fun l => 16 + l.2)).getD 0 + (Ro.map (fun r => 16 + r.2)).getD 0 ∧
      (∀ b, b ∈ bs3 ↔ (b ∈ bs ∧ b.1 ≠ cb ∧ b ∉ Lo ∧ b ∉ Ro) ∨ b = (cb3, csz3)) ∧
      Frame hp hp3 (inHeaders base (cb :: fl)) := by
  have hb1 := (baseOK_iff base).1 hb
  have hcb := h.block_bounds hm
  simp only at hcb
  have ev : (cb + 16 + W - blocksize) % W = cb := by
    simp only [W, blocksize]; omega
  have hv : load base hp (cb + 8) = some ALLOCATED := h.marked _ hm hnf (by simp)
  have hgn : getNext base ⟨1, hp, fls⟩ cb = some ALLOCATED := getNext_some (by omega) hv
  obtain ⟨hp1, e1⟩ := store_isSome base hp (a := cb + 8) 0 (by omega) (by omega)
  have inv1 := free_clear_inv hb h hm hnf e1
  have hlen := inv1.wf.fl_length
  simp only [List.nil_append] at hlen
  obtain ⟨hp2, fls2, bs2, cb2, csz2, Lo, Ro, ex2, inv2, hLo, hLn, hRo, hRn, ecb, ecsz,
    hmem2, f2⟩ := scan_spec (i := 1) hb fl [] hp1 fls bs cb csz loopFuel inv1
      (by simp only [loopFuel, memsize]; omega)
  simp only [List.nil_append] at inv2 f2
  have hcb2 := inv2.wf.block_bounds inv2.blk
  simp only at hcb2
  obtain ⟨hp3, e3⟩ := store_isSome base hp2 (a := cb2 + 8) fls2 (by omega) (by omega)
  have hwf3 := free_push_wf hb inv2 e3
  refine ⟨hp3, bs2, cb2, csz2, Lo, Ro, ?_, hwf3, hLo, hLn, hRo, hRn, ecb, ecsz,
    hmem2, ?_⟩
  · have hne : cb + 16 ≠ 0 := by omega
    have hl : locAfter [] = Loc.head := rfl
    rw [hl] at ex2
    simp only [free, ev, NULL, hne, if_false, hgn, Option.bind_eq_bind, Option.some_bind,
      ne_eq, not_true_eq_false, setNext_some (show cb + 8 < 18446744073709551616 by omega) e1,
      ex2, setNext_some (show cb2 + 8 < 18446744073709551616 by omega) e3]
  · refine (((store_frame e1).trans f2).trans (store_frame e3)).mono ?_
    rintro j ((hj | hj) | hj)
    · exact ⟨cb, by simp, by unfold wordAt at hj; omega⟩
    · exact hj
    · refine ⟨cb2, ?_, by unfold wordAt at hj; omega⟩
      rw [ecb]
      cases hl : Lo with
      | none => simp
      | some l =>
        have := (hLo l hl).2.1
        simp [this]

/-- What `free` does in an initialised state that satisfies the invariant and
whose payload bytes are as the allocator left them, for a pointer `cb + 16`
behind an aligned header position of the arena. -/
theorem free_spec {base : Nat} {hp : List Nat} {fls : Nat} {bs : List (Nat × Nat)}
    {fl : List Nat} (hb : BaseOK base) (h : WF True base hp fls bs fl []) (cb : Nat)
    (h1 : base ≤ cb) (h2 : cb + 16 ≤ base + 256) (h3 : (cb - base) % 8 = 0) :
    (free base ⟨1, hp, fls⟩ (cb + 16) = some ⟨1, hp, fls⟩ ∧
      ¬ (∃ sz, (cb, sz) ∈ bs ∧ cb ∉ fl)) ∨
    (∃ csz hp3 bs3 cb3 csz3 Lo Ro, (cb, csz) ∈ bs ∧ cb ∉ fl ∧
      free base ⟨1, hp, fls⟩ (cb + 16) = some ⟨1, hp3, cb3⟩ ∧
      WF True base hp3 cb3 bs3 (cb3 :: fl.filter (notMerged Lo Ro)) [] ∧
      (∀ l ∈ Lo, l ∈ bs ∧ l.1 ∈ fl ∧ l.1 + 16 + l.2 = cb) ∧
      (Lo = none → ∀ b ∈ bs, b.1 ∈ fl → b.1 + 16 + b.2 ≠ cb) ∧
      (∀ r ∈ Ro, r ∈ bs ∧ r.1 ∈ fl ∧ r.1 = cb + 16 + csz) ∧
      (Ro = none → cb + 16 + csz ∉ fl) ∧
      cb3 = (Lo.map Prod.fst).getD cb ∧
      csz3 = csz + (Lo.map (fun l => 16 + l.2)).getD 0 + (Ro.map (fun r => 16 + r.2)).getD 0 ∧
      (∀ b, b ∈ bs3 ↔ (b ∈ bs ∧ b.1 ≠ cb ∧ b ∉ Lo ∧ b ∉ Ro) ∨ b = (cb3, csz3)) ∧
      Frame hp hp3 (inHeaders base (cb :: fl))) := by
  have hb1 := (baseOK_iff base).1 hb
  have ev : (cb + 16 + W - blocksize) % W = cb := by
    simp only [W, blocksize]; omega
  obtain ⟨v, hv⟩ := load_isSome base hp (a := cb + 8) (by omega) (by omega)
  have hgn : getNext base ⟨1, hp, fls⟩ cb = some v := getNext_some (by omega) hv
  by_cases hva : v = ALLOCATED
  · right
    subst hva
    obtain ⟨hst, _⟩ := h.stale trivial cb h1 h2 h3 hv
    obtain ⟨csz, hm⟩ := mem_starts hst
    have hnf : cb ∉ fl := fun hc => h.fl_not_marked hb hc hv
    obtain ⟨hp3, bs3, cb3, csz3, Lo, Ro, hrest⟩ := free_block_spec hb h hm hnf
    exact ⟨csz, hp3, bs3, cb3, csz3, Lo, Ro, hm, hnf, hrest⟩
  · left
    refine ⟨free_unmarked base _ _ v (by rw [ev]; exact hgn) hva, ?_⟩
    rintro ⟨sz, hm, hnf⟩
    have := h.marked _ hm hnf (by simp)
    simp only at this
    rw [hv] at this
    exact hva (Option.some.inj this)

/-! ### Observations computed from a represented state -/

theorem walk_of_tile {base : Nat} {hp : List Nat} :
    ∀ (bs : List (Nat × Nat)) (a fuel : Nat), Tile a (base + 256) bs →
      (∀ b ∈ bs, load base hp b.1 = some b.2) → bs.length < fuel →
      walk base hp fuel a = some bs := by
  intro bs
  induction bs with
  | nil =>
    intro a fuel ht _ hf
    obtain ⟨f, rfl⟩ : ∃ f, fuel = f + 1 := ⟨fuel - 1, by simp at hf; omega⟩
    simp only [Tile] at ht
    simp [walk, ht, memsize]
  | cons b r ih =>
    intro a fuel ht hs hf
    obtain ⟨f, rfl⟩ : ∃ f, fuel = f + 1 := ⟨fuel - 1, by simp at hf; omega⟩
    simp only [List.length_cons] at hf
    obtain ⟨h1, h2, h3, h4⟩ := ht
    have h5 := Tile_le h4
    have h6 := hs b (List.mem_cons_self _ _)
    rw [h1] at h6
    have h7 := ih (a + 16 + b.2) f h4 (fun c hc => hs c (List.mem_cons_of_mem _ hc)) (by omega)
    have hne : a ≠ base + 256 := by omega
    have hlt : ¬ (base + 256 < a + 16) := by omega
    simp only [walk, memsize, blocksize, hne, if_false, hlt, h6, h7, Option.bind_eq_bind,
      Option.some_bind]
    rw [← h1]

theorem chainFrom_of_seg {base : Nat} {hp : List Nat} :
    ∀ (fl : List Nat) (a fuel : Nat), Seg base hp a fl 0 → (∀ x ∈ fl, x ≠ 0) →
      fl.length < fuel → chainFrom base hp fuel a = some fl := by
  intro fl
  induction fl with
  | nil =>
    intro a fuel hs _ hf
    obtain ⟨f, rfl⟩ : ∃ f, fuel = f + 1 := ⟨fuel - 1, by simp at hf; omega⟩
    simp only [Seg] at hs
    simp [chainFrom, hs, NULL]
  | cons x r ih =>
    intro a fuel hs hx hf
    obtain ⟨f, rfl⟩ : ∃ f, fuel = f + 1 := ⟨fuel - 1, by simp at hf; omega⟩
    simp only [List.length_cons] at hf
    obtain ⟨h1, nx, h2, h3⟩ := hs
    subst h1
    have h4 := ih nx f h3 (fun y hy => hx y (List.mem_cons_of_mem _ hy)) (by omega)
    have hne : a ≠ 0 := hx a (List.mem_cons_self _ _)
    simp only [chainFrom, NULL, hne, if_false, h2, h4, Option.bind_eq_bind, Option.some_bind]

theorem WF.blocks_eq {K : Prop} {base : Nat} {s : State} {bs : List (Nat × Nat)} {fl X : List Nat}
    (h : WF K base s.heap s.free_list_start bs fl X) : blocks base s = some bs := by
  have := Tile_length h.tile
  exact walk_of_tile bs base loopFuel h.tile h.sizes (by simp only [loopFuel, memsize]; omega)

theorem WF.freeList_eq {K : Prop} {base : Nat} {s : State} {bs : List (Nat × Nat)} {fl X : List Nat}
    (hb : BaseOK base) (h : WF K base s.heap s.free_list_start bs fl X) :
    freeList base s = some fl := by
  have hb1 := (baseOK_iff base).1 hb
  have := h.fl_length
  refine chainFrom_of_seg fl _ loopFuel h.chain (fun x hx => ?_)
    (by simp only [loopFuel, memsize]; omega)
  have := h.fl_bounds hx
  omega

theorem split_mem {a e : Nat} {L R : List (Nat × Nat)} {x sz : Nat}
    (ht : Tile a e (L ++ (x, sz) :: R)) (c d b : Nat × Nat) :
    b ∈ L ++ c :: d :: R ↔ (b ∈ L ++ (x, sz) :: R ∧ b.1 ≠ x) ∨ b = c ∨ b = d := by
  obtain ⟨m, tL, hm1, h1, _, tR⟩ := Tile_append.1 ht
  simp only at hm1 tR h1
  subst hm1
  simp only [List.mem_append, List.mem_cons]
  constructor
  · rintro (h3 | h3 | h3 | h3)
    · have h4 := Tile_mem tL h3
      exact Or.inl ⟨Or.inl h3, by omega⟩
    · exact Or.inr (Or.inl h3)
    · exact Or.inr (Or.inr h3)
    · have h4 := Tile_mem tR h3
      exact Or.inl ⟨Or.inr (Or.inr h3), by omega⟩
  · rintro (⟨h3 | h3 | h3, h4⟩ | h3 | h3)
    · exact Or.inl h3
    · subst h3; exact absurd rfl h4
    · exact Or.inr (Or.inr (Or.inr h3))
    · exact Or.inr (Or.inl h3)
    · exact Or.inr (Or.inr (Or.inl h3))

theorem State.eta_init {s : State} (h : s.initialized = 1) :
    s = ⟨1, s.heap, s.free_list_start⟩ := by
  cases s; simp only at h; subst h; rfl

/-! ### Histories -/

/-- One `alloc` call from a good history. -/
theorem good_alloc {K : Prop} {base : Nat} {h : Hist} {bs : List (Nat × Nat)} {fl : List Nat}
    (hb : BaseOK base) (hg : Good K base h bs fl) (n : Nat) :
    (alloc base h.st n = some (h.st, 0) ∧
      (roundUp n = 0 ∨ ∀ b ∈ bs, b.1 ∈ fl → b.2 < roundUp n)) ∨
    (∃ pre x sz post s1, roundUp n ≠ 0 ∧ fl = pre ++ x :: post ∧ (x, sz) ∈ bs ∧
      (∀ b ∈ bs, b.1 ∈ pre → b.2 < roundUp n) ∧ roundUp n ≤ sz ∧
      alloc base h.st n = some (s1, x + 16) ∧
      ((roundUp n + 16 < sz ∧ ∃ L R, bs = L ++ (x, sz) :: R ∧
          Good K base ⟨s1, (x + 16) :: h.issued, (x + 16) :: h.live⟩
            (L ++ (x, roundUp n) :: (x + 16 + roundUp n, sz - roundUp n - 16) :: R)
            (pre ++ (x + 16 + roundUp n) :: post)) ∨
       (sz ≤ roundUp n + 16 ∧
          Good K base ⟨s1, (x + 16) :: h.issued, (x + 16) :: h.live⟩ bs (pre ++ post)))) := by
  have hst := State.eta_init hg.init
  have hw := hg.wf
  rcases alloc_spec hb hw n with ⟨e1, e2⟩ | ⟨pre, x, sz, post, hp1, fls1, hr0, e, hm, hsm, hle,
    ex, hcase⟩
  · left
    rw [hst]; exact ⟨e1, e2⟩
  · right
    have hx : x ∈ fl := by rw [e]; simp
    have hxb := hw.block_bounds hm
    simp only at hxb
    have hnd := hw.nodup
    rw [e] at hnd
    have hxpre : x ∉ pre :=
      fun hx1 => (List.nodup_append.1 hnd).2.2 hx1 (List.mem_cons_self _ _)
    have hxpost : x ∉ post := (List.nodup_cons.1 (List.nodup_append.1 hnd).2.1).1
    have hxlive : x + 16 ∉ h.live := by
      intro hc
      obtain ⟨b, hbm, hbf, hbe⟩ := (hg.live _).1 hc
      have : b.1 = x := by omega
      exact hbf (this ▸ hx)
    have hiss : ∀ p ∈ (x + 16) :: h.issued,
        base + 16 ≤ p ∧ p ≤ base + 256 ∧ (p - base) % 8 = 0 := by
      intro p hp
      rcases List.mem_cons.1 hp with h1 | h1
      · subst h1; omega
      · exact hg.issued p h1
    have hli : ∀ p ∈ (x + 16) :: h.live, p ∈ (x + 16) :: h.issued := by
      intro p hp
      rcases List.mem_cons.1 hp with h1 | h1
      · subst h1; simp
      · exact List.mem_cons_of_mem _ (hg.liveIssued p h1)
    refine ⟨pre, x, sz, post, ⟨1, hp1, fls1⟩, hr0, e, hm, hsm, hle, by rw [hst]; exact ex, ?_⟩
    rcases hcase with ⟨hlt, _, L, R, ebs, hwf⟩ | ⟨hge, _, hwf⟩
    · left
      refine ⟨hlt, L, R, ebs, ⟨rfl, hwf, List.nodup_cons.2 ⟨hxlive, hg.nodup⟩, ?_, hiss, hli⟩⟩
      have hmem := split_mem (by rw [← ebs]; exact hw.tile) (x, roundUp n)
        (x + 16 + roundUp n, sz - roundUp n - 16)
      rw [← ebs] at hmem
      have hsplit_notfl : x + 16 + roundUp n ∉ fl := by
        intro hc
        obtain ⟨sy, hmy⟩ := hw.fl_block hc
        rcases Tile_disj hw.tile hmy hm with h1 | h1 | h1
        · have := congrArg Prod.fst h1
          simp only at this
          omega
        · simp only at h1; omega
        · simp only at h1; omega
      intro p
      simp only [List.mem_cons]
      constructor
      · rintro (h1 | h1)
        · refine ⟨(x, roundUp n), (hmem _).2 (Or.inr (Or.inl rfl)), ?_, h1⟩
          simp only [List.mem_append, List.mem_cons, not_or]
          exact ⟨hxpre, by omega, hxpost⟩
        · obtain ⟨b, hbm, hbf, hbe⟩ := (hg.live _).1 h1
          have hbx : b.1 ≠ x := fun hc => hbf (hc ▸ hx)
          refine ⟨b, (hmem _).2 (Or.inl ⟨hbm, hbx⟩), ?_, hbe⟩
          simp only [List.mem_append, List.mem_cons, not_or]
          refine ⟨fun hc => hbf (by rw [e]; simp [hc]), fun hc => hbf (hc ▸ ?_),
            fun hc => hbf (by rw [e]; simp [hc])⟩
          have hbb := hw.block_bounds hbm
          rcases Tile_disj hw.tile hbm hm with h2 | h2 | h2
          · rw [h2] at hbx; exact absurd rfl hbx
          · omega
          · omega
      · rintro ⟨b, hbm, hbf, hbe⟩
        simp only [List.mem_append, List.mem_cons, not_or] at hbf
        rcases (hmem b).1 hbm with ⟨h1, h2⟩ | h1 | h1
        · right
          refine (hg.live _).2 ⟨b, h1, ?_, hbe⟩
          rw [e]
          simp only [List.mem_append, List.mem_cons, not_or]
          exact ⟨hbf.1, h2, hbf.2.2⟩
        · left; rw [hbe, h1]
        · rw [h1] at hbf; exact absurd rfl hbf.2.1
    · right
      refine ⟨hge, ⟨rfl, hwf, List.nodup_cons.2 ⟨hxlive, hg.nodup⟩, ?_, hiss, hli⟩⟩
      intro p
      simp only [List.mem_cons]
      constructor
      · rintro (h1 | h1)
        · refine ⟨(x, sz), hm, ?_, h1⟩
          simp only [List.mem_append, not_or]
          exact ⟨hxpre, hxpost⟩
        · obtain ⟨b, hbm, hbf, hbe⟩ := (hg.live _).1 h1
          refine ⟨b, hbm, ?_, hbe⟩
          simp only [List.mem_append, not_or]
          exact ⟨fun hc => hbf (by rw [e]; simp [hc]), fun hc => hbf (by rw [e]; simp [hc])⟩
      · rintro ⟨b, hbm, hbf, hbe⟩
        simp only [List.mem_append, not_or] at hbf
        by_cases hbx : b.1 = x
        · left; omega
        · right
          refine (hg.live _).2 ⟨b, hbm, ?_, hbe⟩
          rw [e]
          simp only [List.mem_append, List.mem_cons, not_or]
          exact ⟨hbf.1, hbx, hbf.2⟩

/-- What `free` does to a good history when the pointer is live. -/
theorem good_free_live {K : Prop} {base : Nat} {h : Hist} {bs : List (Nat × Nat)}
    {fl : List Nat} (hb : BaseOK base) (hg : Good K base h bs fl) (p : Nat)
    (hp : p ∈ h.live) :
    ∃ cb csz s3 bs3 cb3 csz3 Lo Ro, p = cb + 16 ∧ (cb, csz) ∈ bs ∧ cb ∉ fl ∧
      free base h.st p = some s3 ∧ s3.free_list_start = cb3 ∧
      Good K base ⟨s3, h.issued, h.live.erase p⟩ bs3 (cb3 :: fl.filter (notMerged Lo Ro)) ∧
      (∀ l ∈ Lo, l ∈ bs ∧ l.1 ∈ fl ∧ l.1 + 16 + l.2 = cb) ∧
      (Lo = none → ∀ b ∈ bs, b.1 ∈ fl → b.1 + 16 + b.2 ≠ cb) ∧
      (∀ r ∈ Ro, r ∈ bs ∧ r.1 ∈ fl ∧ r.1 = cb + 16 + csz) ∧
      (Ro = none → cb + 16 + csz ∉ fl) ∧
      cb3 = (Lo.map Prod.fst).getD cb ∧
      csz3 = csz + (Lo.map (fun l => 16 + l.2)).getD 0 + (Ro.map (fun r => 16 + r.2)).getD 0 ∧
      (∀ b, b ∈ bs3 ↔ (b ∈ bs ∧ b.1 ≠ cb ∧ b ∉ Lo ∧ b ∉ Ro) ∨ b = (cb3, csz3)) ∧
      Frame h.st.heap s3.heap (inHeaders base (cb :: fl)) := by
  have hst := State.eta_init hg.init
  have hw := hg.wf
  obtain ⟨b, hm, hnf, hpe⟩ := (hg.live p).1 hp
  obtain ⟨cb, csz⟩ := b
  simp only at hnf hpe
  subst hpe
  obtain ⟨hp3, bs3, cb3, csz3, Lo, Ro, ex, hwf, hLo, hLn, hRo, hRn, ecb, ecsz, hmem, f3⟩ :=
    free_block_spec hb hw hm hnf
  have hcb3 : cb3 = cb ∨ cb3 ∈ fl := by
    rw [ecb]
    cases hl : Lo with
    | none => left; rfl
    | some l => right; exact (hLo l hl).2.1
  refine ⟨cb, csz, ⟨1, hp3, cb3⟩, bs3, cb3, csz3, Lo, Ro, rfl, hm, hnf,
    by rw [hst]; exact ex, rfl, ⟨rfl, hwf, hg.nodup.erase _, ?_, hg.issued,
      fun q hq => hg.liveIssued q (List.mem_of_mem_erase hq)⟩,
    hLo, hLn, hRo, hRn, ecb, ecsz, hmem, f3⟩
  intro q
  simp only
  rw [hg.nodup.mem_erase_iff]
  constructor
  · rintro ⟨hq1, hq2⟩
    obtain ⟨b, hbm, hbf, hbe⟩ := (hg.live _).1 hq2
    have hbc : b.1 ≠ cb := by omega
    refine ⟨b, (hmem b).2 (Or.inl ⟨hbm, hbc, ?_, ?_⟩), ?_, hbe⟩
    · intro hc; exact hbf (hLo b hc).2.1
    · intro hc; exact hbf (hRo b hc).2.1
    · simp only [List.mem_cons, not_or]
      refine ⟨?_, fun hc => hbf (List.mem_filter.1 hc).1⟩
      intro hc
      rcases hcb3 with h1 | h1
      · omega
      · exact hbf (hc ▸ h1)
  · rintro ⟨b, hbm, hbf, hbe⟩
    simp only [List.mem_cons, not_or] at hbf
    rcases (hmem b).1 hbm with ⟨h1, h2, h3, h4⟩ | h1
    · refine ⟨by omega, (hg.live _).2 ⟨b, h1, ?_, hbe⟩⟩
      intro hc
      apply hbf.2
      refine List.mem_filter.2 ⟨hc, ?_⟩
      simp only [notMerged, Bool.and_eq_true, decide_eq_true_eq, ne_eq]
      constructor
      · intro hl
        obtain ⟨l, hl1, hl2⟩ := Option.map_eq_some'.1 hl
        have := Tile_fst_inj hw.tile (hLo l hl1).1 h1 hl2
        exact h3 (this ▸ hl1)
      · intro hr
        obtain ⟨r, hr1, hr2⟩ := Option.map_eq_some'.1 hr
        have := Tile_fst_inj hw.tile (hRo r hr1).1 h1 hr2
        exact h4 (this ▸ hr1)
    · rw [h1] at hbf; exact absurd rfl hbf.1

/-- One `free` call from a good history, on `NULL` or an issued pointer. -/
theorem good_free {base : Nat} {h : Hist} {bs : List (Nat × Nat)} {fl : List Nat}
    (hb : BaseOK base) (hg : Good True base h bs fl) (p : Nat) (hp : p = 0 ∨ p ∈ h.issued) :
    (free base h.st p = some h.st ∧ p ∉ h.live) ∨
    (∃ cb csz s3 bs3 cb3 csz3 Lo Ro, p = cb + 16 ∧ p ∈ h.live ∧ (cb, csz) ∈ bs ∧ cb ∉ fl ∧
      free base h.st p = some s3 ∧ s3.free_list_start = cb3 ∧
      Good True base ⟨s3, h.issued, h.live.erase p⟩ bs3 (cb3 :: fl.filter (notMerged Lo Ro)) ∧
      (∀ l ∈ Lo, l ∈ bs ∧ l.1 ∈ fl ∧ l.1 + 16 + l.2 = cb) ∧
      (Lo = none → ∀ b ∈ bs, b.1 ∈ fl → b.1 + 16 + b.2 ≠ cb) ∧
      (∀ r ∈ Ro, r ∈ bs ∧ r.1 ∈ fl ∧ r.1 = cb + 16 + csz) ∧
      (Ro = none → cb + 16 + csz ∉ fl) ∧
      cb3 = (Lo.map Prod.fst).getD cb ∧
      csz3 = csz + (Lo.map (fun l => 16 + l.2)).getD 0 + (Ro.map (fun r => 16 + r.2)).getD 0 ∧
      (∀ b, b ∈ bs3 ↔ (b ∈ bs ∧ b.1 ≠ cb ∧ b ∉ Lo ∧ b ∉ Ro) ∨ b = (cb3, csz3))) := by
  have hst := State.eta_init hg.init
  have hw := hg.wf
  have h0live : (0 : Nat) ∉ h.live := by
    intro hc
    obtain ⟨b, _, _, hbe⟩ := (hg.live _).1 hc
    omega
  rcases hp with hp | hp
  · left
    subst hp
    exact ⟨free_null base _, h0live⟩
  · obtain ⟨hp1, hp2, hp3⟩ := hg.issued p hp
    obtain ⟨cb, rfl⟩ : ∃ cb, p = cb + 16 := ⟨p - 16, by omega⟩
    rcases free_spec hb hw cb (by omega) (by omega) (by omega) with ⟨e1, e2⟩ |
      ⟨csz, hp3, bs3, cb3, csz3, Lo, Ro, hm, hnf, ex, hwf, hLo, hLn, hRo, hRn, ecb, ecsz,
        hmem, _⟩
    · left
      refine ⟨by rw [hst]; exact e1, ?_⟩
      intro hc
      obtain ⟨b, hbm, hbf, hbe⟩ := (hg.live _).1 hc
      have : b.1 = cb := by omega
      exact e2 ⟨b.2, by rw [← this]; exact hbm, by rw [← this]; exact hbf⟩
    · right
      have hlive : cb + 16 ∈ h.live := (hg.live _).2 ⟨(cb, csz), hm, hnf, rfl⟩
      have hcb3 : cb3 = cb ∨ cb3 ∈ fl := by
        rw [ecb]
        cases hl : Lo with
        | none => left; rfl
        | some l => right; exact (hLo l hl).2.1
      refine ⟨cb, csz, ⟨1, hp3, cb3⟩, bs3, cb3, csz3, Lo, Ro, rfl, hlive, hm, hnf,
        by rw [hst]; exact ex, rfl, ⟨rfl, hwf, hg.nodup.erase _, ?_, hg.issued,
          fun q hq => hg.liveIssued q (List.mem_of_mem_erase hq)⟩,
        hLo, hLn, hRo, hRn, ecb, ecsz, hmem⟩
      intro q
      simp only
      rw [hg.nodup.mem_erase_iff]
      constructor
      · rintro ⟨hq1, hq2⟩
        obtain ⟨b, hbm, hbf, hbe⟩ := (hg.live _).1 hq2
        have hbc : b.1 ≠ cb := by omega
        refine ⟨b, (hmem b).2 (Or.inl ⟨hbm, hbc, ?_, ?_⟩), ?_, hbe⟩
        · intro hc; exact hbf (hLo b hc).2.1
        · intro hc; exact hbf (hRo b hc).2.1
        · simp only [List.mem_cons, not_or]
          refine ⟨?_, fun hc => hbf (List.mem_filter.1 hc).1⟩
          intro hc
          rcases hcb3 with h1 | h1
          · omega
          · exact hbf (hc ▸ h1)
      · rintro ⟨b, hbm, hbf, hbe⟩
        simp only [List.mem_cons, not_or] at hbf
        rcases (hmem b).1 hbm with ⟨h1, h2, h3, h4⟩ | h1
        · refine ⟨by omega, (hg.live _).2 ⟨b, h1, ?_, hbe⟩⟩
          intro hc
          apply hbf.2
          refine List.mem_filter.2 ⟨hc, ?_⟩
          simp only [notMerged, Bool.and_eq_true, decide_eq_true_eq, ne_eq]
          constructor
          · intro hl
            obtain ⟨l, hl1, hl2⟩ := Option.map_eq_some'.1 hl
            have := Tile_fst_inj hw.tile (hLo l hl1).1 h1 hl2
            exact h3 (this ▸ hl1)
          · intro hr
            obtain ⟨r, hr1, hr2⟩ := Option.map_eq_some'.1 hr
            have := Tile_fst_inj hw.tile (hRo r hr1).1 h1 hr2
            exact h4 (this ▸ hr1)
        · rw [h1] at hbf; exact absurd rfl hbf.1

/-- The state `init` produces from program start, seen as a history. -/
theorem start_good (base : Nat) (hb : BaseOK base) :
    ∃ hp, init base State.start = some ⟨1, hp, base⟩ ∧
      Good True base ⟨⟨1, hp, base⟩, [], []⟩ [(base, 240)] [base] ∧
      ∀ n, alloc base State.start n = alloc base ⟨1, hp, base⟩ n := by
  obtain ⟨hp, e1, hwf⟩ := init_start base hb
  refine ⟨hp, e1, ⟨rfl, hwf, List.nodup_nil, ?_, by simp, by simp⟩, ?_⟩
  · intro p
    simp
  · intro n
    unfold alloc
    have : State.start.initialized = 0 := rfl
    simp only [this, if_true, e1]
    simp

/-- A call the client is allowed to make in history `h`. -/
theorem step_good {base : Nat} {h : Hist} {bs : List (Nat × Nat)} {fl : List Nat}
    (hb : BaseOK base) (hg : Good True base h bs fl) (op : Op) (hv : op.valid h) :
    ∃ h1 bs1 fl1, step base h op = some h1 ∧ Good True base h1 bs1 fl1 := by
  cases op with
  | alloc n =>
    simp only [Op.valid] at hv
    rcases good_alloc hb hg n with ⟨e1, _⟩ | ⟨pre, x, sz, post, s1, _, _, _, _, _, ex, hcase⟩
    · refine ⟨h, bs, fl, ?_, hg⟩
      simp [step, hv, e1, NULL]
    · have hx0 : x + 16 ≠ 0 := by omega
      rcases hcase with ⟨_, L, R, _, hg1⟩ | ⟨_, hg1⟩
      · exact ⟨_, _, _, by simp [step, hv, ex, NULL], hg1⟩
      · exact ⟨_, _, _, by simp [step, hv, ex, NULL], hg1⟩
  | free p =>
    simp only [Op.valid, NULL] at hv
    rcases good_free hb hg p hv with ⟨e1, e2⟩ |
      ⟨cb, csz, s3, bs3, cb3, csz3, Lo, Ro, _, _, _, _, ex, _, hg1, _⟩
    · refine ⟨h, bs, fl, ?_, hg⟩
      have hv1 : p = NULL ∨ p ∈ h.issued := hv
      simp only [step, hv1, if_true, e1, Option.map_some', List.erase_of_not_mem e2]
    · refine ⟨_, _, _, ?_, hg1⟩
      have hv1 : p = NULL ∨ p ∈ h.issued := hv
      simp only [step, hv1, if_true, ex, Option.map_some']

theorem step_start_alloc (base : Nat) (hb : BaseOK base) (n : Nat) :
    ∃ hp, Good True base ⟨⟨1, hp, base⟩, [], []⟩ [(base, 240)] [base] ∧
      step base Hist.start (.alloc n) = step base ⟨⟨1, hp, base⟩, [], []⟩ (.alloc n) := by
  obtain ⟨hp, _, hg, ha⟩ := start_good base hb
  refine ⟨hp, hg, ?_⟩
  simp only [step, Hist.start, ha n]

theorem step_start_free (base : Nat) (p : Nat) (h1 : Hist)
    (e : step base Hist.start (.free p) = some h1) : h1 = Hist.start := by
  simp only [step, Hist.start, List.not_mem_nil, or_false] at e
  by_cases hp : p = NULL
  · subst hp
    simp only [if_true, NULL, free_null, Option.map_some', Option.some.injEq,
      List.erase_nil] at e
    exact e.symm
  · simp [hp] at e

/-- The invariant is preserved by every call. -/
theorem step_inv {base : Nat} (hb : BaseOK base) {h h1 : Hist} (op : Op)
    (hi : HInv base h) (e : step base h op = some h1) : HInv base h1 := by
  have hvalid : ∀ (g : Hist), step base g op ≠ none → op.valid g := by
    intro g hne
    cases op with
    | alloc n =>
      simp only [Op.valid]
      by_contra hc
      simp [step, hc] at hne
    | free p =>
      simp only [Op.valid]
      by_contra hc
      simp [step, hc] at hne
  rcases hi with hi | ⟨bs, fl, hg⟩
  · subst hi
    cases op with
    | alloc n =>
      obtain ⟨hp, hg, e1⟩ := step_start_alloc base hb n
      rw [e1] at e
      obtain ⟨h2, bs1, fl1, e2, hg2⟩ := step_good hb hg (.alloc n)
        (hvalid _ (by rw [e]; simp))
      rw [e] at e2
      cases e2
      exact Or.inr ⟨bs1, fl1, hg2⟩
    | free p => exact Or.inl (step_start_free base p h1 e)
  · obtain ⟨h2, bs1, fl1, e2, hg2⟩ := step_good hb hg op (hvalid _ (by rw [e]; simp))
    rw [e] at e2
    cases e2
    exact Or.inr ⟨bs1, fl1, hg2⟩

theorem step_valid {base : Nat} {h h1 : Hist} {op : Op} (e : step base h op = some h1) :
    op.valid h := by
  cases op with
  | alloc n =>
    simp only [Op.valid]
    by_contra hc
    simp [step, hc] at e
  | free p =>
    simp only [Op.valid]
    by_contra hc
    simp [step, hc] at e

theorem step_good_inv {base : Nat} (hb : BaseOK base) {h h1 : Hist} {op : Op}
    {bs : List (Nat × Nat)} {fl : List Nat} (hg : Good True base h bs fl)
    (e : step base h op = some h1) : ∃ bs1 fl1, Good True base h1 bs1 fl1 := by
  obtain ⟨h2, bs1, fl1, e2, hg2⟩ := step_good hb hg op (step_valid e)
  rw [e] at e2
  cases e2
  exact ⟨bs1, fl1, hg2⟩

theorem run_good {base : Nat} (hb : BaseOK base) :
    ∀ (ops : List Op) (h h1 : Hist) (bs : List (Nat × Nat)) (fl : List Nat),
      Good True base h bs fl → run base h ops = some h1 → ∃ bs1 fl1, Good True base h1 bs1 fl1 := by
  intro ops
  induction ops with
  | nil =>
    intro h h1 bs fl hg e
    simp only [run, Option.some.injEq] at e
    exact ⟨bs, fl, e ▸ hg⟩
  | cons op ops ih =>
    intro h h1 bs fl hg e
    simp only [run] at e
    cases hs : step base h op with
    | none => simp [hs] at e
    | some h2 =>
      simp only [hs, Option.some_bind] at e
      obtain ⟨bs2, fl2, hg2⟩ := step_good_inv hb hg hs
      exact ih h2 h1 bs2 fl2 hg2 e

/-- After a call sequence that contains an `alloc`, the history is good. -/
theorem run_start_good {base : Nat} (hb : BaseOK base) :
    ∀ (ops : List Op) (h : Hist), run base Hist.start ops = some h →
      (∃ n, Op.alloc n ∈ ops) → ∃ bs fl, Good True base h bs fl := by
  intro ops
  induction ops with
  | nil =>
    intro h _ ha
    obtain ⟨n, hn⟩ := ha
    cases hn
  | cons op ops ih =>
    intro h e ha
    simp only [run] at e
    cases hs : step base Hist.start op with
    | none => simp [hs] at e
    | some h2 =>
      simp only [hs, Option.some_bind] at e
      cases op with
      | alloc n =>
        obtain ⟨hp, hg, e1⟩ := step_start_alloc base hb n
        rw [e1] at hs
        obtain ⟨bs2, fl2, hg2⟩ := step_good_inv hb hg hs
        exact run_good hb ops h2 h bs2 fl2 hg2 e
      | free p =>
        have := step_start_free base p h2 hs
        subst this
        refine ih h e ?_
        obtain ⟨n, hn⟩ := ha
        rcases List.mem_cons.1 hn with h1 | h1
        · cases h1
        · exact ⟨n, h1⟩

theorem Tile_sum {a e : Nat} {bs : List (Nat × Nat)} (h : Tile a e bs) :
    a + (bs.map (fun b => blocksize + b.2)).sum = e := by
  induction bs generalizing a with
  | nil => simpa [Tile] using h
  | cons b r ih =>
    obtain ⟨_, _, _, h4⟩ := h
    have := ih h4
    simp only [List.map_cons, List.sum_cons, blocksize] at this ⊢
    omega

theorem Good.obs {K : Prop} {base : Nat} {h : Hist} {bs : List (Nat × Nat)} {fl : List Nat}
    (hb : BaseOK base) (hg : Good K base h bs fl) :
    blocks base h.st = some bs ∧ freeList base h.st = some fl :=
  ⟨hg.wf.blocks_eq, hg.wf.freeList_eq hb⟩

theorem Good.next_load {K : Prop} {base : Nat} {h : Hist} {bs : List (Nat × Nat)} {fl : List Nat}
    (hb : BaseOK base) (hg : Good K base h bs fl) {b : Nat × Nat} (hm : b ∈ bs) :
    getNext base h.st b.1 = load base h.st.heap (b.1 + 8) := by
  have hb1 := (baseOK_iff base).1 hb
  have := hg.wf.block_bounds hm
  exact Alloc.getNext_eq base h.st (by omega)

theorem Good.size_eq {K : Prop} {base : Nat} {h : Hist} {bs : List (Nat × Nat)} {fl : List Nat}
    (hg : Good K base h bs fl) {b : Nat × Nat} (hm : b ∈ bs) :
    getSize base h.st b.1 = some b.2 := hg.wf.sizes b hm

theorem Good.marked_iff {K : Prop} {base : Nat} {h : Hist} {bs : List (Nat × Nat)} {fl : List Nat}
    (hb : BaseOK base) (hg : Good K base h bs fl) {b : Nat × Nat} (hm : b ∈ bs) :
    getNext base h.st b.1 = some ALLOCATED ↔ b.1 ∉ fl := by
  rw [hg.next_load hb hm]
  constructor
  · intro h1 hc
    exact hg.wf.fl_not_marked hb hc h1
  · intro h1
    exact hg.wf.marked b hm h1 (by simp)

/-- In a good history the payload of a live pointer is disjoint from the other
live payloads, from every header and from every free block. -/
theorem good_disjoint {K : Prop} {base : Nat} {h : Hist} {bs : List (Nat × Nat)} {fl : List Nat}
    (hg : Good K base h bs fl) {p : Nat} (hp : p ∈ h.live) :
    ∃ sp, getSize base h.st (p - blocksize) = some sp ∧ base + blocksize ≤ p ∧
      p + sp ≤ base + memsize ∧
      (∀ q ∈ h.live, q ≠ p → ∃ sq, getSize base h.st (q - blocksize) = some sq ∧
        (p + sp ≤ q ∨ q + sq ≤ p)) ∧
      (∀ b ∈ bs, b.1 + blocksize ≤ p ∨ p + sp ≤ b.1) ∧
      (∀ x ∈ fl, ∃ sx, getSize base h.st x = some sx ∧
        (x + blocksize + sx ≤ p ∨ p + sp ≤ x)) := by
  obtain ⟨b, hbm, hbf, hbe⟩ := (hg.live p).1 hp
  have hbb := hg.wf.block_bounds hbm
  have e1 : p - blocksize = b.1 := by simp only [blocksize]; omega
  refine ⟨b.2, by rw [e1]; exact hg.size_eq hbm, by simp only [blocksize]; omega,
    by simp only [memsize]; omega, ?_, ?_, ?_⟩
  · intro q hq hne
    obtain ⟨c, hcm, hcf, hce⟩ := (hg.live q).1 hq
    have e2 : q - blocksize = c.1 := by simp only [blocksize]; omega
    refine ⟨c.2, by rw [e2]; exact hg.size_eq hcm, ?_⟩
    rcases Tile_disj hg.wf.tile hbm hcm with h1 | h1 | h1
    · subst h1; omega
    · left; omega
    · right; omega
  · intro c hcm
    simp only [blocksize]
    rcases Tile_disj hg.wf.tile hbm hcm with h1 | h1 | h1
    · subst h1; left; omega
    · right; omega
    · have := hg.wf.block_bounds hcm
      left; omega
  · intro x hx
    obtain ⟨sx, hmx⟩ := hg.wf.fl_block hx
    refine ⟨sx, hg.size_eq hmx, ?_⟩
    simp only [blocksize]
    rcases Tile_disj hg.wf.tile hbm hmx with h1 | h1 | h1
    · subst h1; exact absurd hx hbf
    · right; simp only at h1; omega
    · left; simp only at h1; omega

theorem chainFrom_null (base : Nat) (hp : List Nat) (f : Nat) :
    chainFrom base hp (f + 1) 0 = some [] := by
  simp [chainFrom, NULL]

theorem freeList_of_null (base : Nat) (s : State) (h : s.free_list_start = 0) :
    freeList base s = some [] := by
  unfold freeList
  rw [h]
  exact chainFrom_null base _ 255

theorem good_noadj {K : Prop} {base : Nat} {h : Hist} {bs : List (Nat × Nat)} {fl : List Nat}
    (hg : Good K base h bs fl) :
    ∀ f ∈ fl, ∀ g ∈ fl, ∀ sf, getSize base h.st f = some sf → f + blocksize + sf ≠ g := by
  intro f hf g hgm sf hs hc
  obtain ⟨sz, hm⟩ := hg.wf.fl_block hf
  have h1 := hg.size_eq hm
  simp only at h1
  rw [h1] at hs
  cases hs
  apply hg.wf.noadj _ hm hf
  simp only [blocksize] at hc
  simp only [hc]
  exact hgm

/-- Claim C9 (invalid release is a no-op): in every state, hence in every
reachable one, `free NULL` returns the state unchanged, and so does `free p`
for every pointer `p` whose header lies in the arena and has a `next` field
different from `ALLOCATED`. -/
theorem invalid_free_noop (base : Nat) (hb : BaseOK base) (s : State) (p v : Nat)
    (h1 : base + blocksize ≤ p) (h2 : p ≤ base + memsize)
    (h3 : getNext base s (p - blocksize) = some v) (h4 : v ≠ ALLOCATED) :
    free base s NULL = some s ∧ free base s p = some s := by
  have hb1 := (baseOK_iff base).1 hb
  refine ⟨free_null base s, free_unmarked base s p v ?_ h4⟩
  have : (p + W - blocksize) % W = p - blocksize := by
    simp only [W, blocksize, memsize] at *
    omega
  rw [this]
  exact h3

set_option maxRecDepth 100000 in
theorem invalid_free_noop_witness :
    65536 + blocksize ≤ 65576 ∧ 65576 ≤ 65536 + memsize ∧
      getNext 65536 (histAfter 65536 [.alloc 8]).st (65576 - blocksize) = some 0 ∧
      0 ≠ ALLOCATED ∧
      free 65536 (histAfter 65536 [.alloc 8]).st NULL = some (histAfter 65536 [.alloc 8]).st ∧
      free 65536 (histAfter 65536 [.alloc 8]).st 65576 =
        some (histAfter 65536 [.alloc 8]).st :=
  ⟨by decide, by decide, by decide, by decide,
    invalid_free_noop 65536 (by decide) (histAfter 65536 [.alloc 8]).st 65576 0
      (by decide) (by decide) (by decide) (by decide)⟩

theorem init_some (base : Nat) (hb : BaseOK base) (s : State) :
    ∃ hp, init base s = some ⟨1, hp, base⟩ := by
  have hb1 := (baseOK_iff base).1 hb
  obtain ⟨hp1, e1⟩ :=
    store_isSome base s.heap (a := base) ((256 + W - 16) % W) (by omega) (by omega)
  obtain ⟨hp2, e2⟩ :=
    store_isSome base hp1 (a := base + 8) 0 (by omega) (by omega)
  refine ⟨hp2, ?_⟩
  have e8 : (base + 8) % W = base + 8 := Nat.mod_eq_of_lt (by simp only [W]; omega)
  simp [init, setSize, setNext, memsize, blocksize, NULL, e1, e2, e8]

/-- Claim C11, amended (zero-byte request): a request that rounds to 0 returns
null and leaves an initialised state exactly as it was; in a state with
`initialized = 0` the call returns null after running `init`, so the state it
leaves is the one `init` produces (flag 1, list head at the start of the
arena). -/
theorem zero_request (base : Nat) (hb : BaseOK base) (s : State) (n : Nat)
    (h0 : roundUp n = 0) :
    (s.initialized ≠ 0 → alloc base s n = some (s, NULL)) ∧
    (s.initialized = 0 → ∃ s1, init base s = some s1 ∧ alloc base s n = some (s1, NULL) ∧
      s1.initialized = 1 ∧ s1.free_list_start = base ∧ s1 ≠ s) := by
  refine ⟨fun hi => alloc_zero_exec base s n hi h0, fun hi => ?_⟩
  obtain ⟨hp, e⟩ := init_some base hb s
  refine ⟨_, e, ?_, rfl, rfl, ?_⟩
  · simp [alloc, hi, e, h0]
  · intro hc
    rw [← hc] at hi
    cases hi

set_option maxRecDepth 100000 in
theorem zero_request_witness :
    BaseOK 65536 ∧ roundUp (W - 3) = 0 ∧
      ((allocState 65536 State.start 10).initialized ≠ 0 →
        alloc 65536 (allocState 65536 State.start 10) (W - 3) =
          some (allocState 65536 State.start 10, NULL)) ∧
      ((allocState 65536 State.start 10).initialized = 0 →
        ∃ s1, init 65536 (allocState 65536 State.start 10) = some s1 ∧
          alloc 65536 (allocState 65536 State.start 10) (W - 3) = some (s1, NULL) ∧
          s1.initialized = 1 ∧ s1.free_list_start = 65536 ∧
          s1 ≠ allocState 65536 State.start 10) :=
  ⟨by decide, by decide,
    zero_request 65536 (by decide) (allocState 65536 State.start 10) (W - 3) (by decide)⟩

set_option maxRecDepth 100000 in
/-- Claim C11 as stated fails in the state before any call: `alloc 0` returns
null, but only after `init` has run, so the flag, the list head and the arena
bytes have all changed. -/
theorem zero_request_counterexample :
    roundUp 0 = 0 ∧
      alloc 65536 State.start 0 = some (allocState 65536 State.start 0, NULL) ∧
      State.start.initialized = 0 ∧ (allocState 65536 State.start 0).initialized = 1 ∧
      State.start.free_list_start = NULL ∧
      (allocState 65536 State.start 0).free_list_start = 65536 ∧
      State.start.heap.getD 0 0 = 0 ∧ (allocState 65536 State.start 0).heap.getD 0 0 = 240 := by
  decide

/-! ### The first-fit block -/

theorem split_unique {P : Nat → Prop} :
    ∀ {pre p2 post q2 : List Nat} {x y : Nat}, pre ++ x :: post = p2 ++ y :: q2 →
      (∀ a ∈ pre, ¬ P a) → P x → (∀ a ∈ p2, ¬ P a) → P y → pre = p2 ∧ x = y ∧ post = q2 := by
  intro pre
  induction pre with
  | nil =>
    intro p2 post q2 x y e _ hx h2 _
    cases p2 with
    | nil =>
      simp only [List.nil_append, List.cons.injEq] at e
      exact ⟨rfl, e.1, e.2⟩
    | cons a p2 =>
      simp only [List.nil_append, List.cons_append, List.cons.injEq] at e
      exact absurd (e.1 ▸ hx) (h2 a (List.mem_cons_self _ _))
  | cons a pre ih =>
    intro p2 post q2 x y e h1 hx h2 hy
    cases p2 with
    | nil =>
      simp only [List.nil_append, List.cons_append, List.cons.injEq] at e
      exact absurd (e.1 ▸ hy) (h1 a (List.mem_cons_self _ _))
    | cons c p2 =>
      simp only [List.cons_append, List.cons.injEq] at e
      obtain ⟨e1, e2, e3⟩ := ih e.2 (fun a ha => h1 a (List.mem_cons_of_mem _ ha)) hx
        (fun a ha => h2 a (List.mem_cons_of_mem _ ha)) hy
      exact ⟨by rw [e.1, e1], e2, e3⟩

theorem firstFit_spec {K : Prop} {base : Nat} {hp : List Nat} {fls : Nat} {bs : List (Nat × Nat)}
    {fl : List Nat} (hb : BaseOK base) (h : WF K base hp fls bs fl []) (n : Nat) :
    (firstFit base ⟨1, hp, fls⟩ n = none ∧
      (roundUp n = 0 ∨ ∀ b ∈ bs, b.1 ∈ fl → b.2 < roundUp n)) ∨
    (∃ pre x sz post, roundUp n ≠ 0 ∧ fl = pre ++ x :: post ∧ (x, sz) ∈ bs ∧
      (∀ b ∈ bs, b.1 ∈ pre → b.2 < roundUp n) ∧ roundUp n ≤ sz ∧
      firstFit base ⟨1, hp, fls⟩ n = some x) := by
  have hb1 := (baseOK_iff base).1 hb
  by_cases hr0 : roundUp n = 0
  · left
    exact ⟨by simp [firstFit, hr0], Or.inl hr0⟩
  · have hlen := h.fl_length
    obtain ⟨p2, q2, e2, hfind, hsm, hge⟩ :=
      findBlock_spec (i := 1) hb h (roundUp n) fl [] loopFuel rfl
        (by simp only [loopFuel, memsize]; omega)
    replace hfind : findBlock base ⟨1, hp, fls⟩ (roundUp n) loopFuel .head =
        some (locAfter p2) := hfind
    cases q2 with
    | nil =>
      left
      simp only [List.append_nil] at e2
      subst e2
      have hseg : Seg base hp fls fl 0 := h.chain
      exact ⟨by simp [firstFit, hr0, hfind, deref_locAfter hb1.2 hseg, NULL], Or.inr hsm⟩
    | cons x post =>
      right
      have hx : x ∈ fl := by rw [e2]; simp
      obtain ⟨sz, hm⟩ := h.fl_block hx
      have hle : roundUp n ≤ sz := hge _ hm (by simp)
      have hxb := h.fl_bounds hx
      have hx0 : x ≠ 0 := by omega
      obtain ⟨hseg, _, _⟩ := h.next_of_split e2
      exact ⟨p2, x, sz, post, hr0, e2, hm, hsm, hle,
        by simp [firstFit, hr0, hfind, deref_locAfter hb1.2 hseg, NULL, hx0]⟩

/-- What a call of `alloc` does in an initialised state, in terms of the
observations `firstFit`, `freeList`, `blocks`, `getSize` and `getNext`. -/
theorem good_alloc_obs {K : Prop} {base : Nat} {h : Hist} {bs : List (Nat × Nat)} {fl : List Nat}
    (hb : BaseOK base) (hg : Good K base h bs fl) (n : Nat) :
    (alloc base h.st n = some (h.st, 0) ∧ firstFit base h.st n = none ∧
      (roundUp n = 0 ∨ ∀ b ∈ bs, b.1 ∈ fl → b.2 < roundUp n)) ∨
    (∃ pre x sz post s1, roundUp n ≠ 0 ∧ fl = pre ++ x :: post ∧ (x, sz) ∈ bs ∧
      x ∉ pre ∧ x ∉ post ∧
      (∀ y ∈ pre, ∃ sy, getSize base h.st y = some sy ∧ sy < roundUp n) ∧ roundUp n ≤ sz ∧
      firstFit base h.st n = some x ∧ getSize base h.st x = some sz ∧
      alloc base h.st n = some (s1, x + 16) ∧
      getNext base s1 x = some ALLOCATED ∧
      (∀ y ∈ fl, y ≠ x → getSize base s1 y = getSize base h.st y) ∧
      ((roundUp n + 16 < sz ∧ getSize base s1 x = some (roundUp n) ∧
          getSize base s1 (x + 16 + roundUp n) = some (sz - roundUp n - 16) ∧
          freeList base s1 = some (pre ++ (x + 16 + roundUp n) :: post) ∧
          ∃ L R, bs = L ++ (x, sz) :: R ∧
            blocks base s1 =
              some (L ++ (x, roundUp n) :: (x + 16 + roundUp n, sz - roundUp n - 16) :: R)) ∨
       (sz ≤ roundUp n + 16 ∧ getSize base s1 x = some sz ∧
          freeList base s1 = some (pre ++ post) ∧ blocks base s1 = some bs))) := by
  have hst := State.eta_init hg.init
  have hw := hg.wf
  rcases good_alloc hb hg n with ⟨e1, e2⟩ |
    ⟨pre, x, sz, post, s1, hr0, e, hm, hsm, hle, ex, hcase⟩
  · left
    refine ⟨e1, ?_, e2⟩
    rcases firstFit_spec hb hw n with ⟨f1, _⟩ | ⟨pre, x, sz, post, hr0, e, hm, _, hle, _⟩
    · rw [hst]; exact f1
    · exfalso
      rcases e2 with e2 | e2
      · exact hr0 e2
      · have := e2 _ hm (by rw [e]; simp)
        simp only at this
        omega
  · right
    have hx : x ∈ fl := by rw [e]; simp
    have hnd := hw.nodup
    rw [e] at hnd
    have hxpre : x ∉ pre :=
      fun hx1 => (List.nodup_append.1 hnd).2.2 hx1 (List.mem_cons_self _ _)
    have hxpost : x ∉ post := (List.nodup_cons.1 (List.nodup_append.1 hnd).2.1).1
    have hsmall : ∀ y ∈ pre, ∃ sy, getSize base h.st y = some sy ∧ sy < roundUp n := by
      intro y hy
      obtain ⟨sy, hmy⟩ := hw.fl_block (x := y) (by rw [e]; simp [hy])
      exact ⟨sy, hg.size_eq hmy, hsm _ hmy hy⟩
    have hff : firstFit base h.st n = some x := by
      rcases firstFit_spec hb hw n with ⟨_, f2⟩ | ⟨p2, x2, sz2, q2, _, e2, hm2, hsm2, hle2, f2⟩
      · exfalso
        rcases f2 with f2 | f2
        · exact hr0 f2
        · have := f2 _ hm hx
          simp only at this
          omega
      · have hu := split_unique (P := fun a => ∃ s, (a, s) ∈ bs ∧ roundUp n ≤ s)
          (e.symm.trans e2)
          (fun a ha ⟨s, hs1, hs2⟩ => by have := hsm _ hs1 ha; simp only at this; omega)
          ⟨sz, hm, hle⟩
          (fun a ha ⟨s, hs1, hs2⟩ => by have := hsm2 _ hs1 ha; simp only at this; omega)
          ⟨sz2, hm2, hle2⟩
        rw [hst, f2, hu.2.1]
    have hkeep : ∀ (s1 : State) (bs1 : List (Nat × Nat)),
        (∀ b ∈ bs1, getSize base s1 b.1 = some b.2) →
        (∀ b ∈ bs, b.1 ≠ x → b ∈ bs1) →
        ∀ y ∈ fl, y ≠ x → getSize base s1 y = getSize base h.st y := by
      intro s2 bs1 hs hin y hy hyx
      obtain ⟨sy, hmy⟩ := hw.fl_block hy
      rw [hg.size_eq hmy]
      exact hs _ (hin _ hmy hyx)
    refine ⟨pre, x, sz, post, s1, hr0, e, hm, hxpre, hxpost, hsmall, hle, hff, hg.size_eq hm,
      ex, ?_⟩
    rcases hcase with ⟨hlt, L, R, ebs, hg1⟩ | ⟨hge, hg1⟩
    · have hm1 : (x, roundUp n) ∈
          L ++ (x, roundUp n) :: (x + 16 + roundUp n, sz - roundUp n - 16) :: R := by simp
      have hm2 : (x + 16 + roundUp n, sz - roundUp n - 16) ∈
          L ++ (x, roundUp n) :: (x + 16 + roundUp n, sz - roundUp n - 16) :: R := by simp
      have hnf : x ∉ pre ++ (x + 16 + roundUp n) :: post := by
        simp only [List.mem_append, List.mem_cons, not_or]
        exact ⟨hxpre, by omega, hxpost⟩
      have hmem := split_mem (by rw [← ebs]; exact hw.tile) (x, roundUp n)
        (x + 16 + roundUp n, sz - roundUp n - 16)
      rw [← ebs] at hmem
      refine ⟨(hg1.marked_iff hb hm1).2 hnf, ?_, Or.inl ⟨hlt, hg1.size_eq hm1, hg1.size_eq hm2,
        (hg1.obs hb).2, L, R, ebs, (hg1.obs hb).1⟩⟩
      exact hkeep s1 _ (fun b hbm => hg1.size_eq hbm)
        (fun b hbm hbx => (hmem b).2 (Or.inl ⟨hbm, hbx⟩))
    · have hnf : x ∉ pre ++ post := by
        simp only [List.mem_append, not_or]
        exact ⟨hxpre, hxpost⟩
      refine ⟨(hg1.marked_iff hb hm).2 hnf, ?_, Or.inr ⟨hge, hg1.size_eq hm,
        (hg1.obs hb).2, (hg1.obs hb).1⟩⟩
      exact hkeep s1 bs (fun b hbm => hg1.size_eq hbm) (fun b hbm _ => hbm)

theorem Tile_nodup {a e : Nat} {bs : List (Nat × Nat)} (h : Tile a e bs) :
    (bs.map Prod.fst).Nodup := by
  induction bs generalizing a with
  | nil => simp
  | cons b r ih =>
    obtain ⟨h1, h2, _, h4⟩ := h
    rw [List.map_cons, List.nodup_cons]
    refine ⟨fun hc => ?_, ih h4⟩
    obtain ⟨sz, hm⟩ := mem_starts hc
    have := Tile_mem h4 hm
    simp only at this
    omega

theorem arenaBlocks_start (base : Nat) : arenaBlocks base Hist.start.st = some [] := rfl

theorem Good.arenaBlocks_eq {K : Prop} {base : Nat} {h : Hist} {bs : List (Nat × Nat)} {fl : List Nat}
    (hb : BaseOK base) (hg : Good K base h bs fl) : arenaBlocks base h.st = some bs := by
  unfold arenaBlocks
  rw [if_neg (by rw [hg.init]; decide)]
  exact (hg.obs hb).1

/-! ### The scan loop with a record of the entries it examines -/

/-- The loop `scan` is the iteration of `scanBody`. -/
theorem scan_unfold (base fuel : Nat) (s : State) (blk : Nat) (adj : Loc) :
    scan base (fuel + 1) s blk adj =
      (deref base s adj).bind fun a =>
        if a = NULL then some (s, blk)
        else (scanBody base s blk adj a).bind fun r => scan base fuel r.1 r.2.1 r.2.2 := by
  simp only [scan, scanBody, Option.bind_eq_bind]
  cases deref base s adj with
  | none => rfl
  | some a =>
    simp only [Option.some_bind]
    by_cases h1 : a = NULL
    · rw [if_pos h1, if_pos h1]
    · rw [if_neg h1, if_neg h1]
      cases byteafter base s a with
      | none => rfl
      | some ea =>
        simp only [Option.some_bind]
        by_cases h2 : ea = blk
        · rw [if_pos h2, if_pos h2]
          simp only [Option.bind_assoc, Option.some_bind]
        · rw [if_neg h2, if_neg h2]
          cases byteafter base s blk with
          | none => rfl
          | some eb =>
            simp only [Option.some_bind]
            by_cases h3 : eb = a
            · rw [if_pos h3, if_pos h3]
              simp only [Option.bind_assoc, Option.some_bind]
            · rw [if_neg h3, if_neg h3]
              simp only [Option.some_bind]

theorem scanBody_left {K : Prop} {base i : Nat} {hp : List Nat} {fls : Nat}
    {bs : List (Nat × Nat)} {kept rest : List Nat} {x sx cb csz : Nat}
    (hb : BaseOK base) (h : ScanInv K base hp fls bs kept (x :: rest) cb csz)
    (hm : (x, sx) ∈ bs) (hadj : x + 16 + sx = cb) :
    ∃ hp2 fls2, scanBody base ⟨i, hp, fls⟩ cb (locAfter kept) x =
        some (⟨i, hp2, fls2⟩, x, locAfter kept) ∧
      hp2.length = 256 ∧ Seg base hp2 fls2 kept (rest.headD 0) ∧
      (∀ w, base ≤ w → (w - base) % 8 = 0 →
        load base hp2 w =
          if w = locWord kept then some (rest.headD 0)
          else if w = x then some (sx + 16 + csz)
          else load base hp w) := by
  have hb1 := (baseOK_iff base).1 hb
  have hw := h.wf
  obtain ⟨hseg, hnx, hkept, hknd, hxk, hx, hksep, hkal, hnxlt⟩ := h.facts hb
  have hxb := hw.block_bounds hm
  have hcb := hw.block_bounds h.blk
  simp only at hxb hcb
  obtain ⟨hp1, e1⟩ := store_isSome base hp (a := x) (sx + 16 + csz) (by omega) (by omega)
  have l1 : hp1.length = 256 := by rw [store_length e1, hw.len]
  have s1 : Seg base hp1 fls kept x := Seg_frame (fun y hy => by
    have := hw.fl_sep (hkept y hy) hx
    have hne : y ≠ x := fun hc => hxk (hc ▸ hy)
    exact load_store_disj e1 (by omega)) hseg
  have hnx1 : load base hp1 (x + 8) = some (rest.headD 0) := by
    rw [load_store_disj e1 (by omega)]; exact hnx
  obtain ⟨hp2, fls2, e2, s2, l2, f2, ld2, _, _⟩ :=
    assign_locAfter (i := i) (rest.headD 0) hb1.2 l1 hnxlt s1 hknd hksep hkal (by omega)
  refine ⟨hp2, fls2, ?_, l2, s2, ?_⟩
  · have ev1 : (x + 16 + sx) % W = cb := by simp only [W]; omega
    have ev2 : (sx + (16 + csz) % W) % W = sx + 16 + csz := by simp only [W]; omega
    simp only [scanBody, blocksize, byteafter, Option.bind_eq_bind, Option.some_bind,
      deref_locAfter hb1.2 hseg, deref_locAfter hb1.2 s1,
      getSize_some (hw.sizes _ hm), getSize_some (hw.sizes _ h.blk), ev1, ev2, if_true,
      setSize_some e1, getNext_some (show x + 8 < 18446744073709551616 by omega) hnx1, e2]
  · intro w hw1 hw2
    rw [ld2 w hw1 hw2, load_store_al e1 hw.len (by omega) (by omega) hw1 hw2]

theorem scanBody_right {K : Prop} {base i : Nat} {hp : List Nat} {fls : Nat}
    {bs : List (Nat × Nat)} {kept rest : List Nat} {x sx cb csz : Nat}
    (hb : BaseOK base) (h : ScanInv K base hp fls bs kept (x :: rest) cb csz)
    (hm : (x, sx) ∈ bs) (hadj : cb + 16 + csz = x) :
    ∃ hp2 fls2, scanBody base ⟨i, hp, fls⟩ cb (locAfter kept) x =
        some (⟨i, hp2, fls2⟩, cb, locAfter kept) ∧
      hp2.length = 256 ∧ Seg base hp2 fls2 kept (rest.headD 0) ∧
      (∀ w, base ≤ w → (w - base) % 8 = 0 →
        load base hp2 w =
          if w = locWord kept then some (rest.headD 0)
          else if w = cb then some (csz + 16 + sx)
          else load base hp w) := by
  have hb1 := (baseOK_iff base).1 hb
  have hw := h.wf
  obtain ⟨hseg, hnx, hkept, hknd, hxk, hx, hksep, hkal, hnxlt⟩ := h.facts hb
  have hxb := hw.block_bounds hm
  have hcb := hw.block_bounds h.blk
  simp only at hxb hcb
  obtain ⟨hp1, e1⟩ := store_isSome base hp (a := cb) (csz + 16 + sx) (by omega) (by omega)
  have l1 : hp1.length = 256 := by rw [store_length e1, hw.len]
  have s1 : Seg base hp1 fls kept x := Seg_frame (fun y hy => by
    obtain ⟨sy, hmy⟩ := hw.fl_block (hkept y hy)
    rcases hw.starts_sep hmy h.blk with h1 | h1 | h1
    · cases h1; exact absurd (hkept _ hy) h.notin
    · simp only at h1; exact load_store_disj e1 (by omega)
    · simp only at h1; exact load_store_disj e1 (by omega)) hseg
  have hnx1 : load base hp1 (x + 8) = some (rest.headD 0) := by
    rw [load_store_disj e1 (by omega)]; exact hnx
  obtain ⟨hp2, fls2, e2, s2, l2, f2, ld2, _, _⟩ :=
    assign_locAfter (i := i) (rest.headD 0) hb1.2 l1 hnxlt s1 hknd hksep hkal (by omega)
  refine ⟨hp2, fls2, ?_, l2, s2, ?_⟩
  · have ev0 : ¬ ((x + 16 + sx) % W = cb) := by simp only [W]; omega
    have ev1 : (cb + 16 + csz) % W = x := by simp only [W]; omega
    have ev2 : (csz + (16 + sx) % W) % W = csz + 16 + sx := by simp only [W]; omega
    simp only [scanBody, blocksize, byteafter, Option.bind_eq_bind, Option.some_bind,
      deref_locAfter hb1.2 hseg, deref_locAfter hb1.2 s1, if_false,
      getSize_some (hw.sizes _ hm), getSize_some (hw.sizes _ h.blk), ev0, ev1, ev2, if_true,
      setSize_some e1, getNext_some (show x + 8 < 18446744073709551616 by omega) hnx1, e2]
  · intro w hw1 hw2
    rw [ld2 w hw1 hw2, load_store_al e1 hw.len (by omega) (by omega) hw1 hw2]

theorem scanBody_skip {K : Prop} {base i : Nat} {hp : List Nat} {fls : Nat}
    {bs : List (Nat × Nat)} {kept rest : List Nat} {x sx cb csz : Nat}
    (hb : BaseOK base) (h : ScanInv K base hp fls bs kept (x :: rest) cb csz)
    (hm : (x, sx) ∈ bs) (hnl : x + 16 + sx ≠ cb) (hnr : cb + 16 + csz ≠ x) :
    scanBody base ⟨i, hp, fls⟩ cb (locAfter kept) x =
      some (⟨i, hp, fls⟩, cb, locAfter (kept ++ [x])) := by
  have hb1 := (baseOK_iff base).1 hb
  have hw := h.wf
  obtain ⟨hseg, hnx, hkept, hknd, hxk, hx, hksep, hkal, hnxlt⟩ := h.facts hb
  have hxb := hw.block_bounds hm
  have hcb := hw.block_bounds h.blk
  simp only at hxb hcb
  have ev0 : ¬ ((x + 16 + sx) % W = cb) := by simp only [W]; omega
  have ev1 : ¬ ((cb + 16 + csz) % W = x) := by simp only [W]; omega
  simp only [scanBody, blocksize, byteafter, Option.bind_eq_bind, Option.some_bind,
    deref_locAfter hb1.2 hseg, if_false,
    getSize_some (hw.sizes _ hm), getSize_some (hw.sizes _ h.blk), ev0, ev1, locAfter_snoc]

/-- Under the scan invariant the entries examined by the loop are exactly the
entries still to be visited, in list order, each once. -/
theorem scanLog_spec {K : Prop} {base i : Nat} (hb : BaseOK base) :
    ∀ (todo kept hp : List Nat) (fls : Nat) (bs : List (Nat × Nat)) (cb csz fuel : Nat),
      ScanInv K base hp fls bs kept todo cb csz → todo.length < fuel →
      scanLog base fuel ⟨i, hp, fls⟩ cb (locAfter kept) = some todo := by
  have hb1 := (baseOK_iff base).1 hb
  intro todo
  induction todo with
  | nil =>
    intro kept hp fls bs cb csz fuel h hf
    obtain ⟨f, rfl⟩ : ∃ f, fuel = f + 1 := ⟨fuel - 1, by simp at hf; omega⟩
    have hseg : Seg base hp fls kept 0 := by
      have := h.wf.chain
      rw [List.append_nil] at this
      exact this
    simp only [scanLog, Option.bind_eq_bind, Option.some_bind, deref_locAfter hb1.2 hseg, NULL,
      if_true]
  | cons x rest ih =>
    intro kept hp fls bs cb csz fuel h hf
    obtain ⟨f, rfl⟩ : ∃ f, fuel = f + 1 := ⟨fuel - 1, by simp at hf; omega⟩
    simp only [List.length_cons] at hf
    have hw := h.wf
    obtain ⟨hseg, hnx, hkept, hknd, hxk, hx, hksep, hkal, hnxlt⟩ := h.facts hb
    obtain ⟨sx, hm⟩ := hw.fl_block hx
    have hxb := hw.block_bounds hm
    simp only at hxb
    have hx0 : x ≠ 0 := by omega
    by_cases hL : x + 16 + sx = cb
    · obtain ⟨hp2, fls2, ex, l2, s2, ld2⟩ := scanBody_left (i := i) hb h hm hL
      obtain ⟨A, C, _, inv1⟩ :=
        scan_merge_inv hb h hm h.blk hL (Or.inl ⟨rfl, rfl⟩) l2 s2 ld2
      have e3 := ih kept hp2 fls2 _ x (sx + 16 + csz) f inv1 (by omega)
      simp only [scanLog, Option.bind_eq_bind, Option.some_bind, deref_locAfter hb1.2 hseg,
        NULL, hx0, if_false, ex, e3]
    · by_cases hR : cb + 16 + csz = x
      · obtain ⟨hp2, fls2, ex, l2, s2, ld2⟩ := scanBody_right (i := i) hb h hm hR
        obtain ⟨A, C, _, inv1⟩ :=
          scan_merge_inv hb h h.blk hm hR (Or.inr ⟨rfl, rfl⟩) l2 s2 ld2
        have e3 := ih kept hp2 fls2 _ cb (csz + 16 + sx) f inv1 (by omega)
        simp only [scanLog, Option.bind_eq_bind, Option.some_bind, deref_locAfter hb1.2 hseg,
          NULL, hx0, if_false, ex, e3]
      · have ex := scanBody_skip (i := i) hb h hm hL hR
        obtain ⟨_, inv1⟩ := scan_skip_exec (i := i) hb h hm hL hR f
        have e3 := ih (kept ++ [x]) hp fls bs cb csz f inv1 (by omega)
        simp only [scanLog, Option.bind_eq_bind, Option.some_bind, deref_locAfter hb1.2 hseg,
          NULL, hx0, if_false, ex, e3]

theorem good_scan {K : Prop} {base : Nat} {h : Hist} {bs : List (Nat × Nat)} {fl : List Nat}
    (hb : BaseOK base) (hg : Good K base h bs fl) {p : Nat} (hp : p ∈ h.live) :
    ∃ s1 r, setNext base h.st (p - 16) 0 = some s1 ∧
      scan base loopFuel s1 (p - 16) .head = some r ∧
      scanLog base loopFuel s1 (p - 16) .head = some fl := by
  have hb1 := (baseOK_iff base).1 hb
  have hst := State.eta_init hg.init
  obtain ⟨b, hm, hnf, hpe⟩ := (hg.live p).1 hp
  obtain ⟨cb, csz⟩ := b
  simp only at hnf hpe
  have hcb := hg.wf.block_bounds hm
  simp only at hcb
  have e1 : p - 16 = cb := by omega
  rw [e1, hst]
  obtain ⟨hp1, e2⟩ := store_isSome base h.st.heap (a := cb + 8) 0 (by omega) (by omega)
  have inv1 := free_clear_inv hb hg.wf hm hnf e2
  have hlen := inv1.wf.fl_length
  simp only [List.nil_append] at hlen
  have hf : fl.length < loopFuel := by simp only [loopFuel, memsize]; omega
  obtain ⟨hp2, fls2, bs2, cb2, csz2, Lo, Ro, ex2, _⟩ :=
    scan_spec (i := 1) hb fl [] hp1 h.st.free_list_start bs cb csz loopFuel inv1 hf
  have ex3 := scanLog_spec (i := 1) hb fl [] hp1 h.st.free_list_start bs cb csz loopFuel inv1 hf
  exact ⟨_, _, setNext_some (show cb + 8 < 18446744073709551616 by omega) e2, ex2, ex3⟩

/-! ### The bytes written by `alloc` and `free` -/

theorem set_frame (hp : List Nat) (i v : Nat) : Frame hp (hp.set i v) (fun j => j = i) := by
  refine ⟨List.length_set _ _ _, fun j hj => ?_⟩
  simp only [List.getD_eq_getElem?_getD]
  rw [List.getElem?_set_ne (fun hc => hj hc.symm)]

theorem not_inHeader {bs : List (Nat × Nat)} {a : Nat} (h : inHeader bs a = false)
    {b : Nat × Nat} (hm : b ∈ bs) : a < b.1 ∨ b.1 + 16 ≤ a := by
  unfold inHeader at h
  rw [List.any_eq_false] at h
  have := h b hm
  simp only [blocksize, Bool.and_eq_true, decide_eq_true_eq, not_and, Nat.not_lt] at this
  omega

/-- A store outside the block headers keeps the history good. -/
theorem store_good {K : Prop} {base : Nat} {h : Hist} {bs : List (Nat × Nat)} {fl : List Nat}
    (hb : BaseOK base) (hg : Good K base h bs fl) {a : Nat}
    (ha : storeOK base h.st a = true) (v : Nat) :
    Good False base
      ⟨{ h.st with heap := h.st.heap.set (a - base) v }, h.issued, h.live⟩ bs fl := by
  have hb1 := (baseOK_iff base).1 hb
  have hw := hg.wf
  simp only [storeOK, hg.arenaBlocks_eq hb, memsize, Bool.and_eq_true, decide_eq_true_eq,
    Bool.not_eq_true'] at ha
  obtain ⟨⟨ha1, ha2⟩, ha3⟩ := ha
  have hf := set_frame h.st.heap (a - base) v
  have hhead : ∀ b ∈ bs, ∀ w, b.1 ≤ w → w + 8 ≤ b.1 + 16 →
      load base (h.st.heap.set (a - base) v) w = load base h.st.heap w := by
    intro b hm w hw1 hw2
    have hbb := hw.block_bounds hm
    have := not_inHeader ha3 hm
    exact hf.load (fun i h1 h2 => by omega)
  refine ⟨hg.init, ⟨?_, hw.tile, ?_, ?_, hw.sub, hw.nodup, ?_, fun hK => hK.elim, hw.noadj⟩,
    hg.nodup, hg.live, hg.issued, hg.liveIssued⟩
  · simp only [List.length_set]; exact hw.len
  · intro b hm
    simp only
    rw [hhead b hm b.1 (Nat.le_refl _) (by omega)]
    exact hw.sizes b hm
  · refine Seg_frame (fun y hy => ?_) hw.chain
    obtain ⟨sy, hmy⟩ := hw.fl_block hy
    exact hhead _ hmy (y + 8) (by simp only; omega) (by simp only; omega)
  · intro b hm h1 h2
    simp only
    rw [hhead b hm (b.1 + 8) (by omega) (by omega)]
    exact hw.marked b hm h1 h2

/-- The first call of `alloc` in a state in which `init` has not run. -/
theorem alloc_uninit (base : Nat) (hb : BaseOK base) (s : State) (hi : s.initialized = 0)
    (hl : s.heap.length = 256) (n : Nat) :
    ∃ hp, init base s = some ⟨1, hp, base⟩ ∧
      Good False base ⟨⟨1, hp, base⟩, [], []⟩ [(base, 240)] [base] ∧
      alloc base s n = alloc base ⟨1, hp, base⟩ n := by
  obtain ⟨hp, e1, hwf⟩ := init_any base hb s.initialized s.free_list_start s.heap hl
  have e2 : init base s = some ⟨1, hp, base⟩ := e1
  refine ⟨hp, e2, ⟨rfl, hwf, List.nodup_nil, ?_, by simp, by simp⟩, ?_⟩
  · intro p
    simp
  · unfold alloc
    simp only [hi, if_true, e2]
    simp

theorem step_alloc_good {K : Prop} {base : Nat} {h : Hist} {bs : List (Nat × Nat)}
    {fl : List Nat} (hb : BaseOK base) (hg : Good K base h bs fl) (n : Nat) (hn : n < W) :
    ∃ h1 bs1 fl1, step base h (.alloc n) = some h1 ∧ Good K base h1 bs1 fl1 := by
  rcases good_alloc hb hg n with ⟨e1, _⟩ | ⟨pre, x, sz, post, s1, _, _, _, _, _, ex, hcase⟩
  · refine ⟨h, bs, fl, ?_, hg⟩
    simp [step, hn, e1, NULL]
  · have hx0 : x + 16 ≠ 0 := by omega
    rcases hcase with ⟨_, L, R, _, hg1⟩ | ⟨_, hg1⟩
    · exact ⟨_, _, _, by simp [step, hn, ex, NULL], hg1⟩
    · exact ⟨_, _, _, by simp [step, hn, ex, NULL], hg1⟩

/-- A release that is null, live, or not marked, in a good history: what `free`
returns and that the history stays good. -/
theorem safe_free_good {K : Prop} {base : Nat} {h : Hist} {bs : List (Nat × Nat)}
    {fl : List Nat} (hb : BaseOK base) (hg : Good K base h bs fl) (p : Nat)
    (hi : p = NULL ∨ p ∈ h.issued) (hs : (Act.free p).safe base h = true) :
    ∃ s1 bs1 fl1, free base h.st p = some s1 ∧
      Good K base ⟨s1, h.issued, h.live.erase p⟩ bs1 fl1 ∧
      (p ∉ h.live → s1 = h.st ∧ bs1 = bs ∧ fl1 = fl) := by
  have hb1 := (baseOK_iff base).1 hb
  have hsame : p ∉ h.live → Good K base ⟨h.st, h.issued, h.live.erase p⟩ bs fl := by
    intro hnl
    rw [List.erase_of_not_mem hnl]
    exact hg
  have h0live : (0 : Nat) ∉ h.live := by
    intro hc
    obtain ⟨b, _, _, hbe⟩ := (hg.live _).1 hc
    omega
  by_cases hp0 : p = 0
  · subst hp0
    exact ⟨h.st, bs, fl, free_null base _, hsame h0live, fun _ => ⟨rfl, rfl, rfl⟩⟩
  by_cases hl : p ∈ h.live
  · obtain ⟨cb, csz, s3, bs3, cb3, csz3, Lo, Ro, _, _, _, ex, _, hg3, _⟩ :=
      good_free_live hb hg p hl
    exact ⟨s3, bs3, _, ex, hg3, fun hc => absurd hl hc⟩
  · have hiss : p ∈ h.issued := by
      rcases hi with hi | hi
      · exact absurd hi hp0
      · exact hi
    have hpb := hg.issued p hiss
    simp only [Act.safe, NULL, hp0, hl, decide_False, Bool.false_or, decide_eq_true_eq,
      blocksize] at hs
    obtain ⟨v, hv⟩ := load_isSome base h.st.heap (a := p - 16 + 8) (by omega) (by omega)
    have hgn : getNext base h.st (p - 16) = some v := by
      rw [getNext_eq base h.st (by omega)]; exact hv
    have hva : v ≠ ALLOCATED := fun hc => hs (by rw [hgn, hc])
    have ev : (p + W - blocksize) % W = p - 16 := by
      simp only [W, blocksize]; omega
    exact ⟨h.st, bs, fl, free_unmarked base _ p v (by rw [ev]; exact hgn) hva, hsame hl,
      fun _ => ⟨rfl, rfl, rfl⟩⟩

theorem stepG_good {K : Prop} {base : Nat} {h h1 : Hist} {bs : List (Nat × Nat)}
    {fl : List Nat} (hb : BaseOK base) (hg : Good K base h bs fl) (a : Act)
    (e : stepG base h a = some h1) : ∃ bs1 fl1, Good False base h1 bs1 fl1 := by
  have weak : ∀ {g : Hist} {bs1 : List (Nat × Nat)} {fl1 : List Nat},
      Good K base g bs1 fl1 → Good False base g bs1 fl1 := by
    intro g bs1 fl1 hg1
    obtain ⟨h1, h2, h3, h4, h5, h6⟩ := hg1
    obtain ⟨w1, w2, w3, w4, w5, w6, w7, _, w9⟩ := h2
    exact ⟨h1, ⟨w1, w2, w3, w4, w5, w6, w7, fun hK => hK.elim, w9⟩, h3, h4, h5, h6⟩
  unfold stepG at e
  split_ifs at e with hs
  cases a with
  | alloc n =>
    simp only [stepC] at e
    have hn : n < W := by
      by_contra hc
      simp [step, hc] at e
    obtain ⟨h2, bs1, fl1, e2, hg2⟩ := step_alloc_good hb hg n hn
    rw [e] at e2
    cases e2
    exact ⟨bs1, fl1, weak hg2⟩
  | free p =>
    simp only [stepC] at e
    have hi : p = NULL ∨ p ∈ h.issued := by
      by_contra hc
      simp [step, hc] at e
    obtain ⟨s1, bs1, fl1, ex, hg1, _⟩ := safe_free_good hb hg p hi hs
    simp only [step, hi, if_true, ex, Option.map_some', Option.some.injEq] at e
    subst e
    exact ⟨bs1, fl1, weak hg1⟩
  | store a v =>
    simp only [stepC] at e
    split_ifs at e with hc
    simp only [Option.some.injEq] at e
    subst e
    exact ⟨bs, fl, store_good hb hg hc.1 v⟩

/-- The invariant of histories with stores is preserved by every action that
releases no marked stale pointer. -/
theorem stepG_inv {base : Nat} (hb : BaseOK base) {h h1 : Hist} (a : Act)
    (hi : HInvC base h) (e : stepG base h a = some h1) : HInvC base h1 := by
  rcases hi with ⟨u1, u2, u3, u4, u5⟩ | ⟨bs, fl, hg⟩
  · unfold stepG at e
    split_ifs at e with hs
    cases a with
    | alloc n =>
      simp only [stepC] at e
      have hn : n < W := by
        by_contra hc
        simp [step, hc] at e
      obtain ⟨hp, _, hg, ha⟩ := alloc_uninit base hb h.st u1 u3 n
      obtain ⟨h2, bs1, fl1, e2, hg2⟩ := step_alloc_good hb hg n hn
      have e3 : step base h (.alloc n) = some h2 := by
        rw [← e2]
        simp only [step, hn, if_true, ha, u4, u5]
      rw [e] at e3
      cases e3
      exact Or.inr ⟨bs1, fl1, hg2⟩
    | free p =>
      simp only [stepC, step, u4, List.not_mem_nil, or_false] at e
      by_cases hp : p = NULL
      · subst hp
        simp only [if_true, NULL, free_null, Option.map_some', Option.some.injEq] at e
        subst e
        refine Or.inl ⟨u1, u2, u3, rfl, ?_⟩
        simp only [u5, List.erase_nil]
      · simp [hp] at e
    | store a v =>
      simp only [stepC] at e
      split_ifs at e with hc
      simp only [Option.some.injEq] at e
      subst e
      refine Or.inl ⟨u1, u2, ?_, u4, u5⟩
      simp only [List.length_set]
      exact u3
  · obtain ⟨bs1, fl1, hg1⟩ := stepG_good hb hg a e
    exact Or.inr ⟨bs1, fl1, hg1⟩

theorem runG_inv {base : Nat} (hb : BaseOK base) :
    ∀ (acts : List Act) (h h1 : Hist), HInvC base h → runG base h acts = some h1 →
      HInvC base h1 := by
  intro acts
  induction acts with
  | nil =>
    intro h h1 hi e
    simp only [runG, Option.some.injEq] at e
    exact e ▸ hi
  | cons a acts ih =>
    intro h h1 hi e
    simp only [runG] at e
    cases hs : stepG base h a with
    | none => simp [hs] at e
    | some h2 =>
      simp only [hs, Option.some_bind] at e
      exact ih h2 h1 (stepG_inv hb a hi hs) e

theorem start_invC (base : Nat) : HInvC base Hist.start :=
  Or.inl ⟨rfl, rfl, List.length_replicate _ _, rfl, rfl⟩

theorem reachG_inv {base : Nat} (hb : BaseOK base) {h : Hist} (hr : ReachG base h) :
    HInvC base h := by
  obtain ⟨acts, e⟩ := hr
  exact runG_inv hb acts _ _ (start_invC base) e

theorem stepG_alloc_good {base : Nat} (hb : BaseOK base) {h h1 : Hist} (n : Nat)
    (hi : HInvC base h) (e : stepG base h (.alloc n) = some h1) :
    ∃ bs fl, Good False base h1 bs fl := by
  rcases hi with ⟨u1, u2, u3, u4, u5⟩ | ⟨bs, fl, hg⟩
  · unfold stepG at e
    split_ifs at e with hs
    simp only [stepC] at e
    have hn : n < W := by
      by_contra hc
      simp [step, hc] at e
    obtain ⟨hp, _, hg, ha⟩ := alloc_uninit base hb h.st u1 u3 n
    obtain ⟨h2, bs1, fl1, e2, hg2⟩ := step_alloc_good hb hg n hn
    have e3 : step base h (.alloc n) = some h2 := by
      rw [← e2]
      simp only [step, hn, if_true, ha, u4, u5]
    rw [e] at e3
    cases e3
    exact ⟨bs1, fl1, hg2⟩
  · exact stepG_good hb hg _ e

theorem runG_good {base : Nat} (hb : BaseOK base) :
    ∀ (acts : List Act) (h h1 : Hist) (bs : List (Nat × Nat)) (fl : List Nat),
      Good False base h bs fl → runG base h acts = some h1 →
      ∃ bs1 fl1, Good False base h1 bs1 fl1 := by
  intro acts
  induction acts with
  | nil =>
    intro h h1 bs fl hg e
    simp only [runG, Option.some.injEq] at e
    exact ⟨bs, fl, e ▸ hg⟩
  | cons a acts ih =>
    intro h h1 bs fl hg e
    simp only [runG] at e
    cases hs : stepG base h a with
    | none => simp [hs] at e
    | some h2 =>
      simp only [hs, Option.some_bind] at e
      obtain ⟨bs2, fl2, hg2⟩ := stepG_good hb hg a hs
      exact ih h2 h1 bs2 fl2 hg2 e

/-- Once a call of `alloc` has been made the history is good. -/
theorem runG_alloc_good {base : Nat} (hb : BaseOK base) :
    ∀ (acts : List Act) (h h1 : Hist), HInvC base h → runG base h acts = some h1 →
      (∃ n, Act.alloc n ∈ acts) → ∃ bs fl, Good False base h1 bs fl := by
  intro acts
  induction acts with
  | nil =>
    intro h h1 _ _ ha
    obtain ⟨n, hn⟩ := ha
    cases hn
  | cons a acts ih =>
    intro h h1 hi e ha
    simp only [runG] at e
    cases hs : stepG base h a with
    | none => simp [hs] at e
    | some h2 =>
      simp only [hs, Option.some_bind] at e
      obtain ⟨n, hn⟩ := ha
      rcases List.mem_cons.1 hn with hn1 | hn1
      · subst hn1
        obtain ⟨bs2, fl2, hg2⟩ := stepG_alloc_good hb n hi hs
        exact runG_good hb acts h2 h1 bs2 fl2 hg2 e
      · exact ih h2 h1 (stepG_inv hb a hi hs) e ⟨n, hn1⟩

/-- Every history with stores becomes good once the lazy initialisation that
opens `alloc` has run; for an initialised state that step changes nothing. -/
theorem reachG_lazy {base : Nat} (hb : BaseOK base) {h : Hist} (hr : ReachG base h) :
    ∃ s0 bs fl, lazyInit base h.st = some s0 ∧ Good False base ⟨s0, h.issued, h.live⟩ bs fl ∧
      (∀ n, alloc base h.st n = alloc base s0 n) ∧ (h.st.initialized ≠ 0 → s0 = h.st) := by
  rcases reachG_inv hb hr with ⟨u1, u2, u3, u4, u5⟩ | ⟨bs, fl, hg⟩
  · obtain ⟨hp, e1, hg, _⟩ := alloc_uninit base hb h.st u1 u3 0
    refine ⟨⟨1, hp, base⟩, _, _, ?_, by rw [u4, u5]; exact hg, ?_, fun hc => absurd u1 hc⟩
    · simp only [lazyInit, u1, if_true]
      exact e1
    · intro n
      obtain ⟨hp2, e2, _, ha⟩ := alloc_uninit base hb h.st u1 u3 n
      rw [e1] at e2
      cases e2
      exact ha
  · refine ⟨h.st, bs, fl, ?_, hg, fun _ => rfl, fun _ => rfl⟩
    simp [lazyInit, hg.init]

/-! ### Claims about every reachable state, for clients that store -/

theorem safe_iff (base : Nat) (h : Hist) (p : Nat) :
    (Act.free p).safe base h = true ↔
      (p = NULL ∨ p ∈ h.live ∨ getNext base h.st (p - blocksize) ≠ some ALLOCATED) := by
  simp [Act.safe, or_assoc]

theorem reachG_live {base : Nat} (hb : BaseOK base) {h : Hist} (hr : ReachG base h) {p : Nat}
    (hp : p ∈ h.live) : ∃ bs fl, Good False base h bs fl := by
  rcases reachG_inv hb hr with ⟨_, _, _, _, u5⟩ | hg
  · rw [u5] at hp; cases hp
  · exact hg

/-- A release the guard admits returns and keeps the invariant. -/
theorem hinvC_free {base : Nat} (hb : BaseOK base) {h : Hist} (hi : HInvC base h) (p : Nat)
    (hv : p = NULL ∨ p ∈ h.issued)
    (hs : p = NULL ∨ p ∈ h.live ∨ getNext base h.st (p - blocksize) ≠ some ALLOCATED) :
    ∃ s1, free base h.st p = some s1 ∧ HInvC base ⟨s1, h.issued, h.live.erase p⟩ := by
  rcases hi with ⟨u1, u2, u3, u4, u5⟩ | ⟨bs, fl, hg⟩
  · have hp0 : p = 0 := by
      rcases hv with hv | hv
      · exact hv
      · rw [u4] at hv; cases hv
    subst hp0
    refine ⟨h.st, free_null base _, Or.inl ⟨u1, u2, u3, u4, ?_⟩⟩
    simp only [u5, List.erase_nil]
  · obtain ⟨s1, bs1, fl1, ex, hg1, _⟩ := safe_free_good hb hg p hv ((safe_iff base h p).2 hs)
    exact ⟨s1, ex, Or.inr ⟨bs1, fl1, hg1⟩⟩

theorem hinvC_noadj {base : Nat} (hb : BaseOK base) {h : Hist} (hi : HInvC base h) :
    ∃ fl, freeList base h.st = some fl ∧
      ∀ f ∈ fl, ∀ g ∈ fl, ∀ sf, getSize base h.st f = some sf → f + blocksize + sf ≠ g := by
  rcases hi with ⟨_, u2, _, _, _⟩ | ⟨bs, fl, hg⟩
  · exact ⟨[], freeList_of_null base _ u2, fun f hf => (by cases hf)⟩
  · exact ⟨fl, (hg.obs hb).2, good_noadj hg⟩

/-- Histories of calls alone are histories in which no marked stale pointer is
released: without stores a released pointer never has the marker before it. -/
theorem reachable_reachG {base : Nat} (hb : BaseOK base) {h : Hist} (hr : Reachable base h) :
    ReachG base h := by
  obtain ⟨ops, e⟩ := hr
  refine ⟨ops.map Op.act, ?_⟩
  have key : ∀ (ops : List Op) (g : Hist), HInv base g →
      runG base g (ops.map Op.act) = run base g ops := by
    intro ops
    induction ops with
    | nil => intro g _; rfl
    | cons op ops ih =>
      intro g hi
      have hstep : stepG base g op.act = step base g op := by
        cases op with
        | alloc n => rfl
        | free p =>
          by_cases hv : p = NULL ∨ p ∈ g.issued
          · have hsafe : (Act.free p).safe base g = true := by
              rw [safe_iff]
              rcases hi with hi | ⟨bs, fl, hg⟩
              · subst hi
                rcases hv with hv | hv
                · exact Or.inl hv
                · cases hv
              · rcases hv with hv | hv
                · exact Or.inl hv
                · by_cases hl : p ∈ g.live
                  · exact Or.inr (Or.inl hl)
                  · right; right
                    intro hc
                    apply hl
                    have hb1 := (baseOK_iff base).1 hb
                    have hpb := hg.issued p hv
                    simp only [blocksize] at hc
                    rw [getNext_eq base g.st (by omega)] at hc
                    obtain ⟨hst, _⟩ := hg.wf.stale trivial (p - 16) (by omega) (by omega)
                      (by omega) hc
                    obtain ⟨sz, hm⟩ := mem_starts hst
                    have hnf : p - 16 ∉ fl := fun hf => hg.wf.fl_not_marked hb hf hc
                    exact (hg.live p).2 ⟨(p - 16, sz), hm, hnf, by simp only; omega⟩
            simp only [stepG, Op.act, hsafe, if_true, stepC]
          · have : step base g (.free p) = none := by simp [step, hv]
            simp only [stepG, Op.act, stepC, this, ite_self]
      simp only [List.map_cons, runG, run, hstep]
      cases hs : step base g op with
      | none => rfl
      | some g2 =>
        simp only [Option.some_bind]
        exact ih g2 (step_inv hb op hi hs)
  rw [key ops _ (Or.inl rfl)]
  exact e

/-- Claim C1, amended (partition invariant): in every state reached by a
sequence of calls and client stores outside block headers that contains an
`alloc` and releases no stale pointer whose header position holds the marker,
the walk from the start of the arena ends exactly at its end, every block
visited is marked `ALLOCATED` or is an entry of the free list, and the block
extents `16 + size` add up to 256. -/
theorem partition_invariant (base : Nat) (hb : BaseOK base) (acts : List Act) (h : Hist)
    (hrun : runG base Hist.start acts = some h) (hal : ∃ n, Act.alloc n ∈ acts) :
    ∃ bs fl, blocks base h.st = some bs ∧ freeList base h.st = some fl ∧
      (∀ b ∈ bs, getNext base h.st b.1 = some ALLOCATED ∨ b.1 ∈ fl) ∧
      (bs.map (fun b => blocksize + b.2)).sum = memsize := by
  obtain ⟨bs, fl, hg⟩ := runG_alloc_good hb acts _ h (start_invC base) hrun hal
  refine ⟨bs, fl, (hg.obs hb).1, (hg.obs hb).2, ?_, ?_⟩
  · intro b hm
    by_cases hf : b.1 ∈ fl
    · exact Or.inr hf
    · left
      rw [hg.next_load hb hm]
      exact hg.wf.marked b hm hf (by simp)
  · have := Tile_sum hg.wf.tile
    simp only [memsize]
    omega

set_option maxRecDepth 100000 in
theorem partition_invariant_witness :
    runG 65536 Hist.start storeTrace = some (histAfterC 65536 storeTrace) ∧
      (∃ n, Act.alloc n ∈ storeTrace) ∧
      ∃ bs fl, blocks 65536 (histAfterC 65536 storeTrace).st = some bs ∧
        freeList 65536 (histAfterC 65536 storeTrace).st = some fl ∧
        (∀ b ∈ bs, getNext 65536 (histAfterC 65536 storeTrace).st b.1 = some ALLOCATED ∨
          b.1 ∈ fl) ∧
        (bs.map (fun b => blocksize + b.2)).sum = memsize :=
  ⟨by decide, ⟨8, by decide⟩,
    partition_invariant 65536 (by decide) storeTrace _ (by decide) ⟨8, by decide⟩⟩

set_option maxRecDepth 100000 in
/-- Claim C1 as stated fails once the client stores into its payload: after
`markerTrace` the live payload of 65552 holds the marker at offset 32. The
client also stores 80 at offset 24 and releases 65576 once more. `free` takes
the stale header at offset 24 for an allocated block of size 80, merges the
free block at offset 120 into it and puts offset 24 on the list: the block at
offset 120 of the walk is then neither marked `ALLOCATED` nor a list entry. -/
theorem partition_invariant_counterexample :
    runC 65536 Hist.start (markerTrace ++ [.store 65560 80, .free 65576]) =
        some (histAfterC 65536 (markerTrace ++ [.store 65560 80, .free 65576])) ∧
      Act.alloc 8 ∈ markerTrace ++ [.store 65560 80, .free 65576] ∧
      blocks 65536 (histAfterC 65536 (markerTrace ++ [.store 65560 80, .free 65576])).st =
        some [(65536, 104), (65656, 120)] ∧
      freeList 65536 (histAfterC 65536 (markerTrace ++ [.store 65560 80, .free 65576])).st =
        some [65560] ∧
      getNext 65536 (histAfterC 65536 (markerTrace ++ [.store 65560 80, .free 65576])).st
        65656 = some 0 := by
  decide

/-- Claim C3, amended (outstanding allocations never overlap): in every state
reached by calls and client stores outside block headers in which no stale
pointer with the marker at its header position is released, the payload of each
live pointer lies in the arena and is disjoint from the payload of every other
live pointer, from the header of every block of the partition and from header
and payload of every free-list block; and a pointer returned by a following
`alloc` has a payload disjoint from every live one. -/
theorem live_disjoint (base : Nat) (hb : BaseOK base) (h : Hist) (hr : ReachG base h) :
    (∀ p ∈ h.live, ∃ bs fl sp, blocks base h.st = some bs ∧ freeList base h.st = some fl ∧
        getSize base h.st (p - blocksize) = some sp ∧
        base + blocksize ≤ p ∧ p + sp ≤ base + memsize ∧
        (∀ q ∈ h.live, q ≠ p → ∃ sq, getSize base h.st (q - blocksize) = some sq ∧
          (p + sp ≤ q ∨ q + sq ≤ p)) ∧
        (∀ b ∈ bs, b.1 + blocksize ≤ p ∨ p + sp ≤ b.1) ∧
        (∀ x ∈ fl, ∃ sx, getSize base h.st x = some sx ∧
          (x + blocksize + sx ≤ p ∨ p + sp ≤ x))) ∧
      (∀ n, n < W → ∃ s1 p1, alloc base h.st n = some (s1, p1) ∧
        (p1 ≠ NULL → ∀ q ∈ h.live, q ≠ p1 ∧
          ∃ sp sq, getSize base s1 (p1 - blocksize) = some sp ∧
            getSize base s1 (q - blocksize) = some sq ∧ (p1 + sp ≤ q ∨ q + sq ≤ p1))) := by
  have hnext : ∀ (g : Hist) (bs : List (Nat × Nat)) (fl : List Nat), Good False base g bs fl →
      ∀ n, n < W → ∃ s1 p1, alloc base g.st n = some (s1, p1) ∧
        (p1 ≠ NULL → ∀ q ∈ g.live, q ≠ p1 ∧
          ∃ sp sq, getSize base s1 (p1 - blocksize) = some sp ∧
            getSize base s1 (q - blocksize) = some sq ∧ (p1 + sp ≤ q ∨ q + sq ≤ p1)) := by
    intro g bs fl hg n _
    rcases good_alloc hb hg n with ⟨e1, _⟩ |
      ⟨pre, x, sz, post, s1, _, _, _, _, _, ex, hcase⟩
    · exact ⟨g.st, 0, e1, fun hc => absurd rfl hc⟩
    · refine ⟨s1, x + 16, ex, fun _ q hq => ?_⟩
      have key : ∀ bs1 fl1,
          Good False base ⟨s1, (x + 16) :: g.issued, (x + 16) :: g.live⟩ bs1 fl1 →
          q ≠ x + 16 ∧ ∃ sp sq, getSize base s1 (x + 16 - blocksize) = some sp ∧
            getSize base s1 (q - blocksize) = some sq ∧ (x + 16 + sp ≤ q ∨ q + sq ≤ x + 16) := by
        intro bs1 fl1 hg1
        have hne : q ≠ x + 16 := by
          intro hc
          have := hg1.nodup
          simp only at this
          exact (List.nodup_cons.1 this).1 (hc ▸ hq)
        obtain ⟨sp, h1, _, _, h2, _, _⟩ := good_disjoint hg1 (p := x + 16) (by simp)
        obtain ⟨sq, h3, h4⟩ := h2 q (List.mem_cons_of_mem _ hq) hne
        exact ⟨hne, sp, sq, h1, h3, h4⟩
      rcases hcase with ⟨_, L, R, _, hg1⟩ | ⟨_, hg1⟩
      · exact key _ _ hg1
      · exact key _ _ hg1
  refine ⟨fun p hp => ?_, fun n hn => ?_⟩
  · obtain ⟨bs, fl, hg⟩ := reachG_live hb hr hp
    obtain ⟨sp, h1⟩ := good_disjoint hg hp
    exact ⟨bs, fl, sp, (hg.obs hb).1, (hg.obs hb).2, h1⟩
  · obtain ⟨s0, bs, fl, _, hg, hal, _⟩ := reachG_lazy hb hr
    obtain ⟨s1, p1, e1, h1⟩ := hnext _ bs fl hg n hn
    exact ⟨s1, p1, by rw [hal n]; exact e1, h1⟩

set_option maxRecDepth 100000 in
theorem live_disjoint_witness :
    ReachG 65536 (histAfterC 65536 storeTrace) ∧
      (histAfterC 65536 storeTrace).live = [65576] ∧
      ((∀ p ∈ (histAfterC 65536 storeTrace).live,
        ∃ bs fl sp,
          blocks 65536 (histAfterC 65536 storeTrace).st = some bs ∧
          freeList 65536 (histAfterC 65536 storeTrace).st = some fl ∧
          getSize 65536 (histAfterC 65536 storeTrace).st (p - blocksize) = some sp ∧
          65536 + blocksize ≤ p ∧ p + sp ≤ 65536 + memsize ∧
          (∀ q ∈ (histAfterC 65536 storeTrace).live, q ≠ p →
            ∃ sq, getSize 65536 (histAfterC 65536 storeTrace).st (q - blocksize) = some sq ∧
              (p + sp ≤ q ∨ q + sq ≤ p)) ∧
          (∀ b ∈ bs, b.1 + blocksize ≤ p ∨ p + sp ≤ b.1) ∧
          (∀ x ∈ fl, ∃ sx, getSize 65536 (histAfterC 65536 storeTrace).st x = some sx ∧
            (x + blocksize + sx ≤ p ∨ p + sp ≤ x))) ∧
      (∀ n, n < W → ∃ s1 p1,
        alloc 65536 (histAfterC 65536 storeTrace).st n = some (s1, p1) ∧
        (p1 ≠ NULL →
          ∀ q ∈ (histAfterC 65536 storeTrace).live, q ≠ p1 ∧
            ∃ sp sq, getSize 65536 s1 (p1 - blocksize) = some sp ∧
              getSize 65536 s1 (q - blocksize) = some sq ∧ (p1 + sp ≤ q ∨ q + sq ≤ p1)))) :=
  ⟨⟨storeTrace, by decide⟩, by decide,
    live_disjoint 65536 (by decide) _ ⟨storeTrace, by decide⟩⟩

set_option maxRecDepth 100000 in
/-- Claim C3 as stated fails once the client stores into its payload: after
`markerTrace` and one more release of 65576 the stale header at offset 24 is on
the free list with its old size 216, and `alloc 200` hands out its payload at
offset 40, inside the live payload of 65552, which spans the offsets 16 to
120. -/
theorem live_disjoint_counterexample :
    ReachC 65536 (histAfterC 65536 (markerTrace ++ [.free 65576])) ∧
      65552 ∈ (histAfterC 65536 (markerTrace ++ [.free 65576])).live ∧
      getSize 65536 (histAfterC 65536 (markerTrace ++ [.free 65576])).st
        (65552 - blocksize) = some 104 ∧
      alloc 65536 (histAfterC 65536 (markerTrace ++ [.free 65576])).st 200 =
        some (allocState 65536 (histAfterC 65536 (markerTrace ++ [.free 65576])).st 200,
          65576) ∧
      65552 ≤ 65576 ∧ 65576 < 65552 + 104 :=
  ⟨⟨markerTrace ++ [.free 65576], by decide⟩, by decide, by decide, by decide, by decide,
    by decide⟩

/-- Claim C5, amended (no-adjacent-free invariant): in every state reached by
calls and client stores outside block headers in which no stale pointer with
the marker at its header position is released, no free-list entry `f` ends
where another free-list entry `g` begins, and the same holds in the state right
after any `free` call with null, a live pointer, or a released pointer without
the marker at its header position. -/
theorem no_adjacent_free (base : Nat) (hb : BaseOK base) (h : Hist) (hr : ReachG base h) :
    ∃ fl, freeList base h.st = some fl ∧
      (∀ f ∈ fl, ∀ g ∈ fl, ∀ sf, getSize base h.st f = some sf → f + blocksize + sf ≠ g) ∧
      (∀ p, (p = NULL ∨ p ∈ h.issued) →
        (p = NULL ∨ p ∈ h.live ∨ getNext base h.st (p - blocksize) ≠ some ALLOCATED) →
        ∃ s1 fl1, free base h.st p = some s1 ∧ freeList base s1 = some fl1 ∧
          ∀ f ∈ fl1, ∀ g ∈ fl1, ∀ sf, getSize base s1 f = some sf → f + blocksize + sf ≠ g) := by
  have hi := reachG_inv hb hr
  obtain ⟨fl, e1, e2⟩ := hinvC_noadj hb hi
  refine ⟨fl, e1, e2, fun p hv hs => ?_⟩
  obtain ⟨s1, ex, hi1⟩ := hinvC_free hb hi p hv hs
  obtain ⟨fl1, e3, e4⟩ := hinvC_noadj hb hi1
  exact ⟨s1, fl1, ex, e3, e4⟩

set_option maxRecDepth 100000 in
theorem no_adjacent_free_witness :
    ReachG 65536 (histAfterC 65536 storeTrace) ∧
      ∃ fl, freeList 65536 (histAfterC 65536 storeTrace).st = some fl ∧
        (∀ f ∈ fl, ∀ g ∈ fl, ∀ sf,
          getSize 65536 (histAfterC 65536 storeTrace).st f = some sf →
            f + blocksize + sf ≠ g) ∧
        (∀ p, (p = NULL ∨ p ∈ (histAfterC 65536 storeTrace).issued) →
          (p = NULL ∨ p ∈ (histAfterC 65536 storeTrace).live ∨
            getNext 65536 (histAfterC 65536 storeTrace).st (p - blocksize) ≠
              some ALLOCATED) →
          ∃ s1 fl1, free 65536 (histAfterC 65536 storeTrace).st p = some s1 ∧
            freeList 65536 s1 = some fl1 ∧
            ∀ f ∈ fl1, ∀ g ∈ fl1, ∀ sf, getSize 65536 s1 f = some sf →
              f + blocksize + sf ≠ g) :=
  ⟨⟨storeTrace, by decide⟩, no_adjacent_free 65536 (by decide) _ ⟨storeTrace, by decide⟩⟩

set_option maxRecDepth 100000 in
/-- Claim C5 as stated fails once the client stores into its payload: after
`markerTrace` the client stores 8 at offset 24 and releases 65576 and 65552;
the stale header at offset 24 (size 8) is then a list entry inside the free
block at offset 0. The next `alloc 32` splits that block, and the remainder at
offset 48 is a list entry that begins exactly where the entry at offset 24
ends. -/
theorem no_adjacent_free_counterexample :
    ReachC 65536 (histAfterC 65536
        (markerTrace ++ [.store 65560 8, .free 65576, .free 65552, .alloc 32])) ∧
      freeList 65536 (histAfterC 65536
        (markerTrace ++ [.store 65560 8, .free 65576, .free 65552, .alloc 32])).st =
          some [65584, 65560] ∧
      getSize 65536 (histAfterC 65536
        (markerTrace ++ [.store 65560 8, .free 65576, .free 65552, .alloc 32])).st 65560 =
          some 8 ∧
      65560 + blocksize + 8 = 65584 :=
  ⟨⟨markerTrace ++ [.store 65560 8, .free 65576, .free 65552, .alloc 32], by decide⟩,
    by decide, by decide, by decide⟩

theorem arenaBlocks_uninit (base : Nat) (s : State) (h : s.initialized = 0) :
    arenaBlocks base s = some [] := by
  simp [arenaBlocks, h]

/-- Claim C16, amended (free-list membership): in every state reached by calls
and client stores outside block headers in which no stale pointer with the
marker at its header position is released, the free list has no duplicate, the
blocks of the arena have pairwise different starts, an address is a free-list
entry exactly if it is the start of a block of the arena whose header is not
marked `ALLOCATED`, and the block of a live pointer is marked `ALLOCATED` and
is not a free-list entry. -/
theorem free_list_membership (base : Nat) (hb : BaseOK base) (h : Hist)
    (hr : ReachG base h) :
    ∃ bs fl, arenaBlocks base h.st = some bs ∧ freeList base h.st = some fl ∧
      fl.Nodup ∧ (bs.map Prod.fst).Nodup ∧
      (∀ x, x ∈ fl ↔ ∃ b ∈ bs, b.1 = x ∧ getNext base h.st x ≠ some ALLOCATED) ∧
      (∀ p ∈ h.live, (∃ b ∈ bs, b.1 = p - blocksize) ∧ p - blocksize ∉ fl ∧
        getNext base h.st (p - blocksize) = some ALLOCATED) := by
  rcases reachG_inv hb hr with ⟨u1, u2, _, _, u5⟩ | ⟨bs, fl, hg⟩
  · refine ⟨[], [], arenaBlocks_uninit base _ u1, freeList_of_null base _ u2, List.nodup_nil,
      List.nodup_nil, fun x => ?_, fun p hp => ?_⟩
    · simp
    · rw [u5] at hp; cases hp
  · refine ⟨bs, fl, hg.arenaBlocks_eq hb, (hg.obs hb).2, hg.wf.nodup, Tile_nodup hg.wf.tile,
      fun x => ?_, fun p hp => ?_⟩
    · constructor
      · intro hx
        obtain ⟨sz, hm⟩ := hg.wf.fl_block hx
        exact ⟨(x, sz), hm, rfl, fun hc => (hg.marked_iff hb hm).1 hc hx⟩
      · rintro ⟨b, hm, rfl, hn⟩
        by_contra hc
        exact hn ((hg.marked_iff hb hm).2 hc)
    · obtain ⟨b, hm, hnf, hpe⟩ := (hg.live p).1 hp
      have e : p - blocksize = b.1 := by simp only [blocksize]; omega
      rw [e]
      exact ⟨⟨b, hm, rfl⟩, hnf, (hg.marked_iff hb hm).2 hnf⟩

set_option maxRecDepth 100000 in
theorem free_list_membership_witness :
    ReachG 65536 (histAfterC 65536 storeTrace) ∧
      ∃ bs fl,
        arenaBlocks 65536 (histAfterC 65536 storeTrace).st = some bs ∧
        freeList 65536 (histAfterC 65536 storeTrace).st = some fl ∧
        fl.Nodup ∧ (bs.map Prod.fst).Nodup ∧
        (∀ x, x ∈ fl ↔ ∃ b ∈ bs, b.1 = x ∧
          getNext 65536 (histAfterC 65536 storeTrace).st x ≠ some ALLOCATED) ∧
        (∀ p ∈ (histAfterC 65536 storeTrace).live,
          (∃ b ∈ bs, b.1 = p - blocksize) ∧ p - blocksize ∉ fl ∧
          getNext 65536 (histAfterC 65536 storeTrace).st (p - blocksize) =
            some ALLOCATED) :=
  ⟨⟨storeTrace, by decide⟩,
    free_list_membership 65536 (by decide) _ ⟨storeTrace, by decide⟩⟩

set_option maxRecDepth 100000 in
/-- Claim C16 as stated fails once the client stores into its payload: after
`markerTrace` and one more release of 65576 the free list holds the address at
offset 24, which is not the start of a block of the partition: it lies inside
the live payload of 65552. -/
theorem free_list_membership_counterexample :
    ReachC 65536 (histAfterC 65536 (markerTrace ++ [.free 65576])) ∧
      arenaBlocks 65536 (histAfterC 65536 (markerTrace ++ [.free 65576])).st =
        some [(65536, 104), (65656, 120)] ∧
      freeList 65536 (histAfterC 65536 (markerTrace ++ [.free 65576])).st =
        some [65560, 65656] ∧
      65552 ∈ (histAfterC 65536 (markerTrace ++ [.free 65576])).live ∧
      65552 ≤ 65560 ∧ 65560 < 65552 + 104 :=
  ⟨⟨markerTrace ++ [.free 65576], by decide⟩, by decide, by decide, by decide, by decide,
    by decide⟩

/-- Claim C19, amended (full recovery): in every initialised state reached by
calls and client stores outside block headers in which no stale pointer with
the marker at its header position is released, if no pointer is live then the
partition is the single block at offset 0 of size 240, that block is the only
free-list entry, and `alloc 240` succeeds. -/
theorem full_recovery (base : Nat) (hb : BaseOK base) (h : Hist) (hr : ReachG base h)
    (hi : h.st.initialized ≠ 0) (hl : h.live = []) :
    blocks base h.st = some [(base, memsize - blocksize)] ∧
      freeList base h.st = some [base] ∧
      getSize base h.st base = some (memsize - blocksize) ∧
      ∃ s1, alloc base h.st (memsize - blocksize) = some (s1, base + blocksize) := by
  have hb1 := (baseOK_iff base).1 hb
  rcases reachG_inv hb hr with ⟨u1, _⟩ | ⟨bs, fl, hg⟩
  · exact absurd u1 hi
  have hfree : ∀ b ∈ bs, b.1 ∈ fl := by
    intro b hm
    by_contra hc
    have : b.1 + 16 ∈ h.live := (hg.live _).2 ⟨b, hm, hc, rfl⟩
    rw [hl] at this
    cases this
  have hbs : bs = [(base, 240)] := by
    have ht := hg.wf.tile
    cases bs with
    | nil =>
      simp only [Tile] at ht
      omega
    | cons b r =>
      cases r with
      | nil =>
        obtain ⟨h1, _, _, h4⟩ := ht
        simp only [Tile] at h4
        have : b = (base, 240) := Prod.ext h1 (by simp only; omega)
        rw [this]
      | cons c r =>
        exfalso
        obtain ⟨h3, _, _, h4⟩ := ht
        obtain ⟨h5, _⟩ := h4
        have h6 : b.1 + 16 + b.2 = c.1 := by omega
        exact hg.wf.noadj b (by simp) (hfree b (by simp))
          (by rw [h6]; exact hfree c (by simp))
  subst hbs
  have hfl : fl = [base] := by
    have hnd := hg.wf.nodup
    have hsub : ∀ x ∈ fl, x = base := by
      intro x hx
      have := hg.wf.sub x hx
      simpa using this
    have hin : base ∈ fl := hfree (base, 240) (by simp)
    cases fl with
    | nil => cases hin
    | cons a r =>
      have ha := hsub a (by simp)
      subst ha
      cases r with
      | nil => rfl
      | cons c r =>
        have hc := hsub c (by simp)
        subst hc
        simp at hnd
  subst hfl
  have hm : ((base, 240) : Nat × Nat) ∈ [(base, 240)] := by simp
  have hsz := hg.size_eq hm
  have hr240 : roundUp 240 = 240 := by decide
  simp only [memsize, blocksize]
  refine ⟨(hg.obs hb).1, (hg.obs hb).2, hsz, ?_⟩
  rcases good_alloc_obs hb hg 240 with ⟨_, _, e1⟩ |
    ⟨pre, x, sz1, post, s1, _, e, hm1, _, _, _, _, _, _, ex, _⟩
  · exfalso
    rw [hr240] at e1
    rcases e1 with e1 | e1
    · omega
    · have := e1 (base, 240) (by simp) (by simp)
      simp only at this
      omega
  · simp only [List.mem_singleton, Prod.mk.injEq] at hm1
    obtain ⟨rfl, rfl⟩ := hm1
    exact ⟨s1, ex⟩

set_option maxRecDepth 100000 in
theorem full_recovery_witness :
    ReachG 65536 (histAfterC 65536 drainTrace) ∧
      (histAfterC 65536 drainTrace).st.initialized ≠ 0 ∧
      (histAfterC 65536 drainTrace).live = [] ∧
      blocks 65536 (histAfterC 65536 drainTrace).st = some [(65536, memsize - blocksize)] ∧
      freeList 65536 (histAfterC 65536 drainTrace).st = some [65536] ∧
      getSize 65536 (histAfterC 65536 drainTrace).st 65536 = some (memsize - blocksize) ∧
      ∃ s1, alloc 65536 (histAfterC 65536 drainTrace).st (memsize - blocksize) =
        some (s1, 65536 + blocksize) :=
  ⟨⟨drainTrace, by decide⟩, by decide, by decide,
    full_recovery 65536 (by decide) _ ⟨drainTrace, by decide⟩ (by decide) (by decide)⟩

set_option maxRecDepth 100000 in
/-- Claim C19 as stated fails once the client stores into its payload: after
`markerTrace` the client stores 8 at offset 24 and releases 65576 and 65552.
No pointer is live any more, yet the free list has two entries: the block at
offset 0 of size 240 and the stale header at offset 24 inside it. -/
theorem full_recovery_counterexample :
    ReachC 65536 (histAfterC 65536
        (markerTrace ++ [.store 65560 8, .free 65576, .free 65552])) ∧
      (histAfterC 65536
        (markerTrace ++ [.store 65560 8, .free 65576, .free 65552])).st.initialized = 1 ∧
      (histAfterC 65536
        (markerTrace ++ [.store 65560 8, .free 65576, .free 65552])).live = [] ∧
      freeList 65536 (histAfterC 65536
        (markerTrace ++ [.store 65560 8, .free 65576, .free 65552])).st =
          some [65536, 65560] :=
  ⟨⟨markerTrace ++ [.store 65560 8, .free 65576, .free 65552], by decide⟩, by decide,
    by decide, by decide⟩

/-- Claim C20, amended (size and offset granularity): in every state reached by
calls and client stores outside block headers in which no stale pointer with
the marker at its header position is released, every block of the arena has a
recorded size that is positive and a multiple of 8 and a header offset that is
a multiple of 8; every pointer `alloc` has returned so far, and every non-null
pointer a following `alloc` returns, lies at an offset from the start of the
arena that is a multiple of 8. -/
theorem size_offset_granularity (base : Nat) (hb : BaseOK base) (h : Hist)
    (hr : ReachG base h) :
    ∃ bs, arenaBlocks base h.st = some bs ∧
      (∀ b ∈ bs, getSize base h.st b.1 = some b.2 ∧ 0 < b.2 ∧ b.2 % 8 = 0 ∧
        base ≤ b.1 ∧ (b.1 - base) % 8 = 0) ∧
      (∀ p ∈ h.issued, base ≤ p ∧ (p - base) % 8 = 0) ∧
      (∀ n s1 p, alloc base h.st n = some (s1, p) → p ≠ NULL →
        base ≤ p ∧ (p - base) % 8 = 0) := by
  have hnext : ∀ n s1 p, alloc base h.st n = some (s1, p) → p ≠ NULL →
      base ≤ p ∧ (p - base) % 8 = 0 := by
    intro n s1 p ha hp
    obtain ⟨s0, bs, fl, _, hg, hal, _⟩ := reachG_lazy hb hr
    rw [hal n] at ha
    rcases good_alloc_obs hb hg n with ⟨e1, _⟩ |
      ⟨pre, x, sz, post, s2, _, _, hm, _, _, _, _, _, _, ex, _⟩
    · rw [e1] at ha
      simp only [Option.some.injEq, Prod.mk.injEq] at ha
      exact absurd ha.2.symm hp
    · rw [ex] at ha
      simp only [Option.some.injEq, Prod.mk.injEq] at ha
      obtain ⟨_, rfl⟩ := ha
      have := hg.wf.block_bounds hm
      simp only at this
      omega
  rcases reachG_inv hb hr with ⟨u1, _, _, u4, _⟩ | ⟨bs, fl, hg⟩
  · refine ⟨[], arenaBlocks_uninit base _ u1, fun b hm => (by cases hm), fun p hp => ?_,
      hnext⟩
    rw [u4] at hp; cases hp
  · refine ⟨bs, hg.arenaBlocks_eq hb, fun b hm => ?_, fun p hp => ?_, hnext⟩
    · have := hg.wf.block_bounds hm
      exact ⟨hg.size_eq hm, this.2.2.1, this.2.2.2.1, this.1, this.2.2.2.2⟩
    · have := hg.issued p hp
      omega

set_option maxRecDepth 100000 in
theorem size_offset_granularity_witness :
    ReachG 65536 (histAfterC 65536 storeTrace) ∧
      ∃ bs, arenaBlocks 65536 (histAfterC 65536 storeTrace).st = some bs ∧
        (∀ b ∈ bs, getSize 65536 (histAfterC 65536 storeTrace).st b.1 = some b.2 ∧
          0 < b.2 ∧ b.2 % 8 = 0 ∧ 65536 ≤ b.1 ∧ (b.1 - 65536) % 8 = 0) ∧
        (∀ p ∈ (histAfterC 65536 storeTrace).issued, 65536 ≤ p ∧ (p - 65536) % 8 = 0) ∧
        (∀ n s1 p, alloc 65536 (histAfterC 65536 storeTrace).st n = some (s1, p) →
          p ≠ NULL → 65536 ≤ p ∧ (p - 65536) % 8 = 0) :=
  ⟨⟨storeTrace, by decide⟩,
    size_offset_granularity 65536 (by decide) _ ⟨storeTrace, by decide⟩⟩

set_option maxRecDepth 100000 in
/-- Claim C20 as stated fails once the client stores into its payload: after
`markerTrace` the client stores 100 at offset 24 and releases 65576, which puts
the stale header at offset 24 on the free list with size 100. `alloc 80` splits
it and writes the header of the remainder, size 100 - 80 - 16 = 4, at offset
120: the second block of the partition now has the recorded size 4, and the
walk over the arena no longer ends at offset 256. -/
theorem size_offset_granularity_counterexample :
    ReachC 65536 (histAfterC 65536
        (markerTrace ++ [.store 65560 100, .free 65576, .alloc 80])) ∧
      getSize 65536 (histAfterC 65536
        (markerTrace ++ [.store 65560 100, .free 65576, .alloc 80])).st 65536 = some 104 ∧
      65536 + blocksize + 104 = 65656 ∧
      getSize 65536 (histAfterC 65536
        (markerTrace ++ [.store 65560 100, .free 65576, .alloc 80])).st 65656 = some 4 ∧
      arenaBlocks 65536 (histAfterC 65536
        (markerTrace ++ [.store 65560 100, .free 65576, .alloc 80])).st = none :=
  ⟨⟨markerTrace ++ [.store 65560 100, .free 65576, .alloc 80], by decide⟩, by decide,
    by decide, by decide, by decide⟩

/-- Claim C17, amended (traversals terminate, the release scan is one complete
pass): in every state reached by calls and client stores outside block headers
in which no stale pointer with the marker at its header position is released,
following `next` from `free_list_start` reaches null after finitely many steps,
visiting the entries `fl`, no entry twice; the search loop of `alloc` stops and
`alloc` returns for every request; `free` returns for null, for every live
pointer and for every released pointer without the marker at its header
position; and for a live pointer `p`, after the marker of its block has been
cleared, the scan loop stops and the entries it examines are exactly the
entries `fl` of the free list before the call, in list order, each once. -/
theorem traversals_terminate (base : Nat) (hb : BaseOK base) (h : Hist)
    (hr : ReachG base h) :
    ∃ fl, freeList base h.st = some fl ∧ fl.Nodup ∧
      (∀ n, ∃ s0 blk r, lazyInit base h.st = some s0 ∧
        findBlock base s0 (roundUp n) loopFuel .head = some blk ∧
        alloc base h.st n = some r) ∧
      (∀ p, (p = NULL ∨ p ∈ h.issued) →
        (p = NULL ∨ p ∈ h.live ∨ getNext base h.st (p - blocksize) ≠ some ALLOCATED) →
        ∃ s1, free base h.st p = some s1) ∧
      (∀ p ∈ h.live, ∃ s1 r, setNext base h.st (p - blocksize) NULL = some s1 ∧
        scan base loopFuel s1 (p - blocksize) .head = some r ∧
        scanLog base loopFuel s1 (p - blocksize) .head = some fl) := by
  have halloc : ∀ n, ∃ s0 blk r, lazyInit base h.st = some s0 ∧
      findBlock base s0 (roundUp n) loopFuel .head = some blk ∧
      alloc base h.st n = some r := by
    intro n
    obtain ⟨s0, bs, fl, e0, hg, hal, _⟩ := reachG_lazy hb hr
    have hst := State.eta_init hg.init
    have hlen := hg.wf.fl_length
    obtain ⟨p2, q2, _, hfind, _⟩ :=
      findBlock_spec (i := 1) hb hg.wf (roundUp n) fl [] loopFuel rfl
        (by simp only [loopFuel, memsize]; omega)
    have hfind1 : findBlock base s0 (roundUp n) loopFuel .head = some (locAfter ([] ++ p2)) := by
      have e : s0 = ⟨1, s0.heap, s0.free_list_start⟩ := hst
      rw [e]
      exact hfind
    rcases good_alloc hb hg n with ⟨e1, _⟩ | ⟨_, _, _, _, s1, _, _, _, _, _, ex, _⟩
    · exact ⟨s0, _, _, e0, hfind1, by rw [hal n]; exact e1⟩
    · exact ⟨s0, _, _, e0, hfind1, by rw [hal n]; exact ex⟩
  have hi := reachG_inv hb hr
  have hfree : ∀ p, (p = NULL ∨ p ∈ h.issued) →
      (p = NULL ∨ p ∈ h.live ∨ getNext base h.st (p - blocksize) ≠ some ALLOCATED) →
      ∃ s1, free base h.st p = some s1 := by
    intro p hv hs
    obtain ⟨s1, ex, _⟩ := hinvC_free hb hi p hv hs
    exact ⟨s1, ex⟩
  rcases hi with ⟨_, u2, _, _, u5⟩ | ⟨bs, fl, hg⟩
  · refine ⟨[], freeList_of_null base _ u2, List.nodup_nil, halloc, hfree, fun p hp => ?_⟩
    rw [u5] at hp; cases hp
  · exact ⟨fl, (hg.obs hb).2, hg.wf.nodup, halloc, hfree, fun p hp => good_scan hb hg hp⟩

set_option maxRecDepth 100000 in
theorem traversals_terminate_witness :
    ReachG 65536 (histAfterC 65536 storeTrace) ∧
      ∃ fl, freeList 65536 (histAfterC 65536 storeTrace).st = some fl ∧ fl.Nodup ∧
        (∀ n, ∃ s0 blk r, lazyInit 65536 (histAfterC 65536 storeTrace).st = some s0 ∧
          findBlock 65536 s0 (roundUp n) loopFuel .head = some blk ∧
          alloc 65536 (histAfterC 65536 storeTrace).st n = some r) ∧
        (∀ p, (p = NULL ∨ p ∈ (histAfterC 65536 storeTrace).issued) →
          (p = NULL ∨ p ∈ (histAfterC 65536 storeTrace).live ∨
            getNext 65536 (histAfterC 65536 storeTrace).st (p - blocksize) ≠
              some ALLOCATED) →
          ∃ s1, free 65536 (histAfterC 65536 storeTrace).st p = some s1) ∧
        (∀ p ∈ (histAfterC 65536 storeTrace).live, ∃ s1 r,
          setNext 65536 (histAfterC 65536 storeTrace).st (p - blocksize) NULL = some s1 ∧
          scan 65536 loopFuel s1 (p - blocksize) .head = some r ∧
          scanLog 65536 loopFuel s1 (p - blocksize) .head = some fl) :=
  ⟨⟨storeTrace, by decide⟩,
    traversals_terminate 65536 (by decide) _ ⟨storeTrace, by decide⟩⟩

set_option maxRecDepth 100000 in
/-- Claim C17 as stated fails once the client stores into its payload: after
`markerTrace` the client stores 8 at offset 24 and releases 65576 and 65552,
which leaves the stale header at offset 24 on the free list behind the block
at offset 0. `alloc 8` splits that block and writes the header of the remainder
over the stale one, with the old successor, offset 24, as its `next`: the list
entry at offset 24 now points to itself. The list walk, the search of
`alloc 230` and the scan of `free 65552` run out of fuel: the loops of the
source do not stop. -/
theorem traversals_terminate_counterexample :
    ReachC 65536 (histAfterC 65536
        (markerTrace ++ [.store 65560 8, .free 65576, .free 65552, .alloc 8])) ∧
      (histAfterC 65536
        (markerTrace ++ [.store 65560 8, .free 65576, .free 65552, .alloc 8])).st.free_list_start
          = 65560 ∧
      getNext 65536 (histAfterC 65536
        (markerTrace ++ [.store 65560 8, .free 65576, .free 65552, .alloc 8])).st 65560 =
          some 65560 ∧
      freeList 65536 (histAfterC 65536
        (markerTrace ++ [.store 65560 8, .free 65576, .free 65552, .alloc 8])).st = none ∧
      alloc 65536 (histAfterC 65536
        (markerTrace ++ [.store 65560 8, .free 65576, .free 65552, .alloc 8])).st 230 = none ∧
      65552 ∈ (histAfterC 65536
        (markerTrace ++ [.store 65560 8, .free 65576, .free 65552, .alloc 8])).live ∧
      free 65536 (histAfterC 65536
        (markerTrace ++ [.store 65560 8, .free 65576, .free 65552, .alloc 8])).st 65552 =
          none :=
  ⟨⟨markerTrace ++ [.store 65560 8, .free 65576, .free 65552, .alloc 8], by decide⟩,
    by decide, by decide, by decide, by decide, by decide, by decide⟩

end Alloc
